import Mathlib

/-! # Access-pattern inspection of the state manager

Shallow embedding of `prover/backend/execution/statemanager/access_pattern.go`:
the six matchers `isMissingAccRead`, `isAccCreation`, `isAccDeletion`,
`isAccRead`, `isAccUpdate`, `isAccRedeploy` and the dispatcher
`inspectPattern`.

Conventions of the embedding.

* A Go slice `[]DecodedTrace` is a `List DecodedTrace`.  A matcher returns the
  slice as it stands after the call together with its two Go results, because
  `isAccRead` writes to the slice of its caller.
* An index read that is out of range is the Go run-time panic; a function
  that can panic returns `Option`, and `none` is the panic.
* A counted loop `for i := 0; i < n; i++` whose body changes neither `i` nor
  `n` is a recursion on the number of iterations that remain, carrying the
  index `i`.
* The named result `err` of a matcher is threaded through its loop exactly as
  the source assigns it.
-/

namespace Statemanager

/-- Modelled from the spec: the dynamic type of the field `Underlying` of a
`DecodedTrace`; the type declarations are not part of the sources at hand.
The spec gives five kinds on two scopes; the names are those the matchers
use in their type assertions, `DeletionTraceST` and `UpdateTraceST` being the
storage variants no grammar refers to. -/
inductive TraceType where
  | ReadZeroTraceWS
  | ReadNonZeroTraceWS
  | InsertionTraceWS
  | DeletionTraceWS
  | UpdateTraceWS
  | ReadZeroTraceST
  | ReadNonZeroTraceST
  | InsertionTraceST
  | DeletionTraceST
  | UpdateTraceST
  deriving DecidableEq, Repr

/-- Modelled from the spec: the scope tag of a trace token, world state or
storage trie. -/
inductive Scope where
  | WS
  | ST
  deriving DecidableEq, Repr

/-- Modelled from the spec: the scope of each variant. -/
def TraceType.scope : TraceType → Scope
  | .ReadZeroTraceWS => .WS
  | .ReadNonZeroTraceWS => .WS
  | .InsertionTraceWS => .WS
  | .DeletionTraceWS => .WS
  | .UpdateTraceWS => .WS
  | .ReadZeroTraceST => .ST
  | .ReadNonZeroTraceST => .ST
  | .InsertionTraceST => .ST
  | .DeletionTraceST => .ST
  | .UpdateTraceST => .ST

/-- Modelled from the spec: a trace token, the struct `DecodedTrace` whose
declaration is not part of the sources at hand.  It carries its variant and a
payload this component never inspects. -/
structure DecodedTrace where
  Underlying : TraceType
  payload : Nat
  deriving DecidableEq, Repr

/-- Modelled from the spec: the method `isWorldState`, whose body is not part
of the sources at hand; it answers whether the scope of the token is the world
state. -/
def DecodedTrace.isWorldState (trace : DecodedTrace) : Bool :=
  decide (trace.Underlying.scope = Scope.WS)

/-- The errors the matchers and the dispatcher build, one constructor per
message of the source. -/
inductive PatternError where
  /-- Message "found read zero in a trace whose length is larger than 1" -/
  | readZeroInLongTrace
  /-- Message "invalid trace : found %T in an insertion trace" -/
  | invalidInsertionTrace (t : TraceType)
  /-- Message "invalid deletion preceded by another trace %++v" -/
  | deletionPreceded (trace : DecodedTrace)
  /-- Message "invalid trace : found %T in an deletion trace" -/
  | invalidDeletionTrace (t : TraceType)
  /-- Message "invalid update preceded by another trace %++v" -/
  | updatePreceded (trace : DecodedTrace)
  /-- Message "the segment contains two ACCOUNT_READ" -/
  | twoAccountRead
  /-- Message "invalid read preceded by another trace %++v" -/
  | readPreceded (trace : DecodedTrace)
  /-- Message "invalid trace : found %T in an account read trace" -/
  | invalidReadTrace (t : TraceType)
  /-- Message "found more than two deletion" -/
  | moreThanTwoDeletion
  /-- Message "found a %v in a trace ending with an insertion" -/
  | wsInInsertionTrace (trace : DecodedTrace)
  /-- Message "no match found : %v", with the list of the types -/
  | noMatchFound (ts : List TraceType)
  deriving DecidableEq, Repr

/-- What a matcher leaves behind when it returns: the slice after the call and
the results `ok` and `err`. -/
structure MatchResult where
  traces : List DecodedTrace
  ok : Bool
  err : Option PatternError
  deriving DecidableEq, Repr

/-- How a loop of a matcher ends: a panic on an index read, a `return` from
inside the body, or the end of the iteration with the current `err`. -/
inductive LoopOut where
  | panic
  | ret (ok : Bool) (err : Option PatternError)
  | done (err : Option PatternError)
  deriving DecidableEq, Repr

/-- The read `traces[len(traces)-1]`; on the empty slice the index is `-1`
and the read panics. -/
def readLast (traces : List DecodedTrace) : Option DecodedTrace :=
  if traces.length = 0 then none else traces[traces.length - 1]?

/-- The loop `for _, trace := range traces` of `isMissingAccRead`. -/
def isMissingAccRead.loop : List DecodedTrace → LoopOut
  | [] => .done none
  | trace :: rest =>
    if trace.Underlying = .ReadZeroTraceWS then
      .ret false (some .readZeroInLongTrace)
    else
      isMissingAccRead.loop rest

/-- The matcher `isMissingAccRead`. -/
def isMissingAccRead (traces : List DecodedTrace) : Option MatchResult :=
  match traces[0]? with
  | none => none
  | some first =>
    if first.Underlying = .ReadZeroTraceWS ∧ traces.length = 1 then
      some ⟨traces, true, none⟩
    else
      match isMissingAccRead.loop traces with
      | .panic => none
      | .ret ok err => some ⟨traces, ok, err⟩
      | .done _ => some ⟨traces, false, none⟩

/-- The loop of `isAccCreation`, `for i := 0; i < len(traces)-1; i++`. -/
def isAccCreation.loop (traces : List DecodedTrace) :
    Nat → Nat → Option PatternError → LoopOut
  | 0, _, err => .done err
  | rem + 1, i, err =>
    match traces[i]? with
    | none => .panic
    | some trace =>
      if trace.isWorldState then
        .ret false none
      else
        let err' :=
          match trace.Underlying with
          | .ReadZeroTraceST => err
          | .InsertionTraceST => err
          | t => if err.isSome then some (.invalidInsertionTrace t) else err
        isAccCreation.loop traces rem (i + 1) err'

/-- The matcher `isAccCreation`. -/
def isAccCreation (traces : List DecodedTrace) : Option MatchResult :=
  match readLast traces with
  | none => none
  | some last =>
    if last.Underlying ≠ .InsertionTraceWS then
      some ⟨traces, false, none⟩
    else if traces.length = 1 then
      some ⟨traces, true, none⟩
    else
      match isAccCreation.loop traces (traces.length - 1) 0 none with
      | .panic => none
      | .ret ok err => some ⟨traces, ok, err⟩
      | .done err =>
        if err.isSome then some ⟨traces, false, err⟩
        else some ⟨traces, true, none⟩

/-- The loop of `isAccDeletion`, `for i := 0; i < len(traces)-1; i++`. -/
def isAccDeletion.loop (traces : List DecodedTrace) :
    Nat → Nat → Option PatternError → LoopOut
  | 0, _, err => .done err
  | rem + 1, i, err =>
    match traces[i]? with
    | none => .panic
    | some trace =>
      if trace.isWorldState then
        .ret false (some (.deletionPreceded trace))
      else
        let err' :=
          match trace.Underlying with
          | .ReadNonZeroTraceST => err
          | .ReadZeroTraceST => err
          | t => if err.isSome then some (.invalidDeletionTrace t) else err
        isAccDeletion.loop traces rem (i + 1) err'

/-- The matcher `isAccDeletion`. -/
def isAccDeletion (traces : List DecodedTrace) : Option MatchResult :=
  match readLast traces with
  | none => none
  | some last =>
    if last.Underlying ≠ .DeletionTraceWS then
      some ⟨traces, false, none⟩
    else if traces.length = 1 then
      some ⟨traces, true, none⟩
    else
      match isAccDeletion.loop traces (traces.length - 1) 0 none with
      | .panic => none
      | .ret ok err => some ⟨traces, ok, err⟩
      | .done err =>
        if err.isSome then some ⟨traces, false, err⟩
        else some ⟨traces, true, none⟩

/-- The loop of `isAccUpdate`, `for i := 0; i < len(traces)-1; i++`. -/
def isAccUpdate.loop (traces : List DecodedTrace) : Nat → Nat → LoopOut
  | 0, _ => .done none
  | rem + 1, i =>
    match traces[i]? with
    | none => .panic
    | some trace =>
      if trace.isWorldState then
        .ret false (some (.updatePreceded trace))
      else
        isAccUpdate.loop traces rem (i + 1)

/-- The matcher `isAccUpdate`. -/
def isAccUpdate (traces : List DecodedTrace) : Option MatchResult :=
  match readLast traces with
  | none => none
  | some last =>
    if last.Underlying ≠ .UpdateTraceWS then
      some ⟨traces, false, none⟩
    else if traces.length = 1 then
      some ⟨traces, true, none⟩
    else
      match isAccUpdate.loop traces (traces.length - 1) 0 with
      | .panic => none
      | .ret ok err => some ⟨traces, ok, err⟩
      | .done _ => some ⟨traces, true, none⟩

/-- The loop of `isAccRead`, `for i := 0; i < len(traces); i++`, with its two
`continue` guards. -/
def isAccRead.loop (traces : List DecodedTrace) (okFirst okLast : Bool) :
    Nat → Nat → Option PatternError → LoopOut
  | 0, _, err => .done err
  | rem + 1, i, err =>
    if i = 0 ∧ okFirst = true then
      isAccRead.loop traces okFirst okLast rem (i + 1) err
    else if i = traces.length - 1 ∧ okLast = true then
      isAccRead.loop traces okFirst okLast rem (i + 1) err
    else
      match traces[i]? with
      | none => .panic
      | some trace =>
        if trace.isWorldState then
          .ret false (some (.readPreceded trace))
        else
          let err' :=
            match trace.Underlying with
            | .ReadNonZeroTraceST => err
            | .ReadZeroTraceST => err
            | t => if err.isSome then some (.invalidReadTrace t) else err
          isAccRead.loop traces okFirst okLast rem (i + 1) err'

/-- The assignment `traces[0], traces[len(traces)-1] = traces[len(traces)-1],
traces[0]`: both operands on the right are read first, then the two writes
happen from left to right. -/
def swapEnds (traces : List DecodedTrace) : Option (List DecodedTrace) :=
  match readLast traces, traces[0]? with
  | some last, some first => some ((traces.set 0 last).set (traces.length - 1) first)
  | _, _ => none

/-- The matcher `isAccRead`. -/
def isAccRead (traces : List DecodedTrace) : Option MatchResult :=
  match traces[0]?, readLast traces with
  | some first, some last =>
    let okFirst : Bool := decide (first.Underlying = .ReadNonZeroTraceWS)
    let okLast : Bool := decide (last.Underlying = .ReadNonZeroTraceWS)
    if !okFirst && !okLast then
      some ⟨traces, false, none⟩
    else if okFirst && okLast && decide (traces.length > 1) then
      some ⟨traces, false, some .twoAccountRead⟩
    else if traces.length = 1 then
      some ⟨traces, true, none⟩
    else
      match isAccRead.loop traces okFirst okLast traces.length 0 none with
      | .panic => none
      | .ret ok err => some ⟨traces, ok, err⟩
      | .done err =>
        if err.isSome then some ⟨traces, false, err⟩
        else if okFirst && decide (traces.length > 1) then
          match swapEnds traces with
          | none => none
          | some traces' => some ⟨traces', true, none⟩
        else some ⟨traces, true, none⟩
  | _, _ => none

/-- The loop of `isAccRedeploy`, `for i := 0; i < len(traces)-1; i++`, with
the local `foundDeletion`. -/
def isAccRedeploy.loop (traces : List DecodedTrace) :
    Nat → Nat → Bool → Option PatternError → LoopOut
  | 0, _, _, err => .done err
  | rem + 1, i, foundDeletion, err =>
    match traces[i]? with
    | none => .panic
    | some trace =>
      let isDeletion : Bool := decide (trace.Underlying = .DeletionTraceWS)
      if isDeletion && foundDeletion then
        .ret false (some .moreThanTwoDeletion)
      else if isDeletion then
        isAccRedeploy.loop traces rem (i + 1) isDeletion err
      else if trace.isWorldState then
        .ret false (some (.wsInInsertionTrace trace))
      else
        let err1 :=
          if !foundDeletion then
            match trace.Underlying with
            | .ReadZeroTraceST => err
            | .ReadNonZeroTraceST => err
            | t => if err.isSome then some (.invalidDeletionTrace t) else err
          else err
        let err2 :=
          if foundDeletion then
            match trace.Underlying with
            | .ReadZeroTraceST => err1
            | .InsertionTraceST => err1
            | t => if err1.isSome then some (.invalidDeletionTrace t) else err1
          else err1
        isAccRedeploy.loop traces rem (i + 1) foundDeletion err2

/-- The matcher `isAccRedeploy`. -/
def isAccRedeploy (traces : List DecodedTrace) : Option MatchResult :=
  match readLast traces with
  | none => none
  | some last =>
    if last.Underlying ≠ .InsertionTraceWS then
      some ⟨traces, false, none⟩
    else if traces.length = 1 then
      some ⟨traces, false, none⟩
    else
      match isAccRedeploy.loop traces (traces.length - 1) 0 false none with
      | .panic => none
      | .ret ok err => some ⟨traces, ok, err⟩
      | .done err =>
        if err.isSome then some ⟨traces, false, err⟩
        else some ⟨traces, true, none⟩

/-- The slice `matches` of `inspectPattern`, in its order. -/
def matchers : List (List DecodedTrace → Option MatchResult) :=
  [isMissingAccRead, isAccCreation, isAccDeletion, isAccRead, isAccUpdate, isAccRedeploy]

/-- The loop `for _, m := range matches` of `inspectPattern` followed by the
construction of the no-match error.  The result is the slice after the call
and the returned `err`. -/
def inspectPattern.loop :
    List (List DecodedTrace → Option MatchResult) → List DecodedTrace →
      Option (List DecodedTrace × Option PatternError)
  | [], traces => some (traces, some (.noMatchFound (traces.map (·.Underlying))))
  | m :: rest, traces =>
    match m traces with
    | none => none
    | some r =>
      if r.err.isSome then some (r.traces, r.err)
      else if r.ok then some (r.traces, none)
      else inspectPattern.loop rest r.traces

/-- The dispatcher `inspectPattern`: `none` is a panic, otherwise the slice
after the call and the returned error, `none` for `nil`. -/
def inspectPattern (traces : List DecodedTrace) :
    Option (List DecodedTrace × Option PatternError) :=
  inspectPattern.loop matchers traces

/-! ## The grammars of the header comment -/

/-- The six patterns listed in the comment that opens the source file, read on
the variants of a segment. -/
def legalShape (ts : List TraceType) : Prop :=
  ts = [.ReadZeroTraceWS] ∨
  (∃ body, ts = body ++ [.InsertionTraceWS] ∧
    ∀ t ∈ body, t = .InsertionTraceST ∨ t = .ReadZeroTraceST) ∨
  (∃ body, ts = body ++ [.DeletionTraceWS] ∧
    ∀ t ∈ body, t = .ReadZeroTraceST ∨ t = .ReadNonZeroTraceST) ∨
  (∃ body, ts = body ++ [.UpdateTraceWS] ∧ ∀ t ∈ body, t.scope = .ST) ∨
  (∃ body, (ts = body ++ [.ReadNonZeroTraceWS] ∨ ts = .ReadNonZeroTraceWS :: body) ∧
    ∀ t ∈ body, t = .ReadNonZeroTraceST ∨ t = .ReadZeroTraceST) ∨
  (∃ before after, ts = before ++ [.DeletionTraceWS] ++ after ++ [.InsertionTraceWS] ∧
    (∀ t ∈ before, t = .ReadZeroTraceST ∨ t = .ReadNonZeroTraceST) ∧
    (∀ t ∈ after, t = .InsertionTraceST ∨ t = .ReadZeroTraceST))

/-! ## The dispatch in the words of the specification -/

/-- The relation between a segment and what `isAccRead` leaves when it
reorders: the segment starts with a `ReadNonZeroTraceWS`, holds no other
world-state token, and its two ends have changed places. -/
def swappedRead (traces out : List DecodedTrace) : Prop :=
  ∃ f mid l, traces = f :: (mid ++ [l]) ∧ f.Underlying = .ReadNonZeroTraceWS ∧
    l.Underlying ≠ .ReadNonZeroTraceWS ∧ (∀ t ∈ mid ++ [l], t.isWorldState = false) ∧
    out = l :: (mid ++ [f])

/-- A matcher reports "no match": it returned, with `ok` false and a nil
error. -/
def reportsNoMatch (res : Option MatchResult) : Bool :=
  match res with
  | some r => !r.ok && r.err.isNone
  | none => false

/-- The verdict as the specification words it: that of the first matcher of
the list, each applied to the segment as received, which does not report "no
match", and the no-match error with the variant of every token when there is
none. -/
def firstVerdict (ms : List (List DecodedTrace → Option MatchResult))
    (traces : List DecodedTrace) : Option (List DecodedTrace × Option PatternError) :=
  match ms.find? (fun m => !reportsNoMatch (m traces)) with
  | some m => (m traces).map (fun r => (r.traces, r.err))
  | none => some (traces, some (.noMatchFound (traces.map (·.Underlying))))

/-- What every matcher guarantees on the segment it is given: its error is
never the no-match error of the dispatcher, and it leaves the segment as it
was unless it matches and reorders it as `isAccRead` does. -/
def behaves (traces : List DecodedTrace) (r : MatchResult) : Prop :=
  (∀ ts, r.err ≠ some (.noMatchFound ts)) ∧
    (r.traces = traces ∨ (r.ok = true ∧ r.err = none ∧ swappedRead traces r.traces))

/-! ## The segments that are accepted -/

/-- The world-state content of a token: its variant when it is a world-state
token, nothing when it is a storage token. -/
def wsView (t : DecodedTrace) : Option TraceType :=
  if t.isWorldState then some t.Underlying else none

/-- The three layouts of the world-state tokens of a segment: one world-state
token, in the last position, which is an insertion, a deletion, an update or
a non-zero read, or a zero read when the segment has length one; one
world-state token, a `ReadNonZeroTraceWS` in the first position of a segment
longer than one; a final `InsertionTraceWS` with one world-state token in the
body, which is a `DeletionTraceWS`. -/
def accepted (traces : List DecodedTrace) : Prop :=
  (∃ body l, traces = body ++ [l] ∧ (∀ t ∈ body, t.isWorldState = false) ∧
    (l.Underlying = .InsertionTraceWS ∨ l.Underlying = .DeletionTraceWS ∨
      l.Underlying = .UpdateTraceWS ∨ l.Underlying = .ReadNonZeroTraceWS ∨
      (l.Underlying = .ReadZeroTraceWS ∧ body = []))) ∨
  (∃ f rest, traces = f :: rest ∧ rest ≠ [] ∧ f.Underlying = .ReadNonZeroTraceWS ∧
    ∀ t ∈ rest, t.isWorldState = false) ∨
  (∃ before d after l, traces = before ++ d :: (after ++ [l]) ∧
    l.Underlying = .InsertionTraceWS ∧ d.Underlying = .DeletionTraceWS ∧
    (∀ t ∈ before, t.isWorldState = false) ∧ (∀ t ∈ after, t.isWorldState = false))

end Statemanager

/-! # Encoding of a block for compression

Shallow embedding of the timestamp handling of
`prover/lib/compressor/blob/v0/encode.go`.  Bytes are naturals below 256, the
writer is the list of the bytes written so far and the reader the list of the
bytes left to read.
-/

namespace BlobV0

/-- The eight bytes `binary.Write(w, binary.LittleEndian, v)` writes for a
`uint64`: byte `i` is `v >> (8*i)`, truncated to eight bits. -/
def putUint64LittleEndian (v : Nat) : List Nat :=
  (List.range 8).map (fun i => (v % 2 ^ 64) / 256 ^ i % 256)

/-- The `uint64` that `binary.Read(r, binary.BigEndian, &v)` builds from the
eight bytes it has read, the first byte being the most significant. -/
def uint64BigEndian (bs : List Nat) : Nat :=
  bs.foldl (fun acc b => acc * 256 + b % 256) 0

/-- What the encoder reads of a `types.Block`: `block.Time()` and
`block.Transactions()`. -/
structure Block (Tx : Type) where
  time : Nat
  transactions : List Tx

/-- The struct `encode.DecodedBlockData`. -/
structure DecodedBlockData (Tx From : Type) where
  Timestamp : Nat
  Froms : List From
  Txs : List Tx

/-- How `DecodeBlockFromUncompressed` ends: with a block, with an error, or,
in the embedding only, with the iteration bound used up. -/
inductive DecodeOutcome (α : Type) where
  | ok (v : α)
  | error
  | outOfFuel

/-- The loop `for _, tx := range block.Transactions()` of
`EncodeBlockForCompression`; `encodeTx` stands for the bytes that
`EncodeTxForCompression` writes, `none` when it returns an error (it relies on
the RLP encoder, which is not part of the sources at hand). -/
def EncodeBlockForCompression.loop {Tx : Type} (encodeTx : Tx → Option (List Nat)) :
    List Tx → List Nat → Option (List Nat)
  | [], w => some w
  | tx :: txs, w =>
    match encodeTx tx with
    | none => none
    | some bs => EncodeBlockForCompression.loop encodeTx txs (w ++ bs)

/-- The function `EncodeBlockForCompression` on an empty writer: the bytes
written, `none` on an error. -/
def EncodeBlockForCompression {Tx : Type} (encodeTx : Tx → Option (List Nat))
    (block : Block Tx) : Option (List Nat) :=
  EncodeBlockForCompression.loop encodeTx block.transactions
    (putUint64LittleEndian block.time)

/-- The loop `for r.Len() != 0` of `DecodeBlockFromUncompressed`; `decodeTx`
stands for `DecodeTxFromUncompressed`, which returns the transaction, the
sender and the bytes left, `none` on an error (it relies on the RLP decoder,
which is not part of the sources at hand). -/
def DecodeBlockFromUncompressed.loop {Tx From : Type}
    (decodeTx : List Nat → Option (Tx × From × List Nat)) :
    Nat → List Nat → DecodedBlockData Tx From → DecodeOutcome (DecodedBlockData Tx From)
  | _, [], blk => .ok blk
  | 0, _ :: _, _ => .outOfFuel
  | fuel + 1, b :: bs, blk =>
    match decodeTx (b :: bs) with
    | none => .error
    | some (tx, frm, rest) =>
      DecodeBlockFromUncompressed.loop decodeTx fuel rest
        { blk with Froms := blk.Froms ++ [frm], Txs := blk.Txs ++ [tx] }

/-- The function `DecodeBlockFromUncompressed`: `binary.Read` needs eight
bytes and fails otherwise. -/
def DecodeBlockFromUncompressed {Tx From : Type}
    (decodeTx : List Nat → Option (Tx × From × List Nat)) (r : List Nat) :
    DecodeOutcome (DecodedBlockData Tx From) :=
  if r.length < 8 then .error
  else
    DecodeBlockFromUncompressed.loop decodeTx (r.length - 8) (r.drop 8)
      { Timestamp := uint64BigEndian (r.take 8), Froms := [], Txs := [] }

end BlobV0

/-! # Checksum of the L2 message hashes

Shallow embedding of `L2MessageHashes.CheckSumMiMC` of
`prover/circuits/execution/pi.go`.  A `frontend.Variable` is its value, a
natural taken modulo the order `p` of the scalar field of the circuit.
-/

namespace Execution

/-- The gadget `api.IsZero`. -/
def isZero (p a : Nat) : Nat := if a % p = 0 then 1 else 0

/-- The gadget `api.Sub` on two operands. -/
def sub (p a b : Nat) : Nat := (a % p + (p - b % p)) % p

/-- The gadget `api.Mul` on two operands. -/
def mul (p a b : Nat) : Nat := (a * b) % p

/-- The gadget `api.Add` on two operands. -/
def add (p a b : Nat) : Nat := (a + b) % p

/-- The gadget `api.Select(b, i1, i2)`: `i1` when the boolean `b` is one, `i2`
otherwise. -/
def select (b i1 i2 : Nat) : Nat := if b = 1 then i1 else i2

/-- The struct behind `L2MessageHashes`: the 32 byte variables of every slot
and the announced number of hashes. -/
structure L2MessageHashes where
  Values : List (List Nat)
  Length : Nat

/-- The loop `for i := range l.Values` of `CheckSumMiMC`, carrying `sumIsUsed`
and `res`.  `pack` stands for `internal.Pack(api, ·, 128, 8)[0]` and
`compress` for `mimc.GnarkBlockCompression`, neither of which is part of the
sources at hand. -/
def CheckSumMiMC.loop (p : Nat) (pack : List Nat → Nat) (compress : Nat → Nat → Nat) :
    List (List Nat) → Nat → Nat → Nat × Nat
  | [], sumIsUsed, res => (sumIsUsed, res)
  | v :: rest, sumIsUsed, res =>
    let hi := pack (v.take 16)
    let lo := pack (v.drop 16)
    let isUsed := sub p 1 (mul p (isZero p hi) (isZero p lo))
    let tmpRes := compress (compress res hi) lo
    CheckSumMiMC.loop p pack compress rest (add p sumIsUsed isUsed) (select isUsed tmpRes res)

/-- The method `CheckSumMiMC`: the returned variable when the constraint
`api.AssertIsEqual(sumIsUsed, l.Length)` holds, `none` when it does not. -/
def CheckSumMiMC (p : Nat) (pack : List Nat → Nat) (compress : Nat → Nat → Nat)
    (l : L2MessageHashes) : Option Nat :=
  let out := CheckSumMiMC.loop p pack compress l.Values 0 0
  if out.1 = l.Length % p then some out.2 else none

/-- The property the doc comment of `CheckSumMiMC` announces: no all-zero
slot stands before a slot that holds a non-zero byte. -/
def packedAtStart (values : List (List Nat)) : Prop :=
  ¬ ∃ i j : Nat, i < j ∧ ∃ vi vj : List Nat, values[i]? = some vi ∧ values[j]? = some vj ∧
    (∀ b ∈ vi, b = 0) ∧ ∃ b ∈ vj, b ≠ 0

end Execution

/-! # Helpers on ordered values

Shallow embedding of `prover/utils/minmax.go`, the type parameter being the
integers.  A variadic argument list is a list, and `none` is the panic of the
source.
-/

namespace Utils

/-- The loop `for _, v := range s` of `Max`, carrying `m`. -/
def Max.loop : List Int → Int → Int
  | [], m => m
  | v :: rest, m => Max.loop rest (if m < v then v else m)

/-- The function `Max`. -/
def Max (s : List Int) : Option Int :=
  match s with
  | [] => none
  | s0 :: rest => some (Max.loop (s0 :: rest) s0)

/-- The loop `for _, v := range s` of `Min`, carrying `m`. -/
def Min.loop : List Int → Int → Int
  | [], m => m
  | v :: rest, m => Min.loop rest (if m > v then v else m)

/-- The function `Min`. -/
def Min (s : List Int) : Option Int :=
  match s with
  | [] => none
  | s0 :: rest => some (Min.loop (s0 :: rest) s0)

/-- The function `AllStrictPositive`, `zero` being the zero value of the
integers. -/
def AllStrictPositive : List Int → Bool
  | [] => true
  | x :: rest => if x ≤ 0 then false else AllStrictPositive rest

end Utils

/-! # Flag columns of the data transfer module

Shallow embedding of the expressions that `csBinaryColumns` of
`prover/zkevm/prover/keccak/datatransfer/datatransfer/data_importing.go` hands
to `comp.InsertGlobal`, read on one row: a column is its value on the row, an
element of the field of the protocol, and a global constraint holds on the row
when its expression vanishes there.
-/

namespace Datatransfer

/-- The expression `x.Mul(one.Sub(x))` of the queries `IsInserted_IsBinary`,
`IsPadded_IsBinary` and `IsActive_IsBinary`. -/
def isBinary {F : Type} [Field F] (x : F) : F := x * (1 - x)

/-- The expression `isInserted.Sub((one.Sub(isPadded)).Mul(isActive))` of the
query `isInserted_isPadded`. -/
def isInserted_isPadded {F : Type} [Field F] (isInserted isPadded isActive : F) : F :=
  isInserted - (1 - isPadded) * isActive

/-- The expression `symbolic.Mul(symbolic.Sub(1, isActive), isPadded)` of the
query `IsPadded_IsActive`. -/
def IsPadded_IsActive {F : Type} [Field F] (isActive isPadded : F) : F :=
  (1 - isActive) * isPadded

end Datatransfer

/-! # Permutation of the Plonk wires

Shallow embedding of `compilationCtx.buildPermutation` of
`prover/protocol/dedicated/plonk/context.go`.  A slice is a list, a write or a
read out of range is the panic of the source, `none`; a counted loop is a
recursion on the number of iterations that remain.
-/

namespace Plonk

/-- What `buildPermutation` reads of the `cs.SparseR1CS`: three counts and the
triples `(XA, XB, XC)` in the order of `GetSparseR1CIterator`. -/
structure SparseR1CS where
  NbInternalVariables : Nat
  Public : Nat
  Secret : Nat
  constraints : List (Nat × Nat × Nat)

/-- The write `a[i] = v` on a slice. -/
def setAt {α : Type} (a : List α) (i : Nat) (v : α) : Option (List α) :=
  if i < a.length then some (a.set i v) else none

/-- The loop `for i := 0; i < len(spr.Public); i++` that writes `lro[i] = i`. -/
def buildPermutation.publicLoop : Nat → Nat → List Nat → Option (List Nat)
  | 0, _, lro => some lro
  | rem + 1, i, lro =>
    match setAt lro i i with
    | none => none
    | some lro' => buildPermutation.publicLoop rem (i + 1) lro'

/-- The loop over the constraints that writes the three wires of constraint
`j` at `offset+j`, `sizeSolution+offset+j` and `2*sizeSolution+offset+j`. -/
def buildPermutation.constraintLoop (sizeSolution offset : Nat) :
    List (Nat × Nat × Nat) → Nat → List Nat → Option (List Nat)
  | [], _, lro => some lro
  | c :: rest, j, lro =>
    match setAt lro (offset + j) c.1 with
    | none => none
    | some lro1 =>
      match setAt lro1 (sizeSolution + offset + j) c.2.1 with
      | none => none
      | some lro2 =>
        match setAt lro2 (2 * sizeSolution + offset + j) c.2.2 with
        | none => none
        | some lro3 =>
          buildPermutation.constraintLoop sizeSolution offset rest (j + 1) lro3

/-- The loop `for i := 0; i < len(lro); i++` that links every position to the
last position where its variable was seen, and records the position in
`cycle`. -/
def buildPermutation.cycleLoop (lro : List Nat) :
    Nat → Nat → List Int → List Int → Option (List Int × List Int)
  | 0, _, permutation, cycle => some (permutation, cycle)
  | rem + 1, i, permutation, cycle =>
    match lro[i]? with
    | none => none
    | some id =>
      match cycle[id]? with
      | none => none
      | some c =>
        match (if c ≠ -1 then setAt permutation i c else some permutation) with
        | none => none
        | some permutation' =>
          match setAt cycle id (i : Int) with
          | none => none
          | some cycle' => buildPermutation.cycleLoop lro rem (i + 1) permutation' cycle'

/-- The loop `for i := 0; i < sizePermutation; i++` that completes the entries
still at `-1`. -/
def buildPermutation.fillLoop (lro : List Nat) (cycle : List Int) :
    Nat → Nat → List Int → Option (List Int)
  | 0, _, permutation => some permutation
  | rem + 1, i, permutation =>
    match permutation[i]? with
    | none => none
    | some s =>
      if s = -1 then
        match lro[i]? with
        | none => none
        | some id =>
          match cycle[id]? with
          | none => none
          | some c =>
            match setAt permutation i c with
            | none => none
            | some permutation' =>
              buildPermutation.fillLoop lro cycle rem (i + 1) permutation'
      else buildPermutation.fillLoop lro cycle rem (i + 1) permutation

/-- The part of `buildPermutation` that follows the construction of `lro`:
the slice assigned to `pt.S`. -/
def buildPermutation.fromLRO (nbVariables sizeSolution : Nat) (lro : List Nat) :
    Option (List Int) :=
  let sizePermutation := 3 * sizeSolution
  let permutation := List.replicate sizePermutation (-1 : Int)
  let cycle := List.replicate nbVariables (-1 : Int)
  match buildPermutation.cycleLoop lro lro.length 0 permutation cycle with
  | none => none
  | some (permutation', cycle') =>
    buildPermutation.fillLoop lro cycle' sizePermutation 0 permutation'

/-- The method `buildPermutation`: the slice assigned to `pt.S`;
`sizeSolution` is the value of `ctx.DomainSize()`, which relies on
`utils.NextPowerOfTwo`, not part of the sources at hand. -/
def buildPermutation (spr : SparseR1CS) (sizeSolution : Nat) : Option (List Int) :=
  let nbVariables := spr.NbInternalVariables + spr.Public + spr.Secret
  let sizePermutation := 3 * sizeSolution
  match buildPermutation.publicLoop spr.Public 0 (List.replicate sizePermutation 0) with
  | none => none
  | some lro =>
    match buildPermutation.constraintLoop sizeSolution spr.Public spr.constraints 0 lro with
    | none => none
    | some lro' => buildPermutation.fromLRO nbVariables sizeSolution lro'

/-- The variable at the position `j` of `lro`. -/
def varAt (lro : List Nat) (j : Nat) : Nat := lro.getD j 0

/-- The position of the last occurrence of the variable `id` among the
positions below `i` of `lro`, and `-1` when there is none. -/
def lastBefore (lro : List Nat) (id : Nat) : Nat → Int
  | 0 => -1
  | i + 1 => if lro[i]? = some id then (i : Int) else lastBefore lro id i

/-- The entry of rank `j` that the two loops leave in the permutation: the
previous position of the variable of `j`, and the last position of that
variable when `j` is its first position. -/
def target (lro : List Nat) (j : Nat) : Int :=
  if lastBefore lro (varAt lro j) j = -1 then lastBefore lro (varAt lro j) lro.length
  else lastBefore lro (varAt lro j) j

/-- The position a permutation slice sends the position `i` to. -/
def next (S : List Int) (i : Nat) : Nat := (S.getD i 0).toNat

/-- The two ways a position `j` is linked to a position `k` with the same
variable: `k` is the previous position of the variable, or `j` is its first
position and `k` its last one. -/
def Link (lro : List Nat) (j k : Nat) : Prop :=
  (k < j ∧ lro[k]? = lro[j]? ∧ ∀ m, k < m → m < j → lro[m]? ≠ lro[j]?) ∨
    ((∀ m, m < j → lro[m]? ≠ lro[j]?) ∧ j ≤ k ∧ k < lro.length ∧ lro[k]? = lro[j]? ∧
      ∀ m, k < m → m < lro.length → lro[m]? ≠ lro[j]?)

end Plonk

namespace Statemanager

/-! ## Auxiliary facts on slices and on the loops -/

theorem readLast_append (body : List DecodedTrace) (h : DecodedTrace) :
    readLast (body ++ [h]) = some h := by
  simp [readLast]

theorem readLast_mem {traces : List DecodedTrace} {l : DecodedTrace}
    (h : readLast traces = some l) : l ∈ traces := by
  unfold readLast at h
  split at h
  · cases h
  · exact List.getElem?_mem h

theorem first_mem {traces : List DecodedTrace} {f : DecodedTrace}
    (h : traces[0]? = some f) : f ∈ traces :=
  List.getElem?_mem h

theorem getElem?_mid (pre rest : List DecodedTrace) (t : DecodedTrace) :
    (pre ++ t :: rest)[pre.length]? = some t := by
  rw [List.getElem?_append_right (Nat.le_refl _)]
  simp

theorem ws_of_type {t : DecodedTrace} :
    t.isWorldState = true ↔
      (t.Underlying = .ReadZeroTraceWS ∨ t.Underlying = .ReadNonZeroTraceWS ∨
        t.Underlying = .InsertionTraceWS ∨ t.Underlying = .DeletionTraceWS ∨
        t.Underlying = .UpdateTraceWS) := by
  cases t with
  | mk u p => cases u <;> simp [DecodedTrace.isWorldState, TraceType.scope]

theorem isMissingAccRead_loop_eq (traces : List DecodedTrace) :
    isMissingAccRead.loop traces =
      if traces.any (fun t => decide (t.Underlying = .ReadZeroTraceWS)) then
        .ret false (some .readZeroInLongTrace)
      else .done none := by
  induction traces with
  | nil => simp [isMissingAccRead.loop]
  | cons t ts ih =>
    by_cases h : t.Underlying = .ReadZeroTraceWS
    · simp [isMissingAccRead.loop, h]
    · simp [isMissingAccRead.loop, h, ih]

theorem isMissingAccRead_noMatch {traces : List DecodedTrace} (hne : traces ≠ [])
    (h : ∀ t ∈ traces, t.Underlying ≠ .ReadZeroTraceWS) :
    isMissingAccRead traces = some ⟨traces, false, none⟩ := by
  cases traces with
  | nil => exact absurd rfl hne
  | cons f ts =>
    have hf : f.Underlying ≠ .ReadZeroTraceWS := h f (by simp)
    have hany : (f :: ts).any (fun t => decide (t.Underlying = .ReadZeroTraceWS)) = false := by
      rw [List.any_eq_false]
      intro t ht
      simpa using h t ht
    simp only [isMissingAccRead, isMissingAccRead_loop_eq, hany]
    simp [hf]

theorem isAccCreation_noMatch {traces : List DecodedTrace} {l : DecodedTrace}
    (hl : readLast traces = some l) (h : l.Underlying ≠ .InsertionTraceWS) :
    isAccCreation traces = some ⟨traces, false, none⟩ := by
  simp [isAccCreation, hl, h]

theorem isAccDeletion_noMatch {traces : List DecodedTrace} {l : DecodedTrace}
    (hl : readLast traces = some l) (h : l.Underlying ≠ .DeletionTraceWS) :
    isAccDeletion traces = some ⟨traces, false, none⟩ := by
  simp [isAccDeletion, hl, h]

theorem isAccUpdate_noMatch {traces : List DecodedTrace} {l : DecodedTrace}
    (hl : readLast traces = some l) (h : l.Underlying ≠ .UpdateTraceWS) :
    isAccUpdate traces = some ⟨traces, false, none⟩ := by
  simp [isAccUpdate, hl, h]

theorem isAccRedeploy_noMatch {traces : List DecodedTrace} {l : DecodedTrace}
    (hl : readLast traces = some l) (h : l.Underlying ≠ .InsertionTraceWS) :
    isAccRedeploy traces = some ⟨traces, false, none⟩ := by
  simp [isAccRedeploy, hl, h]

theorem isAccRead_noMatch {traces : List DecodedTrace} {f l : DecodedTrace}
    (hf : traces[0]? = some f) (hl : readLast traces = some l)
    (h1 : f.Underlying ≠ .ReadNonZeroTraceWS) (h2 : l.Underlying ≠ .ReadNonZeroTraceWS) :
    isAccRead traces = some ⟨traces, false, none⟩ := by
  simp [isAccRead, hl, hf, h1, h2]

theorem isAccCreation_loop_eq (rest pre suf : List DecodedTrace) :
    isAccCreation.loop (pre ++ (rest ++ suf)) rest.length pre.length none =
      if rest.any (fun t => t.isWorldState) then .ret false none else .done none := by
  induction rest generalizing pre with
  | nil => simp [isAccCreation.loop]
  | cons t ts ih =>
    have h := ih (pre ++ [t])
    simp only [List.append_assoc, List.singleton_append, List.length_append,
      List.length_singleton] at h
    have hg := getElem?_mid pre (ts ++ suf) t
    cases hu : t.Underlying <;>
      simp [isAccCreation.loop, hg, hu, h, DecodedTrace.isWorldState, TraceType.scope]

theorem isAccDeletion_loop_eq (rest pre suf : List DecodedTrace) :
    isAccDeletion.loop (pre ++ (rest ++ suf)) rest.length pre.length none =
      match rest.find? (fun t => t.isWorldState) with
      | some t => .ret false (some (.deletionPreceded t))
      | none => .done none := by
  induction rest generalizing pre with
  | nil => simp [isAccDeletion.loop]
  | cons t ts ih =>
    have h := ih (pre ++ [t])
    simp only [List.append_assoc, List.singleton_append, List.length_append,
      List.length_singleton] at h
    have hg := getElem?_mid pre (ts ++ suf) t
    cases hu : t.Underlying <;>
      simp [isAccDeletion.loop, hg, hu, h, DecodedTrace.isWorldState, TraceType.scope]

theorem isAccUpdate_loop_eq (rest pre suf : List DecodedTrace) :
    isAccUpdate.loop (pre ++ (rest ++ suf)) rest.length pre.length =
      match rest.find? (fun t => t.isWorldState) with
      | some t => .ret false (some (.updatePreceded t))
      | none => .done none := by
  induction rest generalizing pre with
  | nil => simp [isAccUpdate.loop]
  | cons t ts ih =>
    have h := ih (pre ++ [t])
    simp only [List.append_assoc, List.singleton_append, List.length_append,
      List.length_singleton] at h
    have hg := getElem?_mid pre (ts ++ suf) t
    cases hu : t.Underlying <;>
      simp [isAccUpdate.loop, hg, hu, h, DecodedTrace.isWorldState, TraceType.scope]

theorem isAccCreation_body (body : List DecodedTrace) (h : DecodedTrace)
    (hh : h.Underlying = .InsertionTraceWS) :
    isAccCreation (body ++ [h]) =
      some ⟨body ++ [h], !(body.any (fun t => t.isWorldState)), none⟩ := by
  have hloop := isAccCreation_loop_eq body [] [h]
  simp only [List.nil_append, List.length_nil] at hloop
  cases body with
  | nil => simp [isAccCreation, readLast, hh]
  | cons b bs =>
    simp only [isAccCreation, readLast_append, hh]
    simp only [List.length_append, List.length_singleton, Nat.add_sub_cancel, hloop]
    by_cases hany : (b :: bs).any (fun t => t.isWorldState) = true
    · simp [hany]
    · simp only [hany]
      simp

theorem isAccDeletion_body (body : List DecodedTrace) (h : DecodedTrace)
    (hh : h.Underlying = .DeletionTraceWS)
    (hb : ∀ t ∈ body, t.isWorldState = false) :
    isAccDeletion (body ++ [h]) = some ⟨body ++ [h], true, none⟩ := by
  have hloop := isAccDeletion_loop_eq body [] [h]
  simp only [List.nil_append, List.length_nil] at hloop
  have hfind : body.find? (fun t => t.isWorldState) = none := by
    rw [List.find?_eq_none]
    intro t ht
    simp [hb t ht]
  rw [hfind] at hloop
  cases body with
  | nil => simp [isAccDeletion, readLast, hh]
  | cons b bs =>
    simp only [isAccDeletion, readLast_append, hh]
    simp only [List.length_append, List.length_singleton, Nat.add_sub_cancel, hloop]
    simp

theorem isAccUpdate_body (body : List DecodedTrace) (h : DecodedTrace)
    (hh : h.Underlying = .UpdateTraceWS)
    (hb : ∀ t ∈ body, t.isWorldState = false) :
    isAccUpdate (body ++ [h]) = some ⟨body ++ [h], true, none⟩ := by
  have hloop := isAccUpdate_loop_eq body [] [h]
  simp only [List.nil_append, List.length_nil] at hloop
  have hfind : body.find? (fun t => t.isWorldState) = none := by
    rw [List.find?_eq_none]
    intro t ht
    simp [hb t ht]
  rw [hfind] at hloop
  cases body with
  | nil => simp [isAccUpdate, readLast, hh]
  | cons b bs =>
    simp only [isAccUpdate, readLast_append, hh]
    simp only [List.length_append, List.length_singleton, Nat.add_sub_cancel, hloop]
    simp

theorem not_ws_of_mem {body : List DecodedTrace} {t : DecodedTrace}
    (hb : ∀ t ∈ body, t.isWorldState = false) (ht : t ∈ body) (u : TraceType)
    (hu : u.scope = .WS) : t.Underlying ≠ u := by
  intro h
  have := hb t ht
  simp [DecodedTrace.isWorldState, h, hu] at this

theorem first_of_append (body : List DecodedTrace) (h : DecodedTrace) :
    ∃ f, (body ++ [h])[0]? = some f ∧ (f = h ∨ f ∈ body) := by
  cases body with
  | nil => exact ⟨h, by simp, Or.inl rfl⟩
  | cons b bs => exact ⟨b, by simp, Or.inr (by simp)⟩

theorem readLast_cons_append (f l : DecodedTrace) (mid : List DecodedTrace) :
    readLast (f :: (mid ++ [l])) = some l :=
  readLast_append (f :: mid) l

theorem exists_readLast {traces : List DecodedTrace} (hne : traces ≠ []) :
    ∃ body l, traces = body ++ [l] ∧ readLast traces = some l := by
  rcases List.eq_nil_or_concat traces with h | ⟨body, l, h⟩
  · exact absurd h hne
  · rw [List.concat_eq_append] at h
    exact ⟨body, l, h, by rw [h]; exact readLast_append body l⟩

theorem set_last (mid : List DecodedTrace) (l f : DecodedTrace) :
    (mid ++ [l]).set mid.length f = mid ++ [f] := by
  induction mid with
  | nil => rfl
  | cons m ms ih => simp [List.set, ih]

theorem swapEnds_cons_append (f l : DecodedTrace) (mid : List DecodedTrace) :
    swapEnds (f :: (mid ++ [l])) = some (l :: (mid ++ [f])) := by
  simp [swapEnds, readLast_cons_append, List.set, set_last]

theorem isAccRead_loop_eq (rest pre suf : List DecodedTrace) (okFirst okLast : Bool) (k : Nat)
    (hF : okFirst = false ∨ pre ≠ []) (hL : okLast = false ∨ suf ≠ []) :
    isAccRead.loop (pre ++ (rest ++ suf)) okFirst okLast (rest.length + k) pre.length none =
      match rest.find? (fun t => t.isWorldState) with
      | some t => .ret false (some (.readPreceded t))
      | none =>
        isAccRead.loop (pre ++ (rest ++ suf)) okFirst okLast k (pre.length + rest.length)
          none := by
  induction rest generalizing pre with
  | nil => simp
  | cons t ts ih =>
    have h := ih (pre ++ [t]) (Or.inr (by simp))
    simp only [List.append_assoc, List.singleton_append, List.length_append,
      List.length_singleton] at h
    have hg := getElem?_mid pre (ts ++ suf) t
    have hrem : (t :: ts).length + k = (ts.length + k) + 1 := by
      simp only [List.length_cons]
      omega
    have hidx : pre.length + (t :: ts).length = pre.length + 1 + ts.length := by
      simp only [List.length_cons]
      omega
    have g1 : ¬ (pre.length = 0 ∧ okFirst = true) := by
      rintro ⟨h0, h1⟩
      rcases hF with hF | hF
      · simp [hF] at h1
      · exact hF (List.length_eq_zero.1 h0)
    have g2 : ¬ (pre.length = (pre ++ t :: (ts ++ suf)).length - 1 ∧ okLast = true) := by
      rintro ⟨h0, h1⟩
      rcases hL with hL | hL
      · simp [hL] at h1
      · have : 0 < suf.length := List.length_pos.2 hL
        simp only [List.length_append, List.length_cons] at h0
        omega
    rw [hrem, hidx]
    simp only [List.cons_append]
    rw [isAccRead.loop, if_neg g1, if_neg g2, hg]
    cases hu : t.Underlying <;>
      simp [hu, h, DecodedTrace.isWorldState, TraceType.scope]

theorem isAccRead_single (t : DecodedTrace) (ht : t.Underlying = .ReadNonZeroTraceWS) :
    isAccRead [t] = some ⟨[t], true, none⟩ := by
  simp [isAccRead, readLast, ht]

theorem isAccRead_both (f l : DecodedTrace) (mid : List DecodedTrace)
    (hf : f.Underlying = .ReadNonZeroTraceWS) (hl : l.Underlying = .ReadNonZeroTraceWS) :
    isAccRead (f :: (mid ++ [l])) = some ⟨f :: (mid ++ [l]), false, some .twoAccountRead⟩ := by
  simp [isAccRead, readLast_cons_append, hf, hl]

theorem isAccRead_first (f l : DecodedTrace) (mid : List DecodedTrace)
    (hf : f.Underlying = .ReadNonZeroTraceWS) (hl : l.Underlying ≠ .ReadNonZeroTraceWS) :
    isAccRead (f :: (mid ++ [l])) =
      match (mid ++ [l]).find? (fun t => t.isWorldState) with
      | some t => some ⟨f :: (mid ++ [l]), false, some (.readPreceded t)⟩
      | none => some ⟨l :: (mid ++ [f]), true, none⟩ := by
  have hloop := isAccRead_loop_eq (mid ++ [l]) [f] [] true false 0 (Or.inr (by simp))
    (Or.inl rfl)
  simp only [List.append_nil, List.singleton_append, List.length_singleton, Nat.add_zero,
    List.length_append] at hloop
  have hstep : isAccRead.loop (f :: (mid ++ [l])) true false (f :: (mid ++ [l])).length 0 none =
      isAccRead.loop (f :: (mid ++ [l])) true false (mid.length + 1) 1 none := by
    simp only [List.length_cons, List.length_append, List.length_singleton]
    rw [isAccRead.loop]
    simp
  have e1 : decide (f.Underlying = .ReadNonZeroTraceWS) = true := by simp [hf]
  have e2 : decide (l.Underlying = .ReadNonZeroTraceWS) = false := by simp [hl]
  simp only [isAccRead, List.getElem?_cons_zero, readLast_cons_append, e1, e2]
  rw [hstep, hloop]
  cases hfind : (mid ++ [l]).find? (fun t => t.isWorldState) <;>
    simp [isAccRead.loop, swapEnds_cons_append]

theorem isAccRead_last (f l : DecodedTrace) (mid : List DecodedTrace)
    (hf : f.Underlying ≠ .ReadNonZeroTraceWS) (hl : l.Underlying = .ReadNonZeroTraceWS) :
    isAccRead (f :: (mid ++ [l])) =
      match (f :: mid).find? (fun t => t.isWorldState) with
      | some t => some ⟨f :: (mid ++ [l]), false, some (.readPreceded t)⟩
      | none => some ⟨f :: (mid ++ [l]), true, none⟩ := by
  have hloop := isAccRead_loop_eq (f :: mid) [] [l] false true 1 (Or.inl rfl)
    (Or.inr (by simp))
  simp only [List.nil_append, List.length_nil, Nat.zero_add, List.cons_append,
    List.length_cons] at hloop
  have hfin : isAccRead.loop (f :: (mid ++ [l])) false true 1 (mid.length + 1) none =
      .done none := by
    rw [isAccRead.loop]
    simp [isAccRead.loop]
  have hlen2 : (f :: (mid ++ [l])).length = mid.length + 1 + 1 := by simp
  have e1 : decide (f.Underlying = .ReadNonZeroTraceWS) = false := by simp [hf]
  have e2 : decide (l.Underlying = .ReadNonZeroTraceWS) = true := by simp [hl]
  simp only [isAccRead, List.getElem?_cons_zero, readLast_cons_append, e1, e2]
  rw [hlen2, hloop, hfin]
  cases hfind : (f :: mid).find? (fun t => t.isWorldState) <;> simp

theorem find?_ws_none {xs : List DecodedTrace} (h : ∀ t ∈ xs, t.isWorldState = false) :
    xs.find? (fun t => t.isWorldState) = none := by
  rw [List.find?_eq_none]
  intro t ht
  simp [h t ht]

theorem isAccRedeploy_loop_skip (rest pre suf : List DecodedTrace) (foundDeletion : Bool)
    (k : Nat) (hst : ∀ t ∈ rest, t.isWorldState = false) :
    isAccRedeploy.loop (pre ++ (rest ++ suf)) (rest.length + k) pre.length foundDeletion none =
      isAccRedeploy.loop (pre ++ (rest ++ suf)) k (pre.length + rest.length) foundDeletion
        none := by
  induction rest generalizing pre with
  | nil => simp
  | cons t ts ih =>
    have ht : t.isWorldState = false := hst t (by simp)
    have h := ih (pre ++ [t]) (fun x hx => hst x (by simp [hx]))
    simp only [List.append_assoc, List.singleton_append, List.length_append,
      List.length_singleton] at h
    have hg := getElem?_mid pre (ts ++ suf) t
    have hrem : (t :: ts).length + k = (ts.length + k) + 1 := by
      simp only [List.length_cons]
      omega
    have hidx : pre.length + (t :: ts).length = pre.length + 1 + ts.length := by
      simp only [List.length_cons]
      omega
    rw [hrem, hidx]
    simp only [List.cons_append]
    rw [isAccRedeploy.loop, hg]
    cases hu : t.Underlying <;> cases foundDeletion <;>
      simp [hu, h, DecodedTrace.isWorldState, TraceType.scope] at ht ⊢

theorem isAccRedeploy_shape (before after : List DecodedTrace) (d h : DecodedTrace)
    (hd : d.Underlying = .DeletionTraceWS) (hh : h.Underlying = .InsertionTraceWS)
    (h1 : ∀ t ∈ before, t.isWorldState = false)
    (h2 : ∀ t ∈ after, t.isWorldState = false) :
    isAccRedeploy (before ++ d :: (after ++ [h])) =
      some ⟨before ++ d :: (after ++ [h]), true, none⟩ := by
  have hlast : readLast (before ++ d :: (after ++ [h])) = some h := by
    have e : before ++ d :: (after ++ [h]) = (before ++ d :: after) ++ [h] := by simp
    rw [e]
    exact readLast_append _ _
  have hlen : (before ++ d :: (after ++ [h])).length - 1 = before.length + (after.length + 1) := by
    simp only [List.length_append, List.length_cons, List.length_nil]
    omega
  have s1 := isAccRedeploy_loop_skip before [] (d :: (after ++ [h])) false (after.length + 1) h1
  simp only [List.nil_append, List.length_nil, Nat.zero_add] at s1
  have s2 := isAccRedeploy_loop_skip after (before ++ [d]) [h] true 0 h2
  simp only [List.append_assoc, List.singleton_append, List.length_append,
    List.length_singleton, Nat.add_zero] at s2
  have step : isAccRedeploy.loop (before ++ d :: (after ++ [h])) (after.length + 1)
      before.length false none =
      isAccRedeploy.loop (before ++ d :: (after ++ [h])) after.length (before.length + 1)
        true none := by
    rw [isAccRedeploy.loop, getElem?_mid before (after ++ [h]) d]
    simp [hd]
  simp only [isAccRedeploy, hlast, hh, hlen, s1, step, s2]
  simp [isAccRedeploy.loop]
  omega

theorem getLast?_cons_append (f l : DecodedTrace) (mid : List DecodedTrace) :
    (f :: (mid ++ [l])).getLast? = some l := by
  exact List.getLast?_concat (f :: mid)

theorem inspectPattern_sixth {traces out : List DecodedTrace}
    (hm : isMissingAccRead traces = some ⟨traces, false, none⟩)
    (hc : isAccCreation traces = some ⟨traces, false, none⟩)
    (hd : isAccDeletion traces = some ⟨traces, false, none⟩)
    (hr : isAccRead traces = some ⟨traces, false, none⟩)
    (hu : isAccUpdate traces = some ⟨traces, false, none⟩)
    (hre : isAccRedeploy traces = some ⟨out, true, none⟩) :
    inspectPattern traces = some (out, none) := by
  simp [inspectPattern, matchers, inspectPattern.loop, hm, hc, hd, hr, hu, hre]

theorem inspectPattern_fourth {traces out : List DecodedTrace}
    (hm : isMissingAccRead traces = some ⟨traces, false, none⟩)
    (hc : isAccCreation traces = some ⟨traces, false, none⟩)
    (hd : isAccDeletion traces = some ⟨traces, false, none⟩)
    (hr : isAccRead traces = some ⟨out, true, none⟩) :
    inspectPattern traces = some (out, none) := by
  simp [inspectPattern, matchers, inspectPattern.loop, hm, hc, hd, hr]

/-! ## The loops never read out of range and the errors they build -/

theorem isAccCreation_loop_shape (traces : List DecodedTrace) (rem i : Nat)
    (h : i + rem ≤ traces.length) :
    isAccCreation.loop traces rem i none = .done none ∨
      isAccCreation.loop traces rem i none = .ret false none := by
  induction rem generalizing i with
  | zero => exact Or.inl rfl
  | succ n ih =>
    have hi : i < traces.length := by omega
    have hg : traces[i]? = some traces[i] := List.getElem?_eq_getElem hi
    have hrec := ih (i + 1) (by omega)
    rw [isAccCreation.loop, hg]
    cases hu : (traces[i]).Underlying <;>
      simp [hu, DecodedTrace.isWorldState, TraceType.scope] <;> exact hrec

theorem isAccDeletion_loop_shape (traces : List DecodedTrace) (rem i : Nat)
    (h : i + rem ≤ traces.length) :
    isAccDeletion.loop traces rem i none = .done none ∨
      ∃ t, isAccDeletion.loop traces rem i none = .ret false (some (.deletionPreceded t)) := by
  induction rem generalizing i with
  | zero => exact Or.inl rfl
  | succ n ih =>
    have hi : i < traces.length := by omega
    have hg : traces[i]? = some traces[i] := List.getElem?_eq_getElem hi
    have hrec := ih (i + 1) (by omega)
    rw [isAccDeletion.loop, hg]
    cases hu : (traces[i]).Underlying <;>
      simp [hu, DecodedTrace.isWorldState, TraceType.scope] <;> exact hrec

theorem isAccUpdate_loop_shape (traces : List DecodedTrace) (rem i : Nat)
    (h : i + rem ≤ traces.length) :
    isAccUpdate.loop traces rem i = .done none ∨
      ∃ t, isAccUpdate.loop traces rem i = .ret false (some (.updatePreceded t)) := by
  induction rem generalizing i with
  | zero => exact Or.inl rfl
  | succ n ih =>
    have hi : i < traces.length := by omega
    have hg : traces[i]? = some traces[i] := List.getElem?_eq_getElem hi
    have hrec := ih (i + 1) (by omega)
    rw [isAccUpdate.loop, hg]
    cases hu : (traces[i]).Underlying <;>
      simp [hu, DecodedTrace.isWorldState, TraceType.scope] <;> exact hrec

theorem isAccRedeploy_loop_shape (traces : List DecodedTrace) (rem i : Nat)
    (foundDeletion : Bool) (h : i + rem ≤ traces.length) :
    isAccRedeploy.loop traces rem i foundDeletion none = .done none ∨
      isAccRedeploy.loop traces rem i foundDeletion none =
        .ret false (some .moreThanTwoDeletion) ∨
      ∃ t, isAccRedeploy.loop traces rem i foundDeletion none =
        .ret false (some (.wsInInsertionTrace t)) := by
  induction rem generalizing i foundDeletion with
  | zero => exact Or.inl rfl
  | succ n ih =>
    have hi : i < traces.length := by omega
    have hg : traces[i]? = some traces[i] := List.getElem?_eq_getElem hi
    have hrec := ih (i + 1) foundDeletion (by omega)
    have hrec' := ih (i + 1) true (by omega)
    rw [isAccRedeploy.loop, hg]
    cases hu : (traces[i]).Underlying <;> cases foundDeletion <;>
      simp [hu, DecodedTrace.isWorldState, TraceType.scope] <;>
      first | exact hrec | exact hrec'

/-! ## Every matcher returns on a segment that is not empty -/

theorem isMissingAccRead_total {traces : List DecodedTrace} (hne : traces ≠ []) :
    ∃ ok err, isMissingAccRead traces = some ⟨traces, ok, err⟩ ∧
      ∀ ts, err ≠ some (.noMatchFound ts) := by
  cases traces with
  | nil => exact absurd rfl hne
  | cons f rest =>
    by_cases h1 : f.Underlying = .ReadZeroTraceWS ∧ (f :: rest).length = 1
    · exact ⟨true, none, by simp only [isMissingAccRead, List.getElem?_cons_zero, if_pos h1],
        by simp⟩
    · by_cases h2 : (f :: rest).any (fun t => decide (t.Underlying = .ReadZeroTraceWS)) = true
      · refine ⟨false, some .readZeroInLongTrace, ?_, by simp⟩
        simp only [isMissingAccRead, List.getElem?_cons_zero, if_neg h1,
          isMissingAccRead_loop_eq, if_pos h2]
      · refine ⟨false, none, ?_, by simp⟩
        simp only [isMissingAccRead, List.getElem?_cons_zero, if_neg h1,
          isMissingAccRead_loop_eq, if_neg h2]

theorem isAccCreation_total {traces : List DecodedTrace} (hne : traces ≠ []) :
    ∃ ok err, isAccCreation traces = some ⟨traces, ok, err⟩ ∧
      ∀ ts, err ≠ some (.noMatchFound ts) := by
  obtain ⟨body, l, hEq, hlast⟩ := exists_readLast hne
  have hlen : 0 + (traces.length - 1) ≤ traces.length := by omega
  by_cases h1 : l.Underlying = .InsertionTraceWS
  · by_cases h2 : traces.length = 1
    · exact ⟨true, none, by simp [isAccCreation, hlast, h1, h2], by simp⟩
    · rcases isAccCreation_loop_shape traces (traces.length - 1) 0 hlen with h | h
      · exact ⟨true, none, by simp [isAccCreation, hlast, h1, h2, h], by simp⟩
      · exact ⟨false, none, by simp [isAccCreation, hlast, h1, h2, h], by simp⟩
  · exact ⟨false, none, by simp [isAccCreation, hlast, h1], by simp⟩

theorem isAccDeletion_total {traces : List DecodedTrace} (hne : traces ≠ []) :
    ∃ ok err, isAccDeletion traces = some ⟨traces, ok, err⟩ ∧
      ∀ ts, err ≠ some (.noMatchFound ts) := by
  obtain ⟨body, l, hEq, hlast⟩ := exists_readLast hne
  have hlen : 0 + (traces.length - 1) ≤ traces.length := by omega
  by_cases h1 : l.Underlying = .DeletionTraceWS
  · by_cases h2 : traces.length = 1
    · exact ⟨true, none, by simp [isAccDeletion, hlast, h1, h2], by simp⟩
    · rcases isAccDeletion_loop_shape traces (traces.length - 1) 0 hlen with h | ⟨t, h⟩
      · exact ⟨true, none, by simp [isAccDeletion, hlast, h1, h2, h], by simp⟩
      · exact ⟨false, some (.deletionPreceded t),
          by simp [isAccDeletion, hlast, h1, h2, h], by simp⟩
  · exact ⟨false, none, by simp [isAccDeletion, hlast, h1], by simp⟩

theorem isAccUpdate_total {traces : List DecodedTrace} (hne : traces ≠ []) :
    ∃ ok err, isAccUpdate traces = some ⟨traces, ok, err⟩ ∧
      ∀ ts, err ≠ some (.noMatchFound ts) := by
  obtain ⟨body, l, hEq, hlast⟩ := exists_readLast hne
  have hlen : 0 + (traces.length - 1) ≤ traces.length := by omega
  by_cases h1 : l.Underlying = .UpdateTraceWS
  · by_cases h2 : traces.length = 1
    · exact ⟨true, none, by simp [isAccUpdate, hlast, h1, h2], by simp⟩
    · rcases isAccUpdate_loop_shape traces (traces.length - 1) 0 hlen with h | ⟨t, h⟩
      · exact ⟨true, none, by simp [isAccUpdate, hlast, h1, h2, h], by simp⟩
      · exact ⟨false, some (.updatePreceded t),
          by simp [isAccUpdate, hlast, h1, h2, h], by simp⟩
  · exact ⟨false, none, by simp [isAccUpdate, hlast, h1], by simp⟩

theorem isAccRedeploy_total {traces : List DecodedTrace} (hne : traces ≠ []) :
    ∃ ok err, isAccRedeploy traces = some ⟨traces, ok, err⟩ ∧
      ∀ ts, err ≠ some (.noMatchFound ts) := by
  obtain ⟨body, l, hEq, hlast⟩ := exists_readLast hne
  have hlen : 0 + (traces.length - 1) ≤ traces.length := by omega
  by_cases h1 : l.Underlying = .InsertionTraceWS
  · by_cases h2 : traces.length = 1
    · exact ⟨false, none, by simp [isAccRedeploy, hlast, h1, h2], by simp⟩
    · rcases isAccRedeploy_loop_shape traces (traces.length - 1) 0 false hlen with
        h | h | ⟨t, h⟩
      · exact ⟨true, none, by simp [isAccRedeploy, hlast, h1, h2, h], by simp⟩
      · exact ⟨false, some .moreThanTwoDeletion,
          by simp [isAccRedeploy, hlast, h1, h2, h], by simp⟩
      · exact ⟨false, some (.wsInInsertionTrace t),
          by simp [isAccRedeploy, hlast, h1, h2, h], by simp⟩
  · exact ⟨false, none, by simp [isAccRedeploy, hlast, h1], by simp⟩

theorem isAccRead_total {traces : List DecodedTrace} (hne : traces ≠ []) :
    ∃ r, isAccRead traces = some r ∧ behaves traces r := by
  cases traces with
  | nil => exact absurd rfl hne
  | cons f rest =>
    rcases List.eq_nil_or_concat rest with h0 | ⟨mid, l, h0⟩
    · subst h0
      by_cases hf : f.Underlying = .ReadNonZeroTraceWS
      · exact ⟨_, isAccRead_single f hf, by simp, Or.inl rfl⟩
      · exact ⟨_, @isAccRead_noMatch [f] f f rfl rfl hf hf, by simp, Or.inl rfl⟩
    · rw [List.concat_eq_append] at h0
      subst h0
      by_cases hf : f.Underlying = .ReadNonZeroTraceWS
      · by_cases hl : l.Underlying = .ReadNonZeroTraceWS
        · exact ⟨_, isAccRead_both f l mid hf hl, by simp, Or.inl rfl⟩
        · have h := isAccRead_first f l mid hf hl
          cases hfind : (mid ++ [l]).find? (fun t => t.isWorldState) with
          | some t =>
            rw [hfind] at h
            exact ⟨_, h, by simp, Or.inl rfl⟩
          | none =>
            rw [hfind] at h
            refine ⟨_, h, by simp, Or.inr ⟨rfl, rfl, f, mid, l, rfl, hf, hl, ?_, rfl⟩⟩
            intro t ht
            have := List.find?_eq_none.1 hfind t ht
            simpa using this
      · by_cases hl : l.Underlying = .ReadNonZeroTraceWS
        · have h := isAccRead_last f l mid hf hl
          cases hfind : (f :: mid).find? (fun t => t.isWorldState) with
          | some t =>
            rw [hfind] at h
            exact ⟨_, h, by simp, Or.inl rfl⟩
          | none =>
            rw [hfind] at h
            exact ⟨_, h, by simp, Or.inl rfl⟩
        · exact ⟨_, @isAccRead_noMatch (f :: (mid ++ [l])) f l (by simp)
            (readLast_cons_append f l mid) hf hl, by simp, Or.inl rfl⟩

theorem matchers_behave {traces : List DecodedTrace} (hne : traces ≠ []) :
    ∀ m ∈ matchers, ∃ r, m traces = some r ∧ behaves traces r := by
  intro m hm
  simp only [matchers, List.mem_cons, List.mem_singleton, List.mem_nil_iff, or_false] at hm
  rcases hm with h | h | h | h | h | h <;> subst h
  · obtain ⟨ok, err, h, he⟩ := isMissingAccRead_total hne
    exact ⟨_, h, he, Or.inl rfl⟩
  · obtain ⟨ok, err, h, he⟩ := isAccCreation_total hne
    exact ⟨_, h, he, Or.inl rfl⟩
  · obtain ⟨ok, err, h, he⟩ := isAccDeletion_total hne
    exact ⟨_, h, he, Or.inl rfl⟩
  · exact isAccRead_total hne
  · obtain ⟨ok, err, h, he⟩ := isAccUpdate_total hne
    exact ⟨_, h, he, Or.inl rfl⟩
  · obtain ⟨ok, err, h, he⟩ := isAccRedeploy_total hne
    exact ⟨_, h, he, Or.inl rfl⟩

/-! ## The dispatcher over matchers that behave -/

theorem dispatch_frame (ms : List (List DecodedTrace → Option MatchResult))
    (traces : List DecodedTrace)
    (H : ∀ m ∈ ms, ∃ r, m traces = some r ∧ behaves traces r)
    (out : List DecodedTrace) (e : Option PatternError)
    (h : inspectPattern.loop ms traces = some (out, e)) :
    out = traces ∨ (e = none ∧ swappedRead traces out) := by
  induction ms with
  | nil =>
    simp only [inspectPattern.loop, Option.some.injEq, Prod.mk.injEq] at h
    exact Or.inl h.1.symm
  | cons m rest ih =>
    obtain ⟨r, hr, -, hfr⟩ := H m (List.mem_cons_self _ _)
    have ih' := ih (fun m' hm' => H m' (List.mem_cons_of_mem _ hm'))
    simp only [inspectPattern.loop, hr] at h
    by_cases he : r.err.isSome = true
    · simp only [he, if_true, Option.some.injEq, Prod.mk.injEq] at h
      rcases hfr with h1 | ⟨-, h2, -⟩
      · exact Or.inl (h.1 ▸ h1)
      · simp [h2] at he
    · by_cases hok : r.ok = true
      · simp only [he, hok, if_true, if_false, Bool.false_eq_true, Option.some.injEq,
          Prod.mk.injEq] at h
        rcases hfr with h1 | ⟨-, -, h3⟩
        · exact Or.inl (h.1 ▸ h1)
        · exact Or.inr ⟨h.2.symm, h.1 ▸ h3⟩
      · simp only [he, hok] at h
        rcases hfr with h1 | ⟨h2, -, -⟩
        · rw [h1] at h
          exact ih' h
        · exact absurd h2 hok

theorem dispatch_eq_firstVerdict (ms : List (List DecodedTrace → Option MatchResult))
    (traces : List DecodedTrace)
    (H : ∀ m ∈ ms, ∃ r, m traces = some r ∧ behaves traces r) :
    inspectPattern.loop ms traces = firstVerdict ms traces := by
  induction ms with
  | nil => simp [inspectPattern.loop, firstVerdict]
  | cons m rest ih =>
    obtain ⟨r, hr, -, hfr⟩ := H m (List.mem_cons_self _ _)
    have ih' := ih (fun m' hm' => H m' (List.mem_cons_of_mem _ hm'))
    by_cases he : r.err.isSome = true
    · simp [inspectPattern.loop, firstVerdict, List.find?, hr, he, reportsNoMatch]
    · have hnone : r.err = none := by simpa using he
      by_cases hok : r.ok = true
      · simp [inspectPattern.loop, firstVerdict, List.find?, hr, hnone, hok, reportsNoMatch]
      · have hok' : r.ok = false := by simpa using hok
        have h1 : r.traces = traces := by
          rcases hfr with h1 | ⟨h2, -, -⟩
          · exact h1
          · exact absurd h2 hok
        have hfv : firstVerdict (m :: rest) traces = firstVerdict rest traces := by
          simp [firstVerdict, List.find?, hr, hnone, hok', reportsNoMatch]
        rw [hfv, ← ih']
        simp [inspectPattern.loop, hr, hnone, hok', h1]

theorem dispatch_noMatch_iff (ms : List (List DecodedTrace → Option MatchResult))
    (traces : List DecodedTrace)
    (H : ∀ m ∈ ms, ∃ r, m traces = some r ∧ behaves traces r) :
    (∃ out ts, inspectPattern.loop ms traces = some (out, some (.noMatchFound ts))) ↔
      ∀ m ∈ ms, reportsNoMatch (m traces) = true := by
  induction ms with
  | nil => simp [inspectPattern.loop]
  | cons m rest ih =>
    obtain ⟨r, hr, hno, hfr⟩ := H m (List.mem_cons_self _ _)
    have ih' := ih (fun m' hm' => H m' (List.mem_cons_of_mem _ hm'))
    by_cases he : r.err.isSome = true
    · have hrep : reportsNoMatch (m traces) = false := by
        simp [reportsNoMatch, hr, he]
      constructor
      · rintro ⟨out, ts, h⟩
        simp only [inspectPattern.loop, hr, he, if_true, Option.some.injEq,
          Prod.mk.injEq] at h
        exact absurd h.2 (hno ts)
      · intro h
        have := h m (List.mem_cons_self _ _)
        rw [hrep] at this
        cases this
    · have hnone : r.err = none := by simpa using he
      by_cases hok : r.ok = true
      · have hrep : reportsNoMatch (m traces) = false := by
          simp [reportsNoMatch, hr, hok]
        constructor
        · rintro ⟨out, ts, h⟩
          simp [inspectPattern.loop, hr, hnone, hok] at h
        · intro h
          have := h m (List.mem_cons_self _ _)
          rw [hrep] at this
          cases this
      · have hok' : r.ok = false := by simpa using hok
        have h1 : r.traces = traces := by
          rcases hfr with h1 | ⟨h2, -, -⟩
          · exact h1
          · exact absurd h2 hok
        have hrep : reportsNoMatch (m traces) = true := by
          simp [reportsNoMatch, hr, hok', hnone]
        have hstep : inspectPattern.loop (m :: rest) traces =
            inspectPattern.loop rest traces := by
          simp [inspectPattern.loop, hr, hnone, hok', h1]
        rw [hstep, ih']
        constructor
        · intro h m' hm'
          rcases List.mem_cons.1 hm' with h2 | h2
          · rw [h2]
            exact hrep
          · exact h m' h2
        · intro h m' hm'
          exact h m' (List.mem_cons_of_mem _ hm')

/-! ## Errors that reach the caller -/

theorem inspectPattern_first_err {traces out : List DecodedTrace} {ok : Bool}
    {e : PatternError}
    (hm : isMissingAccRead traces = some ⟨out, ok, some e⟩) :
    inspectPattern traces = some (out, some e) := by
  simp [inspectPattern, matchers, inspectPattern.loop, hm]

theorem inspectPattern_fourth_err {traces out : List DecodedTrace} {ok : Bool}
    {e : PatternError}
    (hm : isMissingAccRead traces = some ⟨traces, false, none⟩)
    (hc : isAccCreation traces = some ⟨traces, false, none⟩)
    (hd : isAccDeletion traces = some ⟨traces, false, none⟩)
    (hr : isAccRead traces = some ⟨out, ok, some e⟩) :
    inspectPattern traces = some (out, some e) := by
  simp [inspectPattern, matchers, inspectPattern.loop, hm, hc, hd, hr]

theorem inspectPattern_sixth_err {traces out : List DecodedTrace} {ok : Bool}
    {e : PatternError}
    (hm : isMissingAccRead traces = some ⟨traces, false, none⟩)
    (hc : isAccCreation traces = some ⟨traces, false, none⟩)
    (hd : isAccDeletion traces = some ⟨traces, false, none⟩)
    (hr : isAccRead traces = some ⟨traces, false, none⟩)
    (hu : isAccUpdate traces = some ⟨traces, false, none⟩)
    (hre : isAccRedeploy traces = some ⟨out, ok, some e⟩) :
    inspectPattern traces = some (out, some e) := by
  simp [inspectPattern, matchers, inspectPattern.loop, hm, hc, hd, hr, hu, hre]

theorem inspectPattern_none_matched {traces : List DecodedTrace}
    (hm : isMissingAccRead traces = some ⟨traces, false, none⟩)
    (hc : isAccCreation traces = some ⟨traces, false, none⟩)
    (hd : isAccDeletion traces = some ⟨traces, false, none⟩)
    (hr : isAccRead traces = some ⟨traces, false, none⟩)
    (hu : isAccUpdate traces = some ⟨traces, false, none⟩)
    (hre : isAccRedeploy traces = some ⟨traces, false, none⟩) :
    inspectPattern traces =
      some (traces, some (.noMatchFound (traces.map (·.Underlying)))) := by
  simp [inspectPattern, matchers, inspectPattern.loop, hm, hc, hd, hr, hu, hre]

theorem isMissingAccRead_err {traces : List DecodedTrace} (hlen : 1 < traces.length)
    (hany : traces.any (fun t => decide (t.Underlying = .ReadZeroTraceWS)) = true) :
    isMissingAccRead traces = some ⟨traces, false, some .readZeroInLongTrace⟩ := by
  cases traces with
  | nil => simp at hlen
  | cons f ts =>
    have h1 : ¬ (f.Underlying = .ReadZeroTraceWS ∧ (f :: ts).length = 1) := by
      rintro ⟨-, h⟩
      omega
    simp only [isMissingAccRead, List.getElem?_cons_zero, if_neg h1,
      isMissingAccRead_loop_eq, if_pos hany]

theorem isAccRedeploy_loop_dup (rest pre suf : List DecodedTrace) (foundDeletion : Bool)
    (hb : ∀ t ∈ rest, t.isWorldState = false ∨ t.Underlying = .DeletionTraceWS)
    (hc : (if foundDeletion then 1 else 2) ≤
      rest.countP (fun t => decide (t.Underlying = .DeletionTraceWS))) :
    isAccRedeploy.loop (pre ++ (rest ++ suf)) rest.length pre.length foundDeletion none =
      .ret false (some .moreThanTwoDeletion) := by
  induction rest generalizing pre foundDeletion with
  | nil =>
    cases foundDeletion <;> simp at hc
  | cons t ts ih =>
    have hg := getElem?_mid pre (ts ++ suf) t
    have ht := hb t (List.mem_cons_self _ _)
    have key : ∀ fd : Bool,
        (if fd then 1 else 2) ≤ ts.countP (fun t => decide (t.Underlying = .DeletionTraceWS)) →
        isAccRedeploy.loop (pre ++ t :: (ts ++ suf)) ts.length (pre.length + 1) fd none =
          .ret false (some .moreThanTwoDeletion) := by
      intro fd hfd
      have := ih (pre ++ [t]) fd (fun x hx => hb x (List.mem_cons_of_mem _ hx)) hfd
      simpa using this
    rw [List.length_cons]
    simp only [List.cons_append]
    rw [isAccRedeploy.loop, hg]
    by_cases hd : t.Underlying = .DeletionTraceWS
    · have hcnt : (t :: ts).countP (fun t => decide (t.Underlying = .DeletionTraceWS)) =
          ts.countP (fun t => decide (t.Underlying = .DeletionTraceWS)) + 1 := by
        simp [List.countP_cons, hd]
      cases foundDeletion
      · have hc2 : 2 ≤ (t :: ts).countP (fun t => decide (t.Underlying = .DeletionTraceWS)) :=
          hc
        rw [hcnt] at hc2
        have hk := key true (by
          show 1 ≤ _
          omega)
        simp [hd, hk]
      · simp [hd]
    · have hw : t.isWorldState = false := by
        rcases ht with h | h
        · exact h
        · exact absurd h hd
      have hk := key foundDeletion (by
        simpa [List.countP_cons, hd] using hc)
      cases hu : t.Underlying <;> cases foundDeletion <;>
        simp [hu, DecodedTrace.isWorldState, TraceType.scope] at hd hw hk ⊢ <;> exact hk

theorem inspectPattern_nil : inspectPattern [] = none := rfl

theorem inspectPattern_swapped (f l : DecodedTrace) (mid : List DecodedTrace)
    (hf : f.Underlying = .ReadNonZeroTraceWS)
    (hst : ∀ t ∈ mid ++ [l], t.isWorldState = false) :
    inspectPattern (l :: (mid ++ [f])) = some (l :: (mid ++ [f]), none) := by
  have hst' : ∀ t ∈ l :: mid, t.isWorldState = false := by
    intro t ht
    apply hst
    simp only [List.mem_cons] at ht
    simp only [List.mem_append, List.mem_singleton]
    rcases ht with h | h
    · exact Or.inr h
    · exact Or.inl h
  have hl : l.Underlying ≠ .ReadNonZeroTraceWS :=
    not_ws_of_mem hst' (List.mem_cons_self _ _) _ rfl
  have hlast := readLast_cons_append l f mid
  have hm : isMissingAccRead (l :: (mid ++ [f])) =
      some ⟨l :: (mid ++ [f]), false, none⟩ := by
    apply isMissingAccRead_noMatch (by simp)
    intro t ht
    have ht' : t ∈ (l :: mid) ++ [f] := by simpa using ht
    rcases List.mem_append.1 ht' with h1 | h1
    · exact not_ws_of_mem hst' h1 _ rfl
    · simp only [List.mem_singleton] at h1
      simp [h1, hf]
  have hc : isAccCreation (l :: (mid ++ [f])) = some ⟨l :: (mid ++ [f]), false, none⟩ :=
    isAccCreation_noMatch hlast (by simp [hf])
  have hd : isAccDeletion (l :: (mid ++ [f])) = some ⟨l :: (mid ++ [f]), false, none⟩ :=
    isAccDeletion_noMatch hlast (by simp [hf])
  have hr := isAccRead_last l f mid hl hf
  rw [find?_ws_none hst'] at hr
  exact inspectPattern_fourth hm hc hd hr

theorem dispatch_total (ms : List (List DecodedTrace → Option MatchResult))
    (traces : List DecodedTrace)
    (H : ∀ m ∈ ms, ∃ r, m traces = some r ∧ behaves traces r) :
    ∃ res, inspectPattern.loop ms traces = some res := by
  induction ms with
  | nil => exact ⟨_, rfl⟩
  | cons m rest ih =>
    obtain ⟨r, hr, -, hfr⟩ := H m (List.mem_cons_self _ _)
    obtain ⟨res, hres⟩ := ih (fun m' hm' => H m' (List.mem_cons_of_mem _ hm'))
    by_cases he : r.err.isSome = true
    · exact ⟨(r.traces, r.err), by simp only [inspectPattern.loop, hr, he, if_true]⟩
    · by_cases hok : r.ok = true
      · exact ⟨(r.traces, none), by simp only [inspectPattern.loop, hr, he, hok, if_true,
          if_false, Bool.false_eq_true]⟩
      · have h1 : r.traces = traces := by
          rcases hfr with h1 | ⟨h2, -, -⟩
          · exact h1
          · exact absurd h2 hok
        refine ⟨res, ?_⟩
        simp only [inspectPattern.loop, hr, he, hok, if_false, Bool.false_eq_true, h1]
        exact hres

/-! ## What a match tells about the segment -/

theorem isAccRedeploy_loop_done (rest pre suf : List DecodedTrace) (foundDeletion : Bool)
    (h : isAccRedeploy.loop (pre ++ (rest ++ suf)) rest.length pre.length foundDeletion
      none = .done none) :
    (∀ t ∈ rest, t.isWorldState = false ∨ t.Underlying = .DeletionTraceWS) ∧
      rest.countP (fun t => decide (t.Underlying = .DeletionTraceWS)) ≤
        (if foundDeletion then 0 else 1) := by
  induction rest generalizing pre foundDeletion with
  | nil => simp
  | cons t ts ih =>
    have hg := getElem?_mid pre (ts ++ suf) t
    have key : ∀ fd : Bool,
        isAccRedeploy.loop (pre ++ t :: (ts ++ suf)) ts.length (pre.length + 1) fd none =
          .done none →
        (∀ x ∈ ts, x.isWorldState = false ∨ x.Underlying = .DeletionTraceWS) ∧
          ts.countP (fun t => decide (t.Underlying = .DeletionTraceWS)) ≤
            (if fd then 0 else 1) := by
      intro fd hfd
      apply ih (pre ++ [t]) fd
      simpa using hfd
    rw [List.length_cons] at h
    simp only [List.cons_append] at h
    rw [isAccRedeploy.loop, hg] at h
    by_cases hd : t.Underlying = .DeletionTraceWS
    · cases foundDeletion
      · simp only [hd, decide_True, Bool.and_false, Bool.false_eq_true, if_false,
          if_true] at h
        obtain ⟨h1, h2⟩ := key true h
        have h2' : ts.countP (fun t => decide (t.Underlying = .DeletionTraceWS)) ≤ 0 := h2
        refine ⟨?_, ?_⟩
        · intro x hx
          rcases List.mem_cons.1 hx with e | e
          · exact Or.inr (e ▸ hd)
          · exact h1 x e
        · have hcnt : (t :: ts).countP (fun t => decide (t.Underlying = .DeletionTraceWS)) =
              ts.countP (fun t => decide (t.Underlying = .DeletionTraceWS)) + 1 := by
            simp [List.countP_cons, hd]
          rw [hcnt]
          show _ ≤ 1
          omega
      · simp [hd] at h
    · have hcnt : (t :: ts).countP (fun t => decide (t.Underlying = .DeletionTraceWS)) =
          ts.countP (fun t => decide (t.Underlying = .DeletionTraceWS)) := by
        simp [List.countP_cons, hd]
      by_cases hw : t.isWorldState = true
      · simp [hd, hw] at h
      · have hw' : t.isWorldState = false := by simpa using hw
        have hstep : isAccRedeploy.loop (pre ++ t :: (ts ++ suf)) ts.length (pre.length + 1)
            foundDeletion none = .done none := by
          revert h
          cases hu : t.Underlying <;> cases foundDeletion <;>
            simp [hu, DecodedTrace.isWorldState, TraceType.scope] at hd hw' ⊢
        obtain ⟨h1, h2⟩ := key foundDeletion hstep
        refine ⟨?_, ?_⟩
        · intro x hx
          rcases List.mem_cons.1 hx with e | e
          · exact Or.inl (e ▸ hw')
          · exact h1 x e
        · rw [hcnt]
          exact h2

theorem isAccRedeploy_match {body : List DecodedTrace} {h : DecodedTrace} {r : MatchResult}
    (hr : isAccRedeploy (body ++ [h]) = some r) (hok : r.ok = true) :
    h.Underlying = .InsertionTraceWS ∧ body ≠ [] ∧
      (∀ t ∈ body, t.isWorldState = false ∨ t.Underlying = .DeletionTraceWS) ∧
      body.countP (fun t => decide (t.Underlying = .DeletionTraceWS)) ≤ 1 := by
  by_cases hh : h.Underlying = .InsertionTraceWS
  · by_cases hb : body = []
    · subst hb
      simp [isAccRedeploy, readLast, hh] at hr
      rw [← hr] at hok
      simp at hok
    · have hlen : ¬ (body ++ [h]).length = 1 := by
        have : 0 < body.length := List.length_pos.2 hb
        simp only [List.length_append, List.length_singleton]
        omega
      have hsub : (body ++ [h]).length - 1 = body.length := by simp
      have hshape := isAccRedeploy_loop_shape (body ++ [h]) body.length 0 false (by simp)
      simp only [isAccRedeploy, readLast_append, hh, hlen, hsub] at hr
      rcases hshape with h1 | h1 | ⟨t, h1⟩
      · have hd := isAccRedeploy_loop_done body [] [h] false (by simpa using h1)
        exact ⟨hh, hb, hd.1, hd.2⟩
      · rw [h1] at hr
        simp at hr
        rw [← hr] at hok
        simp at hok
      · rw [h1] at hr
        simp at hr
        rw [← hr] at hok
        simp at hok
  · rw [isAccRedeploy_noMatch (readLast_append body h) hh] at hr
    cases hr
    simp at hok

theorem isAccDeletion_body_eq (body : List DecodedTrace) (h : DecodedTrace)
    (hh : h.Underlying = .DeletionTraceWS) :
    isAccDeletion (body ++ [h]) =
      match body.find? (fun t => t.isWorldState) with
      | some t => some ⟨body ++ [h], false, some (.deletionPreceded t)⟩
      | none => some ⟨body ++ [h], true, none⟩ := by
  have hloop := isAccDeletion_loop_eq body [] [h]
  simp only [List.nil_append, List.length_nil] at hloop
  cases body with
  | nil => simp [isAccDeletion, readLast, hh]
  | cons b bs =>
    simp only [isAccDeletion, readLast_append, hh]
    simp only [List.length_append, List.length_singleton, Nat.add_sub_cancel, hloop]
    cases hfind : (b :: bs).find? (fun t => t.isWorldState) <;> simp

theorem isAccUpdate_body_eq (body : List DecodedTrace) (h : DecodedTrace)
    (hh : h.Underlying = .UpdateTraceWS) :
    isAccUpdate (body ++ [h]) =
      match body.find? (fun t => t.isWorldState) with
      | some t => some ⟨body ++ [h], false, some (.updatePreceded t)⟩
      | none => some ⟨body ++ [h], true, none⟩ := by
  have hloop := isAccUpdate_loop_eq body [] [h]
  simp only [List.nil_append, List.length_nil] at hloop
  cases body with
  | nil => simp [isAccUpdate, readLast, hh]
  | cons b bs =>
    simp only [isAccUpdate, readLast_append, hh]
    simp only [List.length_append, List.length_singleton, Nat.add_sub_cancel, hloop]
    cases hfind : (b :: bs).find? (fun t => t.isWorldState) <;> simp

theorem not_ws_of_find?_none {xs : List DecodedTrace}
    (h : xs.find? (fun t => t.isWorldState) = none) : ∀ t ∈ xs, t.isWorldState = false := by
  intro t ht
  have := List.find?_eq_none.1 h t ht
  simpa using this

theorem isMissingAccRead_match {traces : List DecodedTrace} {r : MatchResult}
    (hr : isMissingAccRead traces = some r) (hok : r.ok = true) :
    ∃ t, traces = [t] ∧ t.Underlying = .ReadZeroTraceWS := by
  cases traces with
  | nil => simp [isMissingAccRead] at hr
  | cons f rest =>
    by_cases h1 : f.Underlying = .ReadZeroTraceWS ∧ (f :: rest).length = 1
    · refine ⟨f, ?_, h1.1⟩
      have : rest = [] := by
        have := h1.2
        simpa using this
      rw [this]
    · by_cases h2 : (f :: rest).any (fun t => decide (t.Underlying = .ReadZeroTraceWS)) = true
      · simp only [isMissingAccRead, List.getElem?_cons_zero, if_neg h1,
          isMissingAccRead_loop_eq, if_pos h2] at hr
        cases hr
        simp at hok
      · simp only [isMissingAccRead, List.getElem?_cons_zero, if_neg h1,
          isMissingAccRead_loop_eq, if_neg h2] at hr
        cases hr
        simp at hok

theorem isAccCreation_match {body : List DecodedTrace} {h : DecodedTrace} {r : MatchResult}
    (hr : isAccCreation (body ++ [h]) = some r) (hok : r.ok = true) :
    h.Underlying = .InsertionTraceWS ∧ ∀ t ∈ body, t.isWorldState = false := by
  by_cases hh : h.Underlying = .InsertionTraceWS
  · rw [isAccCreation_body body h hh] at hr
    cases hr
    refine ⟨hh, ?_⟩
    intro t ht
    have hany : body.any (fun t => t.isWorldState) = false := by simpa using hok
    have := List.any_eq_false.1 hany t ht
    simpa using this
  · rw [isAccCreation_noMatch (readLast_append body h) hh] at hr
    cases hr
    simp at hok

theorem isAccDeletion_match {body : List DecodedTrace} {h : DecodedTrace} {r : MatchResult}
    (hr : isAccDeletion (body ++ [h]) = some r) (hok : r.ok = true) :
    h.Underlying = .DeletionTraceWS ∧ ∀ t ∈ body, t.isWorldState = false := by
  by_cases hh : h.Underlying = .DeletionTraceWS
  · rw [isAccDeletion_body_eq body h hh] at hr
    cases hfind : body.find? (fun t => t.isWorldState) with
    | some t =>
      rw [hfind] at hr
      cases hr
      simp at hok
    | none => exact ⟨hh, not_ws_of_find?_none hfind⟩
  · rw [isAccDeletion_noMatch (readLast_append body h) hh] at hr
    cases hr
    simp at hok

theorem isAccUpdate_match {body : List DecodedTrace} {h : DecodedTrace} {r : MatchResult}
    (hr : isAccUpdate (body ++ [h]) = some r) (hok : r.ok = true) :
    h.Underlying = .UpdateTraceWS ∧ ∀ t ∈ body, t.isWorldState = false := by
  by_cases hh : h.Underlying = .UpdateTraceWS
  · rw [isAccUpdate_body_eq body h hh] at hr
    cases hfind : body.find? (fun t => t.isWorldState) with
    | some t =>
      rw [hfind] at hr
      cases hr
      simp at hok
    | none => exact ⟨hh, not_ws_of_find?_none hfind⟩
  · rw [isAccUpdate_noMatch (readLast_append body h) hh] at hr
    cases hr
    simp at hok

theorem isAccRead_match {traces : List DecodedTrace} {r : MatchResult}
    (hr : isAccRead traces = some r) (hok : r.ok = true) :
    (∃ body l, traces = body ++ [l] ∧ l.Underlying = .ReadNonZeroTraceWS ∧
        ∀ t ∈ body, t.isWorldState = false) ∨
      (∃ f rest, traces = f :: rest ∧ rest ≠ [] ∧ f.Underlying = .ReadNonZeroTraceWS ∧
        ∀ t ∈ rest, t.isWorldState = false) := by
  cases traces with
  | nil => simp [isAccRead] at hr
  | cons f rest =>
    rcases List.eq_nil_or_concat rest with h0 | ⟨mid, l, h0⟩
    · subst h0
      by_cases hf : f.Underlying = .ReadNonZeroTraceWS
      · exact Or.inl ⟨[], f, rfl, hf, by simp⟩
      · rw [@isAccRead_noMatch [f] f f rfl rfl hf hf] at hr
        cases hr
        simp at hok
    · rw [List.concat_eq_append] at h0
      subst h0
      by_cases hf : f.Underlying = .ReadNonZeroTraceWS
      · by_cases hl : l.Underlying = .ReadNonZeroTraceWS
        · rw [isAccRead_both f l mid hf hl] at hr
          cases hr
          simp at hok
        · rw [isAccRead_first f l mid hf hl] at hr
          cases hfind : (mid ++ [l]).find? (fun t => t.isWorldState) with
          | some t =>
            rw [hfind] at hr
            cases hr
            simp at hok
          | none =>
            exact Or.inr ⟨f, mid ++ [l], rfl, by simp, hf, not_ws_of_find?_none hfind⟩
      · by_cases hl : l.Underlying = .ReadNonZeroTraceWS
        · rw [isAccRead_last f l mid hf hl] at hr
          cases hfind : (f :: mid).find? (fun t => t.isWorldState) with
          | some t =>
            rw [hfind] at hr
            cases hr
            simp at hok
          | none =>
            exact Or.inl ⟨f :: mid, l, rfl, hl, not_ws_of_find?_none hfind⟩
        · rw [@isAccRead_noMatch (f :: (mid ++ [l])) f l (by simp)
            (readLast_cons_append f l mid) hf hl] at hr
          cases hr
          simp at hok

theorem split_of_countP_one (p : DecodedTrace → Bool) (xs : List DecodedTrace)
    (h : xs.countP p = 1) :
    ∃ a d b, xs = a ++ d :: b ∧ p d = true ∧ (∀ t ∈ a, p t = false) ∧
      (∀ t ∈ b, p t = false) := by
  induction xs with
  | nil => simp at h
  | cons x xs ih =>
    by_cases hx : p x = true
    · have h0 : xs.countP p = 0 := by
        rw [List.countP_cons_of_pos _ _ hx] at h
        omega
      refine ⟨[], x, xs, rfl, hx, by simp, ?_⟩
      intro t ht
      have := List.countP_eq_zero.1 h0 t ht
      simpa using this
    · have h1 : xs.countP p = 1 := by
        rw [List.countP_cons_of_neg _ _ hx] at h
        exact h
      obtain ⟨a, d, b, hEq, hd, ha, hb⟩ := ih h1
      refine ⟨x :: a, d, b, by rw [hEq]; rfl, hd, ?_, hb⟩
      intro t ht
      rcases List.mem_cons.1 ht with e | e
      · rw [e]
        simpa using hx
      · exact ha t e

theorem nonempty_of_readLast_matcher {traces : List DecodedTrace} {r : MatchResult}
    (m : List DecodedTrace → Option MatchResult) (hm : m [] = none)
    (hr : m traces = some r) : traces ≠ [] := by
  intro h0
  rw [h0, hm] at hr
  cases hr

theorem accepted_of_match {traces : List DecodedTrace} :
    ∀ m ∈ matchers, ∀ r, m traces = some r → r.ok = true → accepted traces := by
  intro m hm r hr hok
  simp only [matchers, List.mem_cons, List.mem_singleton, List.mem_nil_iff, or_false] at hm
  rcases hm with h | h | h | h | h | h <;> subst h
  · obtain ⟨t, ht, hu⟩ := isMissingAccRead_match hr hok
    exact Or.inl ⟨[], t, by simpa using ht, by simp, Or.inr (Or.inr (Or.inr (Or.inr ⟨hu, rfl⟩)))⟩
  · obtain ⟨body, l, hEq, -⟩ := exists_readLast (nonempty_of_readLast_matcher _ rfl hr)
    subst hEq
    obtain ⟨h1, h2⟩ := isAccCreation_match hr hok
    exact Or.inl ⟨body, l, rfl, h2, Or.inl h1⟩
  · obtain ⟨body, l, hEq, -⟩ := exists_readLast (nonempty_of_readLast_matcher _ rfl hr)
    subst hEq
    obtain ⟨h1, h2⟩ := isAccDeletion_match hr hok
    exact Or.inl ⟨body, l, rfl, h2, Or.inr (Or.inl h1)⟩
  · rcases isAccRead_match hr hok with ⟨body, l, hEq, h1, h2⟩ | h
    · exact Or.inl ⟨body, l, hEq, h2, Or.inr (Or.inr (Or.inr (Or.inl h1)))⟩
    · exact Or.inr (Or.inl h)
  · obtain ⟨body, l, hEq, -⟩ := exists_readLast (nonempty_of_readLast_matcher _ rfl hr)
    subst hEq
    obtain ⟨h1, h2⟩ := isAccUpdate_match hr hok
    exact Or.inl ⟨body, l, rfl, h2, Or.inr (Or.inr (Or.inl h1))⟩
  · obtain ⟨body, l, hEq, -⟩ := exists_readLast (nonempty_of_readLast_matcher _ rfl hr)
    subst hEq
    obtain ⟨h1, -, h3, h4⟩ := isAccRedeploy_match hr hok
    by_cases hc : body.countP (fun t => decide (t.Underlying = .DeletionTraceWS)) = 0
    · refine Or.inl ⟨body, l, rfl, ?_, Or.inl h1⟩
      intro t ht
      rcases h3 t ht with e | e
      · exact e
      · have := List.countP_eq_zero.1 hc t ht
        simp [e] at this
    · have hc1 : body.countP (fun t => decide (t.Underlying = .DeletionTraceWS)) = 1 := by
        omega
      obtain ⟨a, d, b, hEq, hd, ha, hb⟩ := split_of_countP_one _ body hc1
      refine Or.inr (Or.inr ⟨a, d, b, l, by rw [hEq]; simp, h1, by simpa using hd, ?_, ?_⟩)
      · intro t ht
        rcases h3 t (by rw [hEq]; simp [ht]) with e | e
        · exact e
        · have := ha t ht
          simp [e] at this
      · intro t ht
        rcases h3 t (by rw [hEq]; simp [ht]) with e | e
        · exact e
        · have := hb t ht
          simp [e] at this

theorem dispatch_success (ms : List (List DecodedTrace → Option MatchResult))
    (traces : List DecodedTrace)
    (H : ∀ m ∈ ms, ∃ r, m traces = some r ∧ behaves traces r)
    (out : List DecodedTrace)
    (h : inspectPattern.loop ms traces = some (out, none)) :
    ∃ m ∈ ms, ∃ r, m traces = some r ∧ r.ok = true := by
  induction ms with
  | nil => simp [inspectPattern.loop] at h
  | cons m rest ih =>
    obtain ⟨r, hr, -, hfr⟩ := H m (List.mem_cons_self _ _)
    have ih' := ih (fun m' hm' => H m' (List.mem_cons_of_mem _ hm'))
    simp only [inspectPattern.loop, hr] at h
    by_cases he : r.err.isSome = true
    · simp only [he, if_true, Option.some.injEq, Prod.mk.injEq] at h
      rw [h.2] at he
      simp at he
    · by_cases hok : r.ok = true
      · exact ⟨m, List.mem_cons_self _ _, r, hr, hok⟩
      · simp only [he, hok] at h
        have h1 : r.traces = traces := by
          rcases hfr with h1 | ⟨h2, -, -⟩
          · exact h1
          · exact absurd h2 hok
        rw [h1] at h
        obtain ⟨m', hm', r', hr', hok'⟩ := ih' h
        exact ⟨m', List.mem_cons_of_mem _ hm', r', hr', hok'⟩

theorem accepted_of_success {traces out : List DecodedTrace}
    (h : inspectPattern traces = some (out, none)) : accepted traces := by
  have hne : traces ≠ [] := by
    intro h0
    rw [h0, inspectPattern_nil] at h
    cases h
  obtain ⟨m, hm, r, hr, hok⟩ := dispatch_success matchers traces (matchers_behave hne) out h
  exact accepted_of_match m hm r hr hok

/-! ## The accepted layouts are accepted -/

theorem inspectPattern_first {traces out : List DecodedTrace}
    (hm : isMissingAccRead traces = some ⟨out, true, none⟩) :
    inspectPattern traces = some (out, none) := by
  simp [inspectPattern, matchers, inspectPattern.loop, hm]

theorem inspectPattern_second {traces out : List DecodedTrace}
    (hm : isMissingAccRead traces = some ⟨traces, false, none⟩)
    (hc : isAccCreation traces = some ⟨out, true, none⟩) :
    inspectPattern traces = some (out, none) := by
  simp [inspectPattern, matchers, inspectPattern.loop, hm, hc]

theorem inspectPattern_third {traces out : List DecodedTrace}
    (hm : isMissingAccRead traces = some ⟨traces, false, none⟩)
    (hc : isAccCreation traces = some ⟨traces, false, none⟩)
    (hd : isAccDeletion traces = some ⟨out, true, none⟩) :
    inspectPattern traces = some (out, none) := by
  simp [inspectPattern, matchers, inspectPattern.loop, hm, hc, hd]

theorem inspectPattern_fifth {traces out : List DecodedTrace}
    (hm : isMissingAccRead traces = some ⟨traces, false, none⟩)
    (hc : isAccCreation traces = some ⟨traces, false, none⟩)
    (hd : isAccDeletion traces = some ⟨traces, false, none⟩)
    (hr : isAccRead traces = some ⟨traces, false, none⟩)
    (hu : isAccUpdate traces = some ⟨out, true, none⟩) :
    inspectPattern traces = some (out, none) := by
  simp [inspectPattern, matchers, inspectPattern.loop, hm, hc, hd, hr, hu]

theorem success_of_last (body : List DecodedTrace) (l : DecodedTrace)
    (hb : ∀ t ∈ body, t.isWorldState = false)
    (hl : l.Underlying = .InsertionTraceWS ∨ l.Underlying = .DeletionTraceWS ∨
      l.Underlying = .UpdateTraceWS ∨ l.Underlying = .ReadNonZeroTraceWS ∨
      (l.Underlying = .ReadZeroTraceWS ∧ body = [])) :
    inspectPattern (body ++ [l]) = some (body ++ [l], none) := by
  have hlast := readLast_append body l
  by_cases hz : l.Underlying = .ReadZeroTraceWS
  · have hbody : body = [] := by
      rcases hl with h | h | h | h | h
      · rw [hz] at h
        cases h
      · rw [hz] at h
        cases h
      · rw [hz] at h
        cases h
      · rw [hz] at h
        cases h
      · exact h.2
    subst hbody
    apply inspectPattern_first
    simp [isMissingAccRead, hz]
  · have hm : isMissingAccRead (body ++ [l]) = some ⟨body ++ [l], false, none⟩ := by
      apply isMissingAccRead_noMatch (by simp)
      intro t ht
      rcases List.mem_append.1 ht with h1 | h1
      · exact not_ws_of_mem hb h1 _ rfl
      · simp only [List.mem_singleton] at h1
        rw [h1]
        exact hz
    have hany : body.any (fun t => t.isWorldState) = false := by
      rw [List.any_eq_false]
      intro t ht
      simp [hb t ht]
    rcases hl with h | h | h | h | h
    · have hc := isAccCreation_body body l h
      rw [hany] at hc
      exact inspectPattern_second hm hc
    · have hc : isAccCreation (body ++ [l]) = some ⟨body ++ [l], false, none⟩ :=
        isAccCreation_noMatch hlast (by simp [h])
      exact inspectPattern_third hm hc (isAccDeletion_body body l h hb)
    · have hc : isAccCreation (body ++ [l]) = some ⟨body ++ [l], false, none⟩ :=
        isAccCreation_noMatch hlast (by simp [h])
      have hd : isAccDeletion (body ++ [l]) = some ⟨body ++ [l], false, none⟩ :=
        isAccDeletion_noMatch hlast (by simp [h])
      have hr : isAccRead (body ++ [l]) = some ⟨body ++ [l], false, none⟩ := by
        obtain ⟨f, hf, hmem⟩ := first_of_append body l
        refine isAccRead_noMatch hf hlast ?_ (by simp [h])
        rcases hmem with h1 | h1
        · simp [h1, h]
        · exact not_ws_of_mem hb h1 _ rfl
      exact inspectPattern_fifth hm hc hd hr (isAccUpdate_body body l h hb)
    · have hc : isAccCreation (body ++ [l]) = some ⟨body ++ [l], false, none⟩ :=
        isAccCreation_noMatch hlast (by simp [h])
      have hd : isAccDeletion (body ++ [l]) = some ⟨body ++ [l], false, none⟩ :=
        isAccDeletion_noMatch hlast (by simp [h])
      cases body with
      | nil => exact inspectPattern_fourth hm hc hd (isAccRead_single l h)
      | cons f mid =>
        have hf : f.Underlying ≠ .ReadNonZeroTraceWS :=
          not_ws_of_mem hb (List.mem_cons_self f mid) _ rfl
        have hr := isAccRead_last f l mid hf h
        rw [find?_ws_none hb] at hr
        exact inspectPattern_fourth hm hc hd hr
    · exact absurd h.1 hz

theorem success_of_first (f : DecodedTrace) (rest : List DecodedTrace) (hne : rest ≠ [])
    (hf : f.Underlying = .ReadNonZeroTraceWS)
    (hb : ∀ t ∈ rest, t.isWorldState = false) :
    ∃ out, inspectPattern (f :: rest) = some (out, none) := by
  rcases List.eq_nil_or_concat rest with h0 | ⟨mid, l, h0⟩
  · exact absurd h0 hne
  · rw [List.concat_eq_append] at h0
    subst h0
    have hl2 : l ∈ mid ++ [l] := by simp
    have hl : l.Underlying ≠ .ReadNonZeroTraceWS := not_ws_of_mem hb hl2 _ rfl
    have hm : isMissingAccRead (f :: (mid ++ [l])) =
        some ⟨f :: (mid ++ [l]), false, none⟩ := by
      apply isMissingAccRead_noMatch (by simp)
      intro t ht
      rcases List.mem_cons.1 ht with h1 | h1
      · simp [h1, hf]
      · exact not_ws_of_mem hb h1 _ rfl
    have hc : isAccCreation (f :: (mid ++ [l])) = some ⟨f :: (mid ++ [l]), false, none⟩ :=
      isAccCreation_noMatch (readLast_cons_append f l mid) (not_ws_of_mem hb hl2 _ rfl)
    have hd : isAccDeletion (f :: (mid ++ [l])) = some ⟨f :: (mid ++ [l]), false, none⟩ :=
      isAccDeletion_noMatch (readLast_cons_append f l mid) (not_ws_of_mem hb hl2 _ rfl)
    have hr := isAccRead_first f l mid hf hl
    rw [find?_ws_none hb] at hr
    exact ⟨_, inspectPattern_fourth hm hc hd hr⟩

theorem success_of_redeploy (before after : List DecodedTrace) (d l : DecodedTrace)
    (hl : l.Underlying = .InsertionTraceWS) (hd : d.Underlying = .DeletionTraceWS)
    (h1 : ∀ t ∈ before, t.isWorldState = false)
    (h2 : ∀ t ∈ after, t.isWorldState = false) :
    inspectPattern (before ++ d :: (after ++ [l])) =
      some (before ++ d :: (after ++ [l]), none) := by
  have e : before ++ d :: (after ++ [l]) = (before ++ d :: after) ++ [l] := by simp
  have hlast : readLast (before ++ d :: (after ++ [l])) = some l := by
    rw [e]
    exact readLast_append _ _
  have hty : ∀ t ∈ before ++ d :: (after ++ [l]), ∀ u : TraceType, u.scope = .WS →
      u ≠ .DeletionTraceWS → u ≠ .InsertionTraceWS → t.Underlying ≠ u := by
    intro t hmem u hu n1 n2
    simp only [List.mem_append, List.mem_cons, List.mem_singleton, List.mem_nil_iff,
      or_false] at hmem
    rcases hmem with h0 | h0 | h0 | h0
    · exact not_ws_of_mem h1 h0 u hu
    · rw [h0, hd]
      exact fun e => n1 e.symm
    · exact not_ws_of_mem h2 h0 u hu
    · rw [h0, hl]
      exact fun e => n2 e.symm
  have hm : isMissingAccRead (before ++ d :: (after ++ [l])) =
      some ⟨before ++ d :: (after ++ [l]), false, none⟩ :=
    isMissingAccRead_noMatch (by simp) (fun t hmem => hty t hmem _ rfl (by decide) (by decide))
  have hc : isAccCreation (before ++ d :: (after ++ [l])) =
      some ⟨before ++ d :: (after ++ [l]), false, none⟩ := by
    have := isAccCreation_body (before ++ d :: after) l hl
    have hany : (before ++ d :: after).any (fun t => t.isWorldState) = true := by
      rw [List.any_eq_true]
      exact ⟨d, by simp, by simp [DecodedTrace.isWorldState, hd, TraceType.scope]⟩
    rw [hany, ← e] at this
    exact this
  have hdel : isAccDeletion (before ++ d :: (after ++ [l])) =
      some ⟨before ++ d :: (after ++ [l]), false, none⟩ :=
    isAccDeletion_noMatch hlast (by simp [hl])
  have hr : isAccRead (before ++ d :: (after ++ [l])) =
      some ⟨before ++ d :: (after ++ [l]), false, none⟩ := by
    obtain ⟨f, hf, -⟩ := first_of_append (before ++ d :: after) l
    rw [← e] at hf
    refine isAccRead_noMatch hf hlast ?_ (by simp [hl])
    exact hty f (first_mem hf) _ rfl (by decide) (by decide)
  have hu : isAccUpdate (before ++ d :: (after ++ [l])) =
      some ⟨before ++ d :: (after ++ [l]), false, none⟩ :=
    isAccUpdate_noMatch hlast (by simp [hl])
  exact inspectPattern_sixth hm hc hdel hr hu (isAccRedeploy_shape before after d l hd hl h1 h2)

theorem success_of_accepted {traces : List DecodedTrace} (h : accepted traces) :
    ∃ out, inspectPattern traces = some (out, none) := by
  rcases h with ⟨body, l, hEq, hb, hl⟩ | ⟨f, rest, hEq, hne, hf, hb⟩ |
    ⟨before, d, after, l, hEq, hl, hd, h1, h2⟩
  · rw [hEq]
    exact ⟨_, success_of_last body l hb hl⟩
  · rw [hEq]
    exact success_of_first f rest hne hf hb
  · rw [hEq]
    exact ⟨_, success_of_redeploy before after d l hl hd h1 h2⟩

theorem inspectPattern_fails {traces : List DecodedTrace} (hne : traces ≠ [])
    (hna : ¬ accepted traces)
    (hm : ∃ m ∈ matchers, reportsNoMatch (m traces) = false) :
    ∃ e, inspectPattern traces = some (traces, some e) ∧ ∀ ts, e ≠ .noMatchFound ts := by
  obtain ⟨res, hres⟩ := dispatch_total matchers traces (matchers_behave hne)
  obtain ⟨out, e⟩ := res
  have hres' : inspectPattern traces = some (out, e) := hres
  cases e with
  | none => exact absurd (accepted_of_success hres') hna
  | some err =>
    have hout : out = traces := by
      rcases dispatch_frame matchers traces (matchers_behave hne) out _ hres with h | ⟨h, -⟩
      · exact h
      · cases h
    rw [hout] at hres'
    refine ⟨err, hres', ?_⟩
    intro ts hts
    rw [hts] at hres'
    have hall := (dispatch_noMatch_iff matchers traces (matchers_behave hne)).1
      ⟨traces, ts, hres'⟩
    obtain ⟨m, hmem, hrep⟩ := hm
    rw [hall m hmem] at hrep
    cases hrep

/-! ## Only the world-state tokens count -/

theorem wsView_eq_none {t : DecodedTrace} : wsView t = none ↔ t.isWorldState = false := by
  unfold wsView
  cases h : t.isWorldState <;> simp

theorem wsView_of_type {t : DecodedTrace} {u : TraceType} (hu : u.scope = .WS)
    (ht : t.Underlying = u) : wsView t = some u := by
  simp [wsView, DecodedTrace.isWorldState, ht, hu]

theorem type_of_wsView {t : DecodedTrace} {u : TraceType} (h : wsView t = some u) :
    t.Underlying = u := by
  unfold wsView at h
  cases hw : t.isWorldState
  · simp [hw] at h
  · simpa [hw] using h

theorem not_ws_of_view_eq {xs xs' : List DecodedTrace}
    (h : xs'.map wsView = xs.map wsView) (hb : ∀ t ∈ xs, t.isWorldState = false) :
    ∀ t ∈ xs', t.isWorldState = false := by
  intro t ht
  have h1 : wsView t ∈ xs'.map wsView := List.mem_map_of_mem _ ht
  rw [h] at h1
  obtain ⟨s, hs, he⟩ := List.mem_map.1 h1
  rw [← wsView_eq_none, ← he, wsView_eq_none]
  exact hb s hs

theorem singleton_of_view_eq {xs' : List DecodedTrace} {l : DecodedTrace}
    (h : xs'.map wsView = [wsView l]) : ∃ l', xs' = [l'] ∧ wsView l' = wsView l := by
  obtain ⟨l', rest, hEq, h1, h2⟩ := List.map_eq_cons_iff.1 h
  have : rest = [] := List.map_eq_nil_iff.1 h2
  subst this
  exact ⟨l', hEq, h1⟩

theorem accepted_congr {traces traces' : List DecodedTrace}
    (h : traces'.map wsView = traces.map wsView) (ha : accepted traces) :
    accepted traces' := by
  rcases ha with ⟨body, l, hEq, hb, hl⟩ | ⟨f, rest, hEq, hne, hf, hb⟩ |
    ⟨before, d, after, l, hEq, hl, hd, h1, h2⟩
  · rw [hEq, List.map_append, List.map_singleton] at h
    obtain ⟨body', x, hEq', hb', hx⟩ := List.map_eq_append_iff.1 h
    obtain ⟨l', hx', hl'⟩ := singleton_of_view_eq hx
    subst hx'
    refine Or.inl ⟨body', l', hEq', not_ws_of_view_eq hb' hb, ?_⟩
    rcases hl with e | e | e | e | ⟨e, e0⟩
    · exact Or.inl (type_of_wsView (hl'.trans (wsView_of_type rfl e)))
    · exact Or.inr (Or.inl (type_of_wsView (hl'.trans (wsView_of_type rfl e))))
    · exact Or.inr (Or.inr (Or.inl (type_of_wsView (hl'.trans (wsView_of_type rfl e)))))
    · exact Or.inr (Or.inr (Or.inr (Or.inl
        (type_of_wsView (hl'.trans (wsView_of_type rfl e))))))
    · refine Or.inr (Or.inr (Or.inr (Or.inr
        ⟨type_of_wsView (hl'.trans (wsView_of_type rfl e)), ?_⟩)))
      rw [e0] at hb'
      exact List.map_eq_nil_iff.1 hb'
  · rw [hEq, List.map_cons] at h
    obtain ⟨f', rest', hEq', hf', hr'⟩ := List.map_eq_cons_iff.1 h
    refine Or.inr (Or.inl ⟨f', rest', hEq', ?_,
      type_of_wsView (hf'.trans (wsView_of_type rfl hf)), not_ws_of_view_eq hr' hb⟩)
    intro h0
    rw [h0] at hr'
    exact hne (List.map_eq_nil_iff.1 hr'.symm)
  · rw [hEq, List.map_append, List.map_cons, List.map_append, List.map_singleton] at h
    obtain ⟨before', x, hEq', hb', hx⟩ := List.map_eq_append_iff.1 h
    obtain ⟨d', y, hx', hd', hy⟩ := List.map_eq_cons_iff.1 hx
    obtain ⟨after', z, hy', ha', hz⟩ := List.map_eq_append_iff.1 hy
    obtain ⟨l', hz', hl'⟩ := singleton_of_view_eq hz
    subst hz' hy' hx'
    exact Or.inr (Or.inr ⟨before', d', after', l', hEq',
      type_of_wsView (hl'.trans (wsView_of_type rfl hl)),
      type_of_wsView (hd'.trans (wsView_of_type rfl hd)),
      not_ws_of_view_eq hb' h1, not_ws_of_view_eq ha' h2⟩)

/-! ## Segments that cannot be accepted -/

theorem append_singleton_inj {xs ys : List DecodedTrace} {a b : DecodedTrace}
    (h : xs ++ [a] = ys ++ [b]) : xs = ys ∧ a = b := by
  have := List.append_inj' h rfl
  exact ⟨this.1, by simpa using this.2⟩

theorem accepted_append {body : List DecodedTrace} {h : DecodedTrace}
    (ha : accepted (body ++ [h])) :
    (∀ t ∈ body, t.isWorldState = false) ∨ h.isWorldState = false ∨
      (h.Underlying = .InsertionTraceWS ∧
        ∀ t ∈ body, t.isWorldState = false ∨ t.Underlying = .DeletionTraceWS) := by
  rcases ha with ⟨body', l, hEq, hb, -⟩ | ⟨f, rest, hEq, hne, -, hb⟩ |
    ⟨before, d, after, l, hEq, hl, hd, h1, h2⟩
  · obtain ⟨e1, -⟩ := append_singleton_inj hEq
    rw [e1]
    exact Or.inl hb
  · rcases List.eq_nil_or_concat rest with h0 | ⟨mid, l, h0⟩
    · exact absurd h0 hne
    · rw [List.concat_eq_append] at h0
      subst h0
      have hEq' : body ++ [h] = (f :: mid) ++ [l] := hEq
      obtain ⟨-, e2⟩ := append_singleton_inj hEq'
      rw [e2]
      exact Or.inr (Or.inl (hb l (by simp)))
  · have hEq' : body ++ [h] = (before ++ d :: after) ++ [l] := by
      rw [hEq]
      simp
    obtain ⟨e1, e2⟩ := append_singleton_inj hEq'
    refine Or.inr (Or.inr ⟨e2 ▸ hl, ?_⟩)
    intro t ht
    rw [e1] at ht
    simp only [List.mem_append, List.mem_cons] at ht
    rcases ht with h0 | h0 | h0
    · exact Or.inl (h1 t h0)
    · exact Or.inr (h0 ▸ hd)
    · exact Or.inl (h2 t h0)

theorem isAccDeletion_decides (body : List DecodedTrace) (h : DecodedTrace)
    (hh : h.Underlying = .DeletionTraceWS) :
    reportsNoMatch (isAccDeletion (body ++ [h])) = false := by
  rw [isAccDeletion_body_eq body h hh]
  cases body.find? (fun t => t.isWorldState) <;> simp [reportsNoMatch]

theorem isAccUpdate_decides (body : List DecodedTrace) (h : DecodedTrace)
    (hh : h.Underlying = .UpdateTraceWS) :
    reportsNoMatch (isAccUpdate (body ++ [h])) = false := by
  rw [isAccUpdate_body_eq body h hh]
  cases body.find? (fun t => t.isWorldState) <;> simp [reportsNoMatch]

theorem isAccRedeploy_decides (body : List DecodedTrace) (h : DecodedTrace)
    (hh : h.Underlying = .InsertionTraceWS) (hb : body ≠ []) :
    reportsNoMatch (isAccRedeploy (body ++ [h])) = false := by
  have hlen : ¬ (body ++ [h]).length = 1 := by
    have : 0 < body.length := List.length_pos.2 hb
    simp only [List.length_append, List.length_singleton]
    omega
  have hsub : (body ++ [h]).length - 1 = body.length := by simp
  have hshape := isAccRedeploy_loop_shape (body ++ [h]) body.length 0 false (by simp)
  simp only [isAccRedeploy, readLast_append, hh, hlen, hsub]
  rcases hshape with h1 | h1 | ⟨t, h1⟩ <;> rw [h1] <;> simp [reportsNoMatch]

theorem inspectPattern_error_of_not_accepted {traces : List DecodedTrace}
    (hne : traces ≠ []) (hna : ¬ accepted traces) :
    ∃ e, inspectPattern traces = some (traces, some e) := by
  obtain ⟨res, hres⟩ := dispatch_total matchers traces (matchers_behave hne)
  obtain ⟨out, e⟩ := res
  have hres' : inspectPattern traces = some (out, e) := hres
  cases e with
  | none => exact absurd (accepted_of_success hres') hna
  | some err =>
    have hout : out = traces := by
      rcases dispatch_frame matchers traces (matchers_behave hne) out _ hres with h | ⟨h, -⟩
      · exact h
      · cases h
    rw [hout] at hres'
    exact ⟨err, hres'⟩

/-! ## The claims -/

/-- C7: a segment made of one `ReadZeroTraceWS` token, whatever its payload,
is accepted by `inspectPattern` and returned as it was. -/
theorem missing_account_read_accepted (p : Nat) :
    inspectPattern [⟨.ReadZeroTraceWS, p⟩] = some ([⟨.ReadZeroTraceWS, p⟩], none) := by
  simp [inspectPattern, matchers, inspectPattern.loop, isMissingAccRead]

/-- C8: on a segment of length greater than one that holds a `ReadZeroTraceWS`
token at some position, `inspectPattern` returns the error of
`isMissingAccRead`, "found read zero in a trace whose length is larger than 1",
and the segment is as it was. -/
theorem misplaced_terminal_read (traces : List DecodedTrace)
    (hlen : 1 < traces.length)
    (hz : ∃ t ∈ traces, t.Underlying = .ReadZeroTraceWS) :
    inspectPattern traces = some (traces, some .readZeroInLongTrace) := by
  obtain ⟨t, ht, hu⟩ := hz
  have hany : traces.any (fun t => decide (t.Underlying = .ReadZeroTraceWS)) = true := by
    rw [List.any_eq_true]
    exact ⟨t, ht, by simp [hu]⟩
  cases traces with
  | nil => simp at hlen
  | cons f ts =>
    have hm : isMissingAccRead (f :: ts) =
        some ⟨f :: ts, false, some .readZeroInLongTrace⟩ := by
      have hts : ts ≠ [] := by
        intro h0
        simp [h0] at hlen
      simp only [isMissingAccRead, isMissingAccRead_loop_eq, hany]
      simp [hts]
    simp [inspectPattern, matchers, inspectPattern.loop, hm]

/-- The witness of C8 on `[ReadNonZeroTraceST, ReadZeroTraceWS]`. -/
theorem misplaced_terminal_read_witness :
    inspectPattern [⟨.ReadNonZeroTraceST, 0⟩, ⟨.ReadZeroTraceWS, 1⟩] =
      some ([⟨.ReadNonZeroTraceST, 0⟩, ⟨.ReadZeroTraceWS, 1⟩], some .readZeroInLongTrace) :=
  misplaced_terminal_read [⟨.ReadNonZeroTraceST, 0⟩, ⟨.ReadZeroTraceWS, 1⟩] (by decide)
    ⟨⟨.ReadZeroTraceWS, 1⟩, by decide, rfl⟩

/-- C2: a segment whose body holds only `InsertionTraceST` and
`ReadZeroTraceST` tokens and whose last token is an `InsertionTraceWS` is
accepted by `inspectPattern`, the empty body included, and is returned as it
was. -/
theorem creation_accepted (body : List DecodedTrace) (h : DecodedTrace)
    (hb : ∀ t ∈ body, t.Underlying = .InsertionTraceST ∨ t.Underlying = .ReadZeroTraceST)
    (hh : h.Underlying = .InsertionTraceWS) :
    inspectPattern (body ++ [h]) = some (body ++ [h], none) := by
  have hst : ∀ t ∈ body, t.isWorldState = false := by
    intro t ht
    rcases hb t ht with h1 | h1 <;> simp [DecodedTrace.isWorldState, h1, TraceType.scope]
  have hm : isMissingAccRead (body ++ [h]) = some ⟨body ++ [h], false, none⟩ := by
    apply isMissingAccRead_noMatch (by simp)
    intro t ht
    rcases List.mem_append.1 ht with h1 | h1
    · exact not_ws_of_mem hst h1 _ rfl
    · simp only [List.mem_singleton] at h1
      simp [h1, hh]
  have hany : body.any (fun t => t.isWorldState) = false := by
    rw [List.any_eq_false]
    intro t ht
    simp [hst t ht]
  have hc := isAccCreation_body body h hh
  rw [hany] at hc
  simp [inspectPattern, matchers, inspectPattern.loop, hm, hc]

/-- The witness of C2, the segment `[InsertionST, ReadZeroST, InsertionWS]`. -/
theorem creation_accepted_witness :
    inspectPattern [⟨.InsertionTraceST, 0⟩, ⟨.ReadZeroTraceST, 1⟩, ⟨.InsertionTraceWS, 2⟩] =
      some ([⟨.InsertionTraceST, 0⟩, ⟨.ReadZeroTraceST, 1⟩, ⟨.InsertionTraceWS, 2⟩], none) :=
  creation_accepted [⟨.InsertionTraceST, 0⟩, ⟨.ReadZeroTraceST, 1⟩] ⟨.InsertionTraceWS, 2⟩
    (by decide) rfl

/-- C3: a segment whose body holds only `ReadZeroTraceST` and
`ReadNonZeroTraceST` tokens and whose last token is a `DeletionTraceWS` is
accepted by `inspectPattern`. -/
theorem deletion_accepted (body : List DecodedTrace) (h : DecodedTrace)
    (hb : ∀ t ∈ body, t.Underlying = .ReadZeroTraceST ∨ t.Underlying = .ReadNonZeroTraceST)
    (hh : h.Underlying = .DeletionTraceWS) :
    inspectPattern (body ++ [h]) = some (body ++ [h], none) := by
  have hst : ∀ t ∈ body, t.isWorldState = false := by
    intro t ht
    rcases hb t ht with h1 | h1 <;> simp [DecodedTrace.isWorldState, h1, TraceType.scope]
  have hm : isMissingAccRead (body ++ [h]) = some ⟨body ++ [h], false, none⟩ := by
    apply isMissingAccRead_noMatch (by simp)
    intro t ht
    rcases List.mem_append.1 ht with h1 | h1
    · exact not_ws_of_mem hst h1 _ rfl
    · simp only [List.mem_singleton] at h1
      simp [h1, hh]
  have hc : isAccCreation (body ++ [h]) = some ⟨body ++ [h], false, none⟩ :=
    isAccCreation_noMatch (readLast_append body h) (by simp [hh])
  have hd := isAccDeletion_body body h hh hst
  simp [inspectPattern, matchers, inspectPattern.loop, hm, hc, hd]

/-- The witness of C3 on `[ReadZeroST, ReadNonZeroST, DeletionWS]`. -/
theorem deletion_accepted_witness :
    inspectPattern [⟨.ReadZeroTraceST, 0⟩, ⟨.ReadNonZeroTraceST, 1⟩, ⟨.DeletionTraceWS, 2⟩] =
      some ([⟨.ReadZeroTraceST, 0⟩, ⟨.ReadNonZeroTraceST, 1⟩, ⟨.DeletionTraceWS, 2⟩], none) :=
  deletion_accepted [⟨.ReadZeroTraceST, 0⟩, ⟨.ReadNonZeroTraceST, 1⟩] ⟨.DeletionTraceWS, 2⟩
    (by decide) rfl

/-- C4: a segment whose body holds storage tokens of any variant and whose
last token is an `UpdateTraceWS` is accepted by `inspectPattern`. -/
theorem update_accepted (body : List DecodedTrace) (h : DecodedTrace)
    (hb : ∀ t ∈ body, t.Underlying.scope = .ST)
    (hh : h.Underlying = .UpdateTraceWS) :
    inspectPattern (body ++ [h]) = some (body ++ [h], none) := by
  have hst : ∀ t ∈ body, t.isWorldState = false := by
    intro t ht
    simp [DecodedTrace.isWorldState, hb t ht]
  have hm : isMissingAccRead (body ++ [h]) = some ⟨body ++ [h], false, none⟩ := by
    apply isMissingAccRead_noMatch (by simp)
    intro t ht
    rcases List.mem_append.1 ht with h1 | h1
    · exact not_ws_of_mem hst h1 _ rfl
    · simp only [List.mem_singleton] at h1
      simp [h1, hh]
  have hc : isAccCreation (body ++ [h]) = some ⟨body ++ [h], false, none⟩ :=
    isAccCreation_noMatch (readLast_append body h) (by simp [hh])
  have hd : isAccDeletion (body ++ [h]) = some ⟨body ++ [h], false, none⟩ :=
    isAccDeletion_noMatch (readLast_append body h) (by simp [hh])
  have hr : isAccRead (body ++ [h]) = some ⟨body ++ [h], false, none⟩ := by
    obtain ⟨f, hf, hmem⟩ := first_of_append body h
    refine isAccRead_noMatch hf (readLast_append body h) ?_ (by simp [hh])
    rcases hmem with h1 | h1
    · simp [h1, hh]
    · exact not_ws_of_mem hst h1 _ rfl
  have hu := isAccUpdate_body body h hh hst
  simp [inspectPattern, matchers, inspectPattern.loop, hm, hc, hd, hr, hu]

/-- The witness of C4, with a body that holds all five storage variants. -/
theorem update_accepted_witness :
    inspectPattern [⟨.DeletionTraceST, 0⟩, ⟨.UpdateTraceST, 1⟩, ⟨.InsertionTraceST, 2⟩,
        ⟨.ReadZeroTraceST, 3⟩, ⟨.ReadNonZeroTraceST, 4⟩, ⟨.UpdateTraceWS, 5⟩] =
      some ([⟨.DeletionTraceST, 0⟩, ⟨.UpdateTraceST, 1⟩, ⟨.InsertionTraceST, 2⟩,
        ⟨.ReadZeroTraceST, 3⟩, ⟨.ReadNonZeroTraceST, 4⟩, ⟨.UpdateTraceWS, 5⟩], none) :=
  update_accepted [⟨.DeletionTraceST, 0⟩, ⟨.UpdateTraceST, 1⟩, ⟨.InsertionTraceST, 2⟩,
    ⟨.ReadZeroTraceST, 3⟩, ⟨.ReadNonZeroTraceST, 4⟩] ⟨.UpdateTraceWS, 5⟩ (by decide) rfl

/-- C5: a segment with a `ReadNonZeroTraceWS` token at one end, first or
last, and only `ReadNonZeroTraceST` and `ReadZeroTraceST` tokens elsewhere is
accepted by `inspectPattern`, and in the segment after the call that
`ReadNonZeroTraceWS` token is the last one. -/
theorem read_only_accepted (body : List DecodedTrace) (r : DecodedTrace)
    (traces : List DecodedTrace)
    (hr : r.Underlying = .ReadNonZeroTraceWS)
    (hb : ∀ t ∈ body, t.Underlying = .ReadNonZeroTraceST ∨ t.Underlying = .ReadZeroTraceST)
    (ht : traces = body ++ [r] ∨ traces = r :: body) :
    ∃ out, inspectPattern traces = some (out, none) ∧ out.getLast? = some r := by
  have hst : ∀ t ∈ body, t.isWorldState = false := by
    intro t ht
    rcases hb t ht with h1 | h1 <;> simp [DecodedTrace.isWorldState, h1, TraceType.scope]
  have hall : ∀ t ∈ traces, t = r ∨ t ∈ body := by
    intro t hmem
    rcases ht with ht | ht <;> subst ht
    · rcases List.mem_append.1 hmem with h1 | h1
      · exact Or.inr h1
      · exact Or.inl (by simpa using h1)
    · rcases List.mem_cons.1 hmem with h1 | h1
      · exact Or.inl h1
      · exact Or.inr h1
  have hne : traces ≠ [] := by
    rcases ht with ht | ht <;> subst ht <;> simp
  have hty : ∀ t ∈ traces, ∀ u : TraceType, u.scope = .WS → u ≠ .ReadNonZeroTraceWS →
      t.Underlying ≠ u := by
    intro t hmem u hu hne'
    rcases hall t hmem with h1 | h1
    · rw [h1, hr]
      exact fun e => hne' e.symm
    · exact not_ws_of_mem hst h1 u hu
  obtain ⟨b', l, -, hlast⟩ := exists_readLast hne
  have hl := readLast_mem hlast
  have hm : isMissingAccRead traces = some ⟨traces, false, none⟩ :=
    isMissingAccRead_noMatch hne (fun t hmem => hty t hmem _ rfl (by decide))
  have hc : isAccCreation traces = some ⟨traces, false, none⟩ :=
    isAccCreation_noMatch hlast (hty l hl _ rfl (by decide))
  have hd : isAccDeletion traces = some ⟨traces, false, none⟩ :=
    isAccDeletion_noMatch hlast (hty l hl _ rfl (by decide))
  have key : ∃ out, isAccRead traces = some ⟨out, true, none⟩ ∧ out.getLast? = some r := by
    rcases ht with ht | ht <;> subst ht
    · cases body with
      | nil => exact ⟨[r], isAccRead_single r hr, rfl⟩
      | cons f mid =>
        have hf : f.Underlying ≠ .ReadNonZeroTraceWS :=
          not_ws_of_mem hst (List.mem_cons_self f mid) _ rfl
        refine ⟨f :: (mid ++ [r]), ?_, getLast?_cons_append f r mid⟩
        have := isAccRead_last f r mid hf hr
        rw [find?_ws_none hst] at this
        exact this
    · rcases List.eq_nil_or_concat body with h0 | ⟨mid, l', h0⟩
      · subst h0
        exact ⟨[r], isAccRead_single r hr, rfl⟩
      · rw [List.concat_eq_append] at h0
        subst h0
        have hl' : l'.Underlying ≠ .ReadNonZeroTraceWS :=
          not_ws_of_mem hst (by simp) _ rfl
        refine ⟨l' :: (mid ++ [r]), ?_, getLast?_cons_append l' r mid⟩
        have := isAccRead_first r l' mid hr hl'
        rw [find?_ws_none hst] at this
        exact this
  obtain ⟨out, hread, hout⟩ := key
  exact ⟨out, by simp [inspectPattern, matchers, inspectPattern.loop, hm, hc, hd, hread], hout⟩

/-- The witness of C5, with the world-state read in the first position. -/
theorem read_only_accepted_witness :
    ∃ out, inspectPattern [⟨.ReadNonZeroTraceWS, 0⟩, ⟨.ReadZeroTraceST, 1⟩,
        ⟨.ReadNonZeroTraceST, 2⟩] = some (out, none) ∧
      out.getLast? = some ⟨.ReadNonZeroTraceWS, 0⟩ :=
  read_only_accepted [⟨.ReadZeroTraceST, 1⟩, ⟨.ReadNonZeroTraceST, 2⟩]
    ⟨.ReadNonZeroTraceWS, 0⟩ _ rfl (by decide) (Or.inr rfl)

/-- C6: a segment made of `ReadZeroTraceST` and `ReadNonZeroTraceST` tokens,
one `DeletionTraceWS`, then `ReadZeroTraceST` and `InsertionTraceST` tokens and
a final `InsertionTraceWS` is accepted by `inspectPattern`: no matcher tried
before `isAccRedeploy` matches or raises an error, and the segment is returned
as it was. -/
theorem redeploy_accepted (before after : List DecodedTrace) (d h : DecodedTrace)
    (hb1 : ∀ t ∈ before, t.Underlying = .ReadZeroTraceST ∨ t.Underlying = .ReadNonZeroTraceST)
    (hd : d.Underlying = .DeletionTraceWS)
    (hb2 : ∀ t ∈ after, t.Underlying = .ReadZeroTraceST ∨ t.Underlying = .InsertionTraceST)
    (hh : h.Underlying = .InsertionTraceWS) :
    isMissingAccRead (before ++ [d] ++ after ++ [h]) =
        some ⟨before ++ [d] ++ after ++ [h], false, none⟩ ∧
      isAccCreation (before ++ [d] ++ after ++ [h]) =
        some ⟨before ++ [d] ++ after ++ [h], false, none⟩ ∧
      isAccDeletion (before ++ [d] ++ after ++ [h]) =
        some ⟨before ++ [d] ++ after ++ [h], false, none⟩ ∧
      isAccRead (before ++ [d] ++ after ++ [h]) =
        some ⟨before ++ [d] ++ after ++ [h], false, none⟩ ∧
      isAccUpdate (before ++ [d] ++ after ++ [h]) =
        some ⟨before ++ [d] ++ after ++ [h], false, none⟩ ∧
      inspectPattern (before ++ [d] ++ after ++ [h]) =
        some (before ++ [d] ++ after ++ [h], none) := by
  have hst1 : ∀ t ∈ before, t.isWorldState = false := by
    intro t ht
    rcases hb1 t ht with h1 | h1 <;> simp [DecodedTrace.isWorldState, h1, TraceType.scope]
  have hst2 : ∀ t ∈ after, t.isWorldState = false := by
    intro t ht
    rcases hb2 t ht with h1 | h1 <;> simp [DecodedTrace.isWorldState, h1, TraceType.scope]
  have hlast := readLast_append (before ++ [d] ++ after) h
  have hty : ∀ t ∈ before ++ [d] ++ after ++ [h], ∀ u : TraceType, u.scope = .WS →
      u ≠ .DeletionTraceWS → u ≠ .InsertionTraceWS → t.Underlying ≠ u := by
    intro t hmem u hu n1 n2
    simp only [List.mem_append, List.mem_singleton] at hmem
    rcases hmem with ((h0 | h0) | h0) | h0
    · exact not_ws_of_mem hst1 h0 u hu
    · rw [h0, hd]
      exact fun e => n1 e.symm
    · exact not_ws_of_mem hst2 h0 u hu
    · rw [h0, hh]
      exact fun e => n2 e.symm
  have hm : isMissingAccRead (before ++ [d] ++ after ++ [h]) =
      some ⟨before ++ [d] ++ after ++ [h], false, none⟩ :=
    isMissingAccRead_noMatch (by simp) (fun t hmem => hty t hmem _ rfl (by decide) (by decide))
  have hc : isAccCreation (before ++ [d] ++ after ++ [h]) =
      some ⟨before ++ [d] ++ after ++ [h], false, none⟩ := by
    have := isAccCreation_body (before ++ [d] ++ after) h hh
    have hany : (before ++ [d] ++ after).any (fun t => t.isWorldState) = true := by
      rw [List.any_eq_true]
      exact ⟨d, by simp, by simp [DecodedTrace.isWorldState, hd, TraceType.scope]⟩
    rw [hany] at this
    exact this
  have hdel : isAccDeletion (before ++ [d] ++ after ++ [h]) =
      some ⟨before ++ [d] ++ after ++ [h], false, none⟩ :=
    isAccDeletion_noMatch hlast (by simp [hh])
  have hr : isAccRead (before ++ [d] ++ after ++ [h]) =
      some ⟨before ++ [d] ++ after ++ [h], false, none⟩ := by
    obtain ⟨f, hf, hmem⟩ := first_of_append (before ++ [d] ++ after) h
    refine isAccRead_noMatch hf hlast ?_ (by simp [hh])
    exact hty f (first_mem hf) _ rfl (by decide) (by decide)
  have hu : isAccUpdate (before ++ [d] ++ after ++ [h]) =
      some ⟨before ++ [d] ++ after ++ [h], false, none⟩ :=
    isAccUpdate_noMatch hlast (by simp [hh])
  have hre := isAccRedeploy_shape before after d h hd hh hst1 hst2
  have e : before ++ d :: (after ++ [h]) = before ++ [d] ++ after ++ [h] := by simp
  rw [e] at hre
  exact ⟨hm, hc, hdel, hr, hu, inspectPattern_sixth hm hc hdel hr hu hre⟩

/-- The witness of C6, the segment
`[ReadNonZeroST, DeletionWS, ReadZeroST, InsertionST, InsertionWS]`. -/
theorem redeploy_accepted_witness :
    inspectPattern [⟨.ReadNonZeroTraceST, 0⟩, ⟨.DeletionTraceWS, 1⟩, ⟨.ReadZeroTraceST, 2⟩,
        ⟨.InsertionTraceST, 3⟩, ⟨.InsertionTraceWS, 4⟩] =
      some ([⟨.ReadNonZeroTraceST, 0⟩, ⟨.DeletionTraceWS, 1⟩, ⟨.ReadZeroTraceST, 2⟩,
        ⟨.InsertionTraceST, 3⟩, ⟨.InsertionTraceWS, 4⟩], none) :=
  (redeploy_accepted [⟨.ReadNonZeroTraceST, 0⟩] [⟨.ReadZeroTraceST, 2⟩, ⟨.InsertionTraceST, 3⟩]
    ⟨.DeletionTraceWS, 1⟩ ⟨.InsertionTraceWS, 4⟩ (by decide) rfl (by decide) rfl).2.2.2.2.2

/-- C9: when the segment is longer than one token, its first token is a
`ReadNonZeroTraceWS` and `isAccRead` matches on it, the segment after
`inspectPattern` is the input with its first and last tokens exchanged, the
tokens in between staying where they were, and `inspectPattern` succeeds. -/
theorem read_normalization_swaps (traces : List DecodedTrace) (r : MatchResult)
    (hlen : 1 < traces.length)
    (hfirst : ∃ f, traces[0]? = some f ∧ f.Underlying = .ReadNonZeroTraceWS)
    (hread : isAccRead traces = some r) (hok : r.ok = true) :
    ∃ f mid l, traces = f :: (mid ++ [l]) ∧
      inspectPattern traces = some (l :: (mid ++ [f]), none) := by
  obtain ⟨f0, hf0, hf⟩ := hfirst
  cases traces with
  | nil => simp at hlen
  | cons f rest =>
    simp only [List.getElem?_cons_zero, Option.some.injEq] at hf0
    subst hf0
    rcases List.eq_nil_or_concat rest with h0 | ⟨mid, l, h0⟩
    · subst h0
      simp at hlen
    · rw [List.concat_eq_append] at h0
      subst h0
      refine ⟨f, mid, l, rfl, ?_⟩
      by_cases hl : l.Underlying = .ReadNonZeroTraceWS
      · rw [isAccRead_both f l mid hf hl] at hread
        cases hread
        simp at hok
      · rw [isAccRead_first f l mid hf hl] at hread
        cases hfind : (mid ++ [l]).find? (fun t => t.isWorldState) with
        | some t =>
          rw [hfind] at hread
          cases hread
          simp at hok
        | none =>
          have hst : ∀ t ∈ mid ++ [l], t.isWorldState = false := by
            intro t ht
            have := List.find?_eq_none.1 hfind t ht
            simpa using this
          have hm : isMissingAccRead (f :: (mid ++ [l])) =
              some ⟨f :: (mid ++ [l]), false, none⟩ := by
            apply isMissingAccRead_noMatch (by simp)
            intro t ht
            rcases List.mem_cons.1 ht with h1 | h1
            · simp [h1, hf]
            · exact not_ws_of_mem hst h1 _ rfl
          have hl2 : l ∈ mid ++ [l] := by simp
          have hc : isAccCreation (f :: (mid ++ [l])) =
              some ⟨f :: (mid ++ [l]), false, none⟩ :=
            isAccCreation_noMatch (readLast_cons_append f l mid) (not_ws_of_mem hst hl2 _ rfl)
          have hd : isAccDeletion (f :: (mid ++ [l])) =
              some ⟨f :: (mid ++ [l]), false, none⟩ :=
            isAccDeletion_noMatch (readLast_cons_append f l mid) (not_ws_of_mem hst hl2 _ rfl)
          have hr := isAccRead_first f l mid hf hl
          rw [hfind] at hr
          exact inspectPattern_fourth hm hc hd hr

/-- The witness of C9 on `[ReadNonZeroWS, ReadZeroST, ReadNonZeroST]`. -/
theorem read_normalization_swaps_witness :
    ∃ f mid l,
      [(⟨.ReadNonZeroTraceWS, 0⟩ : DecodedTrace), ⟨.ReadZeroTraceST, 1⟩,
        ⟨.ReadNonZeroTraceST, 2⟩] = f :: (mid ++ [l]) ∧
      inspectPattern [⟨.ReadNonZeroTraceWS, 0⟩, ⟨.ReadZeroTraceST, 1⟩,
        ⟨.ReadNonZeroTraceST, 2⟩] = some (l :: (mid ++ [f]), none) :=
  read_normalization_swaps
    [⟨.ReadNonZeroTraceWS, 0⟩, ⟨.ReadZeroTraceST, 1⟩, ⟨.ReadNonZeroTraceST, 2⟩]
    ⟨[⟨.ReadNonZeroTraceST, 2⟩, ⟨.ReadZeroTraceST, 1⟩, ⟨.ReadNonZeroTraceWS, 0⟩], true, none⟩
    (by decide) ⟨⟨.ReadNonZeroTraceWS, 0⟩, rfl, rfl⟩ (by decide) rfl

/-- C10, as stated, fails: on `[ReadNonZeroWS, ReadZeroST, ReadNonZeroST]` the
variants of the segment after a successful `inspectPattern` are not
`[ReadZeroST, ReadNonZeroST, ReadNonZeroWS]`. -/
theorem scenarioB_order_refuted :
    ¬ ∃ out, inspectPattern [⟨.ReadNonZeroTraceWS, 0⟩, ⟨.ReadZeroTraceST, 1⟩,
        ⟨.ReadNonZeroTraceST, 2⟩] = some (out, none) ∧
      out.map (·.Underlying) =
        [.ReadZeroTraceST, .ReadNonZeroTraceST, .ReadNonZeroTraceWS] := by
  rintro ⟨out, h, hmap⟩
  have hrun : inspectPattern [⟨.ReadNonZeroTraceWS, 0⟩, ⟨.ReadZeroTraceST, 1⟩,
      ⟨.ReadNonZeroTraceST, 2⟩] =
      some ([⟨.ReadNonZeroTraceST, 2⟩, ⟨.ReadZeroTraceST, 1⟩, ⟨.ReadNonZeroTraceWS, 0⟩],
        none) := by decide
  rw [hrun] at h
  cases h
  revert hmap
  decide

/-- C10, amended: on `[ReadNonZeroWS, ReadZeroST, ReadNonZeroST]`, whatever the
payloads, `inspectPattern` succeeds and the segment after the call is
`[ReadNonZeroST, ReadZeroST, ReadNonZeroWS]`, the first and the last token
having changed places. -/
theorem scenarioB_swapped (p0 p1 p2 : Nat) :
    inspectPattern [⟨.ReadNonZeroTraceWS, p0⟩, ⟨.ReadZeroTraceST, p1⟩,
        ⟨.ReadNonZeroTraceST, p2⟩] =
      some ([⟨.ReadNonZeroTraceST, p2⟩, ⟨.ReadZeroTraceST, p1⟩, ⟨.ReadNonZeroTraceWS, p0⟩],
        none) := by
  rfl

/-- C1, evaluated on `[ReadNonZeroST, InsertionWS]`: `inspectPattern` accepts
the segment, which is in none of the six grammars of the header comment,
a `ReadNonZeroTraceST` not being allowed before an `InsertionTraceWS`. -/
theorem inspectPattern_accepts_unlisted_shape :
    inspectPattern [⟨.ReadNonZeroTraceST, 0⟩, ⟨.InsertionTraceWS, 1⟩] =
        some ([⟨.ReadNonZeroTraceST, 0⟩, ⟨.InsertionTraceWS, 1⟩], none) ∧
      ¬ legalShape (([⟨.ReadNonZeroTraceST, 0⟩, ⟨.InsertionTraceWS, 1⟩] :
        List DecodedTrace).map (·.Underlying)) := by
  refine ⟨by decide, ?_⟩
  simp only [List.map_cons, List.map_nil]
  rintro (h | ⟨body, h, hb⟩ | ⟨body, h, -⟩ | ⟨body, h, -⟩ | ⟨body, h | h, -⟩ |
    ⟨before, after, h, -, -⟩)
  · cases h
  · have h' := congrArg List.reverse h
    simp at h'
    have := hb .ReadNonZeroTraceST (by rw [← List.mem_reverse, ← h']; simp)
    simp at this
  · have h' := congrArg List.reverse h
    simp at h'
  · have h' := congrArg List.reverse h
    simp at h'
  · have h' := congrArg List.reverse h
    simp at h'
  · cases h
  · have h' := congrArg List.reverse h
    simp at h'
    have h2 := congrArg List.length h'
    simp at h2
    have ha : after = [] := by
      cases after with
      | nil => rfl
      | cons a as => simp at h2; omega
    subst ha
    simp at h'

/-- C11, evaluated on `[ReadNonZeroST, InsertionWS]`: the body holds no
world-state token and holds a `ReadNonZeroTraceST`, which the creation
whitelist does not allow, yet `isAccCreation` reports a match with a nil error
and `inspectPattern` succeeds. -/
theorem creation_whitelist_not_enforced :
    isAccCreation [⟨.ReadNonZeroTraceST, 0⟩, ⟨.InsertionTraceWS, 1⟩] =
        some ⟨[⟨.ReadNonZeroTraceST, 0⟩, ⟨.InsertionTraceWS, 1⟩], true, none⟩ ∧
      inspectPattern [⟨.ReadNonZeroTraceST, 0⟩, ⟨.InsertionTraceWS, 1⟩] =
        some ([⟨.ReadNonZeroTraceST, 0⟩, ⟨.InsertionTraceWS, 1⟩], none) := by
  decide

/-- C12, evaluated on `[InsertionST, DeletionWS, InsertionWS]` and on
`[DeletionWS, ReadNonZeroST, InsertionWS]`: a token that is not a read stands
before the deletion in the first, a token that is neither `ReadZeroTraceST` nor
`InsertionTraceST` stands after it in the second, yet `isAccRedeploy` reports
a match and `inspectPattern` succeeds on both. -/
theorem redeploy_phases_not_enforced :
    isAccRedeploy [⟨.InsertionTraceST, 0⟩, ⟨.DeletionTraceWS, 1⟩, ⟨.InsertionTraceWS, 2⟩] =
        some ⟨[⟨.InsertionTraceST, 0⟩, ⟨.DeletionTraceWS, 1⟩, ⟨.InsertionTraceWS, 2⟩],
          true, none⟩ ∧
      inspectPattern [⟨.InsertionTraceST, 0⟩, ⟨.DeletionTraceWS, 1⟩, ⟨.InsertionTraceWS, 2⟩] =
        some ([⟨.InsertionTraceST, 0⟩, ⟨.DeletionTraceWS, 1⟩, ⟨.InsertionTraceWS, 2⟩],
          none) ∧
      inspectPattern [⟨.DeletionTraceWS, 0⟩, ⟨.ReadNonZeroTraceST, 1⟩,
          ⟨.InsertionTraceWS, 2⟩] =
        some ([⟨.DeletionTraceWS, 0⟩, ⟨.ReadNonZeroTraceST, 1⟩, ⟨.InsertionTraceWS, 2⟩],
          none) := by
  decide

/-- C13, as stated, fails: `[ReadNonZeroWS, ReadZeroWS, ReadNonZeroWS]` has
length three and a `ReadNonZeroTraceWS` at both ends, and the error of
`inspectPattern` is not "the segment contains two ACCOUNT_READ". -/
theorem double_read_error_refuted :
    ¬ ∃ out, inspectPattern [⟨.ReadNonZeroTraceWS, 0⟩, ⟨.ReadZeroTraceWS, 1⟩,
        ⟨.ReadNonZeroTraceWS, 2⟩] = some (out, some .twoAccountRead) := by
  rintro ⟨out, h⟩
  have hrun : inspectPattern [⟨.ReadNonZeroTraceWS, 0⟩, ⟨.ReadZeroTraceWS, 1⟩,
      ⟨.ReadNonZeroTraceWS, 2⟩] =
      some ([⟨.ReadNonZeroTraceWS, 0⟩, ⟨.ReadZeroTraceWS, 1⟩, ⟨.ReadNonZeroTraceWS, 2⟩],
        some .readZeroInLongTrace) := by decide
  rw [hrun] at h
  cases h

/-- C13, amended: on a segment of length greater than two whose first and last
tokens are both `ReadNonZeroTraceWS`, `inspectPattern` fails and leaves the
segment as it was; the error is "the segment contains two ACCOUNT_READ" of
`isAccRead` when no token of the segment is a `ReadZeroTraceWS`, and the
error of `isMissingAccRead`, which runs first, when one is. -/
theorem double_read_rejected (traces : List DecodedTrace)
    (hlen : 2 < traces.length)
    (hfirst : ∃ f, traces[0]? = some f ∧ f.Underlying = .ReadNonZeroTraceWS)
    (hlast : ∃ l, readLast traces = some l ∧ l.Underlying = .ReadNonZeroTraceWS) :
    inspectPattern traces =
      some (traces,
        some (if traces.any (fun t => decide (t.Underlying = .ReadZeroTraceWS)) then
          .readZeroInLongTrace else .twoAccountRead)) := by
  obtain ⟨f, hf0, hf⟩ := hfirst
  obtain ⟨l, hl0, hl⟩ := hlast
  by_cases hany : traces.any (fun t => decide (t.Underlying = .ReadZeroTraceWS)) = true
  · rw [if_pos hany]
    exact inspectPattern_first_err (isMissingAccRead_err (by omega) hany)
  · rw [if_neg hany]
    have hne : traces ≠ [] := by
      intro h0
      simp [h0] at hlen
    have hz : ∀ t ∈ traces, t.Underlying ≠ .ReadZeroTraceWS := by
      intro t ht h0
      exact hany (List.any_eq_true.2 ⟨t, ht, by simp [h0]⟩)
    have hm := isMissingAccRead_noMatch hne hz
    have hc : isAccCreation traces = some ⟨traces, false, none⟩ :=
      isAccCreation_noMatch hl0 (by simp [hl])
    have hd : isAccDeletion traces = some ⟨traces, false, none⟩ :=
      isAccDeletion_noMatch hl0 (by simp [hl])
    have hr : isAccRead traces = some ⟨traces, false, some .twoAccountRead⟩ := by
      have h1 : 1 < traces.length := by omega
      simp [isAccRead, hf0, hl0, hf, hl, h1]
    exact inspectPattern_fourth_err hm hc hd hr

/-- The witness of C13, amended, on a segment with both ends
`ReadNonZeroTraceWS` and a storage read in between. -/
theorem double_read_rejected_witness :
    inspectPattern [⟨.ReadNonZeroTraceWS, 0⟩, ⟨.ReadZeroTraceST, 1⟩,
        ⟨.ReadNonZeroTraceWS, 2⟩] =
      some ([⟨.ReadNonZeroTraceWS, 0⟩, ⟨.ReadZeroTraceST, 1⟩, ⟨.ReadNonZeroTraceWS, 2⟩],
        some .twoAccountRead) :=
  double_read_rejected
    [⟨.ReadNonZeroTraceWS, 0⟩, ⟨.ReadZeroTraceST, 1⟩, ⟨.ReadNonZeroTraceWS, 2⟩]
    (by decide) ⟨_, rfl, rfl⟩ ⟨_, rfl, rfl⟩

/-- C14: on a segment whose last token is an `InsertionTraceWS` and whose body
holds only storage tokens and `DeletionTraceWS` tokens, at least two of the
latter, `inspectPattern` fails with the error "found more than two deletion"
of `isAccRedeploy`. -/
theorem duplicate_deletion_rejected (body : List DecodedTrace) (h : DecodedTrace)
    (hh : h.Underlying = .InsertionTraceWS)
    (hb : ∀ t ∈ body, t.isWorldState = false ∨ t.Underlying = .DeletionTraceWS)
    (hdup : 2 ≤ body.countP (fun t => decide (t.Underlying = .DeletionTraceWS))) :
    inspectPattern (body ++ [h]) = some (body ++ [h], some .moreThanTwoDeletion) := by
  have hty : ∀ t ∈ body, ∀ u : TraceType, u.scope = .WS → u ≠ .DeletionTraceWS →
      t.Underlying ≠ u := by
    intro t ht u hu hne e
    rcases hb t ht with h1 | h1
    · simp [DecodedTrace.isWorldState, e, hu] at h1
    · exact hne (e ▸ h1)
  have hlast := readLast_append body h
  have hm : isMissingAccRead (body ++ [h]) = some ⟨body ++ [h], false, none⟩ := by
    apply isMissingAccRead_noMatch (by simp)
    intro t ht
    rcases List.mem_append.1 ht with h1 | h1
    · exact hty t h1 _ rfl (by decide)
    · simp only [List.mem_singleton] at h1
      simp [h1, hh]
  have hpos : 0 < body.countP (fun t => decide (t.Underlying = .DeletionTraceWS)) := by
    omega
  obtain ⟨d, hdmem, hd⟩ := List.countP_pos_iff.1 hpos
  have hd' : d.Underlying = .DeletionTraceWS := by simpa using hd
  have hc : isAccCreation (body ++ [h]) = some ⟨body ++ [h], false, none⟩ := by
    have := isAccCreation_body body h hh
    have hany : body.any (fun t => t.isWorldState) = true := by
      rw [List.any_eq_true]
      exact ⟨d, hdmem, by simp [DecodedTrace.isWorldState, hd', TraceType.scope]⟩
    rw [hany] at this
    exact this
  have hdel : isAccDeletion (body ++ [h]) = some ⟨body ++ [h], false, none⟩ :=
    isAccDeletion_noMatch hlast (by simp [hh])
  have hr : isAccRead (body ++ [h]) = some ⟨body ++ [h], false, none⟩ := by
    obtain ⟨f, hf, hmem⟩ := first_of_append body h
    refine isAccRead_noMatch hf hlast ?_ (by simp [hh])
    rcases hmem with h1 | h1
    · simp [h1, hh]
    · exact hty f h1 _ rfl (by decide)
  have hu : isAccUpdate (body ++ [h]) = some ⟨body ++ [h], false, none⟩ :=
    isAccUpdate_noMatch hlast (by simp [hh])
  have hre : isAccRedeploy (body ++ [h]) =
      some ⟨body ++ [h], false, some .moreThanTwoDeletion⟩ := by
    have hloop := isAccRedeploy_loop_dup body [] [h] false hb hdup
    simp only [List.nil_append, List.length_nil] at hloop
    have hlen : ¬ (body ++ [h]).length = 1 := by
      have : 0 < body.length := List.length_pos_of_mem hdmem
      simp only [List.length_append, List.length_singleton]
      omega
    simp only [isAccRedeploy, hlast, hh, List.length_append, List.length_singleton,
      Nat.add_sub_cancel, hloop]
    simp only [List.length_append, List.length_singleton] at hlen
    simp [hlen]
  exact inspectPattern_sixth_err hm hc hdel hr hu hre

/-- The witness of C14 on
`[DeletionWS, ReadZeroST, DeletionWS, InsertionST, InsertionWS]`. -/
theorem duplicate_deletion_rejected_witness :
    inspectPattern [⟨.DeletionTraceWS, 0⟩, ⟨.ReadZeroTraceST, 1⟩, ⟨.DeletionTraceWS, 2⟩,
        ⟨.InsertionTraceST, 3⟩, ⟨.InsertionTraceWS, 4⟩] =
      some ([⟨.DeletionTraceWS, 0⟩, ⟨.ReadZeroTraceST, 1⟩, ⟨.DeletionTraceWS, 2⟩,
        ⟨.InsertionTraceST, 3⟩, ⟨.InsertionTraceWS, 4⟩], some .moreThanTwoDeletion) :=
  duplicate_deletion_rejected
    [⟨.DeletionTraceWS, 0⟩, ⟨.ReadZeroTraceST, 1⟩, ⟨.DeletionTraceWS, 2⟩,
      ⟨.InsertionTraceST, 3⟩] ⟨.InsertionTraceWS, 4⟩ rfl (by decide) (by decide)

/-- C15: when `inspectPattern` succeeds on a segment, calling it again on the
segment it left succeeds again and leaves that segment as it is. -/
theorem inspectPattern_idempotent (traces out : List DecodedTrace)
    (h : inspectPattern traces = some (out, none)) :
    inspectPattern out = some (out, none) := by
  have hne : traces ≠ [] := by
    intro h0
    rw [h0, inspectPattern_nil] at h
    cases h
  rcases dispatch_frame matchers traces (matchers_behave hne) out none h with h1 | ⟨-, h2⟩
  · rw [h1]
    rw [h1] at h
    exact h
  · obtain ⟨f, mid, l, -, hf, -, hst, hout⟩ := h2
    rw [hout]
    exact inspectPattern_swapped f l mid hf hst

/-- The witness of C15: the segment left by the first call on
`[ReadNonZeroWS, ReadZeroST, ReadNonZeroST]` is accepted and kept as it is. -/
theorem inspectPattern_idempotent_witness :
    inspectPattern [⟨.ReadNonZeroTraceST, 2⟩, ⟨.ReadZeroTraceST, 1⟩,
        ⟨.ReadNonZeroTraceWS, 0⟩] =
      some ([⟨.ReadNonZeroTraceST, 2⟩, ⟨.ReadZeroTraceST, 1⟩, ⟨.ReadNonZeroTraceWS, 0⟩],
        none) :=
  inspectPattern_idempotent
    [⟨.ReadNonZeroTraceWS, 0⟩, ⟨.ReadZeroTraceST, 1⟩, ⟨.ReadNonZeroTraceST, 2⟩]
    [⟨.ReadNonZeroTraceST, 2⟩, ⟨.ReadZeroTraceST, 1⟩, ⟨.ReadNonZeroTraceWS, 0⟩] (by decide)

/-- C16: on a segment whose last token is a storage token, whose first token
is not a `ReadNonZeroTraceWS` and which holds no `ReadZeroTraceWS`, each of the
six matchers reports no match with a nil error and `inspectPattern` fails with
the no-match error. -/
theorem no_pattern_matched (traces : List DecodedTrace) (l : DecodedTrace)
    (hlast : readLast traces = some l) (hl : l.isWorldState = false)
    (hfirst : ∀ f, traces[0]? = some f → f.Underlying ≠ .ReadNonZeroTraceWS)
    (hz : ∀ t ∈ traces, t.Underlying ≠ .ReadZeroTraceWS) :
    isMissingAccRead traces = some ⟨traces, false, none⟩ ∧
      isAccCreation traces = some ⟨traces, false, none⟩ ∧
      isAccDeletion traces = some ⟨traces, false, none⟩ ∧
      isAccRead traces = some ⟨traces, false, none⟩ ∧
      isAccUpdate traces = some ⟨traces, false, none⟩ ∧
      isAccRedeploy traces = some ⟨traces, false, none⟩ ∧
      inspectPattern traces =
        some (traces, some (.noMatchFound (traces.map (·.Underlying)))) := by
  have hne : traces ≠ [] := by
    intro h0
    rw [h0] at hlast
    simp [readLast] at hlast
  have hty : ∀ u : TraceType, u.scope = .WS → l.Underlying ≠ u := by
    intro u hu e
    simp [DecodedTrace.isWorldState, e, hu] at hl
  have hm := isMissingAccRead_noMatch hne hz
  have hc := isAccCreation_noMatch hlast (hty _ rfl)
  have hd := isAccDeletion_noMatch hlast (hty _ rfl)
  have hr : isAccRead traces = some ⟨traces, false, none⟩ := by
    cases traces with
    | nil => exact absurd rfl hne
    | cons f rest =>
      exact @isAccRead_noMatch (f :: rest) f l (by simp) hlast (hfirst f (by simp))
        (hty _ rfl)
  have hu := isAccUpdate_noMatch hlast (hty _ rfl)
  have hre := isAccRedeploy_noMatch hlast (hty _ rfl)
  exact ⟨hm, hc, hd, hr, hu, hre, inspectPattern_none_matched hm hc hd hr hu hre⟩

/-- The witness of C16, the segment `[UpdateWS, ReadZeroST]`. -/
theorem no_pattern_matched_witness :
    inspectPattern [⟨.UpdateTraceWS, 0⟩, ⟨.ReadZeroTraceST, 1⟩] =
      some ([⟨.UpdateTraceWS, 0⟩, ⟨.ReadZeroTraceST, 1⟩],
        some (.noMatchFound [.UpdateTraceWS, .ReadZeroTraceST])) :=
  (no_pattern_matched [⟨.UpdateTraceWS, 0⟩, ⟨.ReadZeroTraceST, 1⟩] ⟨.ReadZeroTraceST, 1⟩
    rfl rfl (by decide) (by decide)).2.2.2.2.2.2

/-- C17: when the six matchers all report no match on a segment,
`inspectPattern` fails with the no-match error, and the list the error carries
has one entry per token of the segment, the entry of rank `i` being the
variant of the token of rank `i`. -/
theorem noMatch_diagnostic (traces : List DecodedTrace)
    (hall : ∀ m ∈ matchers, reportsNoMatch (m traces) = true) :
    ∃ ts, inspectPattern traces = some (traces, some (.noMatchFound ts)) ∧
      ts.length = traces.length ∧
      ∀ i (hi : i < traces.length), ts[i]? = some (traces[i]).Underlying := by
  have hne : traces ≠ [] := by
    intro h0
    have := hall isMissingAccRead (by simp [matchers])
    rw [h0] at this
    simp [isMissingAccRead, reportsNoMatch] at this
  have hfind : matchers.find? (fun m => !reportsNoMatch (m traces)) = none := by
    rw [List.find?_eq_none]
    intro m hm
    simp [hall m hm]
  refine ⟨traces.map (·.Underlying), ?_, by simp, ?_⟩
  · unfold inspectPattern
    rw [dispatch_eq_firstVerdict matchers traces (matchers_behave hne)]
    simp only [firstVerdict, hfind]
  · intro i hi
    simp [List.getElem?_map, List.getElem?_eq_getElem hi]

/-- The witness of C17 on `[UpdateWS, ReadZeroST]`. -/
theorem noMatch_diagnostic_witness :
    ∃ ts, inspectPattern [⟨.UpdateTraceWS, 0⟩, ⟨.ReadZeroTraceST, 1⟩] =
        some ([⟨.UpdateTraceWS, 0⟩, ⟨.ReadZeroTraceST, 1⟩], some (.noMatchFound ts)) ∧
      ts.length = [(⟨.UpdateTraceWS, 0⟩ : DecodedTrace), ⟨.ReadZeroTraceST, 1⟩].length ∧
      ∀ i (hi : i < [(⟨.UpdateTraceWS, 0⟩ : DecodedTrace), ⟨.ReadZeroTraceST, 1⟩].length),
        ts[i]? = some ([(⟨.UpdateTraceWS, 0⟩ : DecodedTrace),
          ⟨.ReadZeroTraceST, 1⟩][i]).Underlying :=
  noMatch_diagnostic [⟨.UpdateTraceWS, 0⟩, ⟨.ReadZeroTraceST, 1⟩] (by
    intro m hm
    simp only [matchers, List.mem_cons, List.mem_singleton, List.mem_nil_iff,
      or_false] at hm
    rcases hm with h | h | h | h | h | h <;> subst h <;> rfl)

/-- C18: on a segment that is not empty, the verdict of `inspectPattern` is
that of the first matcher, in the order `isMissingAccRead`, `isAccCreation`,
`isAccDeletion`, `isAccRead`, `isAccUpdate`, `isAccRedeploy`, that does not
report no match, each matcher being applied to the segment as received: its
error when it has one, success when it matches; and `inspectPattern` fails
with the no-match error exactly when the six matchers all report no match. -/
theorem fixed_priority_dispatch (traces : List DecodedTrace) (hne : traces ≠ []) :
    inspectPattern traces =
        firstVerdict [isMissingAccRead, isAccCreation, isAccDeletion, isAccRead,
          isAccUpdate, isAccRedeploy] traces ∧
      ((∃ out ts, inspectPattern traces = some (out, some (.noMatchFound ts))) ↔
        ∀ m ∈ [isMissingAccRead, isAccCreation, isAccDeletion, isAccRead, isAccUpdate,
          isAccRedeploy], reportsNoMatch (m traces) = true) :=
  ⟨dispatch_eq_firstVerdict matchers traces (matchers_behave hne),
    dispatch_noMatch_iff matchers traces (matchers_behave hne)⟩

/-- The witness of C18 on `[ReadNonZeroWS, ReadZeroST, ReadNonZeroWS]`, where
the first matcher that does not report no match is `isAccRead`, with an
error. -/
theorem fixed_priority_dispatch_witness :
    inspectPattern [⟨.ReadNonZeroTraceWS, 0⟩, ⟨.ReadZeroTraceST, 1⟩,
        ⟨.ReadNonZeroTraceWS, 2⟩] =
        firstVerdict [isMissingAccRead, isAccCreation, isAccDeletion, isAccRead,
          isAccUpdate, isAccRedeploy]
          [⟨.ReadNonZeroTraceWS, 0⟩, ⟨.ReadZeroTraceST, 1⟩, ⟨.ReadNonZeroTraceWS, 2⟩] ∧
      ((∃ out ts, inspectPattern [⟨.ReadNonZeroTraceWS, 0⟩, ⟨.ReadZeroTraceST, 1⟩,
          ⟨.ReadNonZeroTraceWS, 2⟩] = some (out, some (.noMatchFound ts))) ↔
        ∀ m ∈ [isMissingAccRead, isAccCreation, isAccDeletion, isAccRead, isAccUpdate,
          isAccRedeploy],
          reportsNoMatch (m [⟨.ReadNonZeroTraceWS, 0⟩, ⟨.ReadZeroTraceST, 1⟩,
            ⟨.ReadNonZeroTraceWS, 2⟩]) = true) :=
  fixed_priority_dispatch
    [⟨.ReadNonZeroTraceWS, 0⟩, ⟨.ReadZeroTraceST, 1⟩, ⟨.ReadNonZeroTraceWS, 2⟩] (by simp)

/-- C19: `inspectPattern` panics exactly on the empty segment; on a segment
that is not empty each of the six matchers returns, every index it reads being
in range, and so does `inspectPattern`. -/
theorem no_panic_iff_nonempty (traces : List DecodedTrace) :
    (inspectPattern traces = none ↔ traces = []) ∧
      (traces ≠ [] → (∀ m ∈ matchers, ∃ r, m traces = some r) ∧
        ∃ out e, inspectPattern traces = some (out, e)) := by
  have hsome : traces ≠ [] → ∃ out e, inspectPattern traces = some (out, e) := by
    intro hne
    obtain ⟨res, h⟩ := dispatch_total matchers traces (matchers_behave hne)
    exact ⟨res.1, res.2, h⟩
  refine ⟨⟨?_, ?_⟩, fun hne => ⟨?_, hsome hne⟩⟩
  · intro h
    by_contra hne
    obtain ⟨out, e, h'⟩ := hsome hne
    rw [h] at h'
    cases h'
  · intro h
    rw [h]
    rfl
  · intro m hm
    obtain ⟨r, hr, -⟩ := matchers_behave hne m hm
    exact ⟨r, hr⟩

/-- The witness of C19 on the one-token segment `[DeletionST]`. -/
theorem no_panic_iff_nonempty_witness :
    (∀ m ∈ matchers, ∃ r, m [⟨.DeletionTraceST, 0⟩] = some r) ∧
      ∃ out e, inspectPattern [⟨.DeletionTraceST, 0⟩] = some (out, e) :=
  (no_panic_iff_nonempty [⟨.DeletionTraceST, 0⟩]).2 (by simp)

/-- C20: the segment after `inspectPattern` is the input, unless the call
succeeds on a segment longer than one token whose first token is a
`ReadNonZeroTraceWS`; and `isMissingAccRead`, `isAccCreation`, `isAccDeletion`,
`isAccUpdate` and `isAccRedeploy` always leave the segment as it was. -/
theorem only_read_reorders (traces out : List DecodedTrace) (e : Option PatternError)
    (h : inspectPattern traces = some (out, e)) :
    (out = traces ∨
      (e = none ∧ 1 < traces.length ∧
        ∃ f, traces[0]? = some f ∧ f.Underlying = .ReadNonZeroTraceWS)) ∧
      ∀ m ∈ [isMissingAccRead, isAccCreation, isAccDeletion, isAccUpdate, isAccRedeploy],
        ∀ r, m traces = some r → r.traces = traces := by
  have hne : traces ≠ [] := by
    intro h0
    rw [h0, inspectPattern_nil] at h
    cases h
  constructor
  · rcases dispatch_frame matchers traces (matchers_behave hne) out e h with h1 | ⟨h2, h3⟩
    · exact Or.inl h1
    · obtain ⟨f, mid, l, htr, hf, -, -, -⟩ := h3
      refine Or.inr ⟨h2, ?_, f, ?_, hf⟩
      · rw [htr]
        simp
      · rw [htr]
        simp
  · intro m hm r hr
    simp only [List.mem_cons, List.mem_singleton, List.mem_nil_iff, or_false] at hm
    rcases hm with h0 | h0 | h0 | h0 | h0 <;> subst h0
    · obtain ⟨ok, err, h1, -⟩ := isMissingAccRead_total hne
      rw [h1] at hr
      cases hr
      rfl
    · obtain ⟨ok, err, h1, -⟩ := isAccCreation_total hne
      rw [h1] at hr
      cases hr
      rfl
    · obtain ⟨ok, err, h1, -⟩ := isAccDeletion_total hne
      rw [h1] at hr
      cases hr
      rfl
    · obtain ⟨ok, err, h1, -⟩ := isAccUpdate_total hne
      rw [h1] at hr
      cases hr
      rfl
    · obtain ⟨ok, err, h1, -⟩ := isAccRedeploy_total hne
      rw [h1] at hr
      cases hr
      rfl

/-- The witness of C20 on a failing call: `[UpdateWS, ReadZeroST]` is left as
it was. -/
theorem only_read_reorders_witness :
    (([⟨.UpdateTraceWS, 0⟩, ⟨.ReadZeroTraceST, 1⟩] : List DecodedTrace) =
        [⟨.UpdateTraceWS, 0⟩, ⟨.ReadZeroTraceST, 1⟩] ∨
      (some (PatternError.noMatchFound [.UpdateTraceWS, .ReadZeroTraceST]) = none ∧
        1 < ([⟨.UpdateTraceWS, 0⟩, ⟨.ReadZeroTraceST, 1⟩] : List DecodedTrace).length ∧
        ∃ f, ([⟨.UpdateTraceWS, 0⟩, ⟨.ReadZeroTraceST, 1⟩] : List DecodedTrace)[0]? = some f ∧
          f.Underlying = .ReadNonZeroTraceWS)) ∧
      ∀ m ∈ [isMissingAccRead, isAccCreation, isAccDeletion, isAccUpdate, isAccRedeploy],
        ∀ r, m [⟨.UpdateTraceWS, 0⟩, ⟨.ReadZeroTraceST, 1⟩] = some r →
          r.traces = [⟨.UpdateTraceWS, 0⟩, ⟨.ReadZeroTraceST, 1⟩] :=
  only_read_reorders [⟨.UpdateTraceWS, 0⟩, ⟨.ReadZeroTraceST, 1⟩]
    [⟨.UpdateTraceWS, 0⟩, ⟨.ReadZeroTraceST, 1⟩]
    (some (.noMatchFound [.UpdateTraceWS, .ReadZeroTraceST])) (by decide)

/-- C28: on a segment whose last token is an `InsertionTraceWS` and whose body
holds at least one world-state token, `isAccCreation` reports no match with a
nil error and leaves the segment as it was. -/
theorem creation_defers_to_redeploy (body : List DecodedTrace) (h : DecodedTrace)
    (hh : h.Underlying = .InsertionTraceWS)
    (hws : ∃ t ∈ body, t.isWorldState = true) :
    isAccCreation (body ++ [h]) = some ⟨body ++ [h], false, none⟩ := by
  have hany : body.any (fun t => t.isWorldState) = true := List.any_eq_true.2 hws
  have hc := isAccCreation_body body h hh
  rw [hany] at hc
  exact hc

/-- The witness of C28 on the redeploy segment
`[ReadNonZeroST, DeletionWS, ReadZeroST, InsertionWS]`. -/
theorem creation_defers_to_redeploy_witness :
    isAccCreation [⟨.ReadNonZeroTraceST, 0⟩, ⟨.DeletionTraceWS, 1⟩, ⟨.ReadZeroTraceST, 2⟩,
        ⟨.InsertionTraceWS, 3⟩] =
      some ⟨[⟨.ReadNonZeroTraceST, 0⟩, ⟨.DeletionTraceWS, 1⟩, ⟨.ReadZeroTraceST, 2⟩,
        ⟨.InsertionTraceWS, 3⟩], false, none⟩ :=
  creation_defers_to_redeploy
    [⟨.ReadNonZeroTraceST, 0⟩, ⟨.DeletionTraceWS, 1⟩, ⟨.ReadZeroTraceST, 2⟩]
    ⟨.InsertionTraceWS, 3⟩ rfl ⟨⟨.DeletionTraceWS, 1⟩, by decide, rfl⟩

/-- C29: on a segment that is not empty, with last token `l`, `isAccCreation`
and `isAccRedeploy` report no match with a nil error when `l` is not an
`InsertionTraceWS`, `isAccDeletion` when `l` is not a `DeletionTraceWS`,
`isAccUpdate` when `l` is not an `UpdateTraceWS`, and `isAccRead` when neither
the first token nor `l` is a `ReadNonZeroTraceWS`; each time the segment is
left as it was. -/
theorem failed_head_test_is_noMatch (traces : List DecodedTrace) (l : DecodedTrace)
    (hlast : readLast traces = some l) :
    (l.Underlying ≠ .InsertionTraceWS →
        isAccCreation traces = some ⟨traces, false, none⟩ ∧
          isAccRedeploy traces = some ⟨traces, false, none⟩) ∧
      (l.Underlying ≠ .DeletionTraceWS →
        isAccDeletion traces = some ⟨traces, false, none⟩) ∧
      (l.Underlying ≠ .UpdateTraceWS →
        isAccUpdate traces = some ⟨traces, false, none⟩) ∧
      (∀ f, traces[0]? = some f → f.Underlying ≠ .ReadNonZeroTraceWS →
        l.Underlying ≠ .ReadNonZeroTraceWS →
        isAccRead traces = some ⟨traces, false, none⟩) :=
  ⟨fun h => ⟨isAccCreation_noMatch hlast h, isAccRedeploy_noMatch hlast h⟩,
    fun h => isAccDeletion_noMatch hlast h,
    fun h => isAccUpdate_noMatch hlast h,
    fun _ hf h1 h2 => isAccRead_noMatch hf hlast h1 h2⟩

/-- The witness of C29 on `[UpdateWS, ReadZeroST]`, where the five head tests
fail. -/
theorem failed_head_test_is_noMatch_witness :
    isAccCreation [⟨.UpdateTraceWS, 0⟩, ⟨.ReadZeroTraceST, 1⟩] =
        some ⟨[⟨.UpdateTraceWS, 0⟩, ⟨.ReadZeroTraceST, 1⟩], false, none⟩ ∧
      isAccRedeploy [⟨.UpdateTraceWS, 0⟩, ⟨.ReadZeroTraceST, 1⟩] =
        some ⟨[⟨.UpdateTraceWS, 0⟩, ⟨.ReadZeroTraceST, 1⟩], false, none⟩ ∧
      isAccDeletion [⟨.UpdateTraceWS, 0⟩, ⟨.ReadZeroTraceST, 1⟩] =
        some ⟨[⟨.UpdateTraceWS, 0⟩, ⟨.ReadZeroTraceST, 1⟩], false, none⟩ ∧
      isAccUpdate [⟨.UpdateTraceWS, 0⟩, ⟨.ReadZeroTraceST, 1⟩] =
        some ⟨[⟨.UpdateTraceWS, 0⟩, ⟨.ReadZeroTraceST, 1⟩], false, none⟩ ∧
      isAccRead [⟨.UpdateTraceWS, 0⟩, ⟨.ReadZeroTraceST, 1⟩] =
        some ⟨[⟨.UpdateTraceWS, 0⟩, ⟨.ReadZeroTraceST, 1⟩], false, none⟩ :=
  have h := failed_head_test_is_noMatch [⟨.UpdateTraceWS, 0⟩, ⟨.ReadZeroTraceST, 1⟩]
    ⟨.ReadZeroTraceST, 1⟩ rfl
  ⟨(h.1 (by decide)).1, (h.1 (by decide)).2, h.2.1 (by decide), h.2.2.1 (by decide),
    h.2.2.2 ⟨.UpdateTraceWS, 0⟩ rfl (by decide) (by decide)⟩

/-- C30, evaluated on segments with two tokens outside the whitelist in the
body: `isAccCreation` on `[ReadNonZeroST, ReadNonZeroST, InsertionWS]`,
`isAccDeletion` on `[InsertionST, InsertionST, DeletionWS]` and `isAccRead` on
`[InsertionST, InsertionST, ReadNonZeroWS]` each report a match with a nil
error; the second violation is not recorded either. -/
theorem second_violation_not_recorded :
    isAccCreation [⟨.ReadNonZeroTraceST, 0⟩, ⟨.ReadNonZeroTraceST, 1⟩,
        ⟨.InsertionTraceWS, 2⟩] =
        some ⟨[⟨.ReadNonZeroTraceST, 0⟩, ⟨.ReadNonZeroTraceST, 1⟩, ⟨.InsertionTraceWS, 2⟩],
          true, none⟩ ∧
      isAccDeletion [⟨.InsertionTraceST, 0⟩, ⟨.InsertionTraceST, 1⟩,
        ⟨.DeletionTraceWS, 2⟩] =
        some ⟨[⟨.InsertionTraceST, 0⟩, ⟨.InsertionTraceST, 1⟩, ⟨.DeletionTraceWS, 2⟩],
          true, none⟩ ∧
      isAccRead [⟨.InsertionTraceST, 0⟩, ⟨.InsertionTraceST, 1⟩,
        ⟨.ReadNonZeroTraceWS, 2⟩] =
        some ⟨[⟨.InsertionTraceST, 0⟩, ⟨.InsertionTraceST, 1⟩, ⟨.ReadNonZeroTraceWS, 2⟩],
          true, none⟩ := by
  decide

/-- C26: `inspectPattern` succeeds on a segment exactly when its world-state
tokens have one of the three accepted layouts: one world-state token, in the
last position, which is `InsertionTraceWS`, `DeletionTraceWS`, `UpdateTraceWS`
or `ReadNonZeroTraceWS`, or `ReadZeroTraceWS` in a segment of length one; one
world-state token, a `ReadNonZeroTraceWS` first in a segment longer than one;
a final `InsertionTraceWS` whose body holds one world-state token, a
`DeletionTraceWS`.  Two segments with the same world-state tokens at the same
places get the same verdict, whatever their storage tokens are. -/
theorem exact_acceptance_set (traces : List DecodedTrace) :
    ((∃ out, inspectPattern traces = some (out, none)) ↔ accepted traces) ∧
      ∀ traces' : List DecodedTrace, traces'.map wsView = traces.map wsView →
        ((∃ out, inspectPattern traces' = some (out, none)) ↔
          ∃ out, inspectPattern traces = some (out, none)) := by
  have key : ∀ ts : List DecodedTrace,
      (∃ out, inspectPattern ts = some (out, none)) ↔ accepted ts :=
    fun ts => ⟨fun ⟨_, h⟩ => accepted_of_success h, success_of_accepted⟩
  refine ⟨key traces, ?_⟩
  intro traces' h
  rw [key traces', key traces]
  exact ⟨accepted_congr h.symm, accepted_congr h⟩

/-- The witness of C26: `[DeletionST, InsertionWS]` has the world-state tokens
of `[ReadZeroST, InsertionWS]`, which is accepted, and is accepted too. -/
theorem exact_acceptance_set_witness :
    ∃ out, inspectPattern [⟨.DeletionTraceST, 0⟩, ⟨.InsertionTraceWS, 1⟩] =
      some (out, none) :=
  ((exact_acceptance_set [⟨.ReadZeroTraceST, 0⟩, ⟨.InsertionTraceWS, 1⟩]).2
    [⟨.DeletionTraceST, 0⟩, ⟨.InsertionTraceWS, 1⟩] (by decide)).2
    ⟨[⟨.ReadZeroTraceST, 0⟩, ⟨.InsertionTraceWS, 1⟩], by decide⟩

/-- C21: on a segment whose last token is a `DeletionTraceWS` or an
`UpdateTraceWS` and whose body holds at least one world-state token,
`inspectPattern` fails, with an error that is not the no-match error, and
leaves the segment as it was. -/
theorem ws_in_deletion_or_update_body (body : List DecodedTrace) (h : DecodedTrace)
    (hh : h.Underlying = .DeletionTraceWS ∨ h.Underlying = .UpdateTraceWS)
    (hws : ∃ t ∈ body, t.isWorldState = true) :
    ∃ e, inspectPattern (body ++ [h]) = some (body ++ [h], some e) ∧
      ∀ ts, e ≠ .noMatchFound ts := by
  obtain ⟨t, ht, hw⟩ := hws
  have hhw : h.isWorldState = true := by
    rcases hh with e | e <;> simp [DecodedTrace.isWorldState, e, TraceType.scope]
  apply inspectPattern_fails (by simp)
  · intro ha
    rcases accepted_append ha with h1 | h1 | ⟨h1, -⟩
    · rw [h1 t ht] at hw
      cases hw
    · rw [h1] at hhw
      cases hhw
    · rcases hh with e | e <;> rw [e] at h1 <;> cases h1
  · rcases hh with e | e
    · exact ⟨isAccDeletion, by simp [matchers], isAccDeletion_decides body h e⟩
    · exact ⟨isAccUpdate, by simp [matchers], isAccUpdate_decides body h e⟩

/-- The witness of C21 on `[UpdateWS, ReadZeroST, DeletionWS]`. -/
theorem ws_in_deletion_or_update_body_witness :
    ∃ e, inspectPattern [⟨.UpdateTraceWS, 0⟩, ⟨.ReadZeroTraceST, 1⟩,
        ⟨.DeletionTraceWS, 2⟩] =
        some ([⟨.UpdateTraceWS, 0⟩, ⟨.ReadZeroTraceST, 1⟩, ⟨.DeletionTraceWS, 2⟩],
          some e) ∧
      ∀ ts, e ≠ .noMatchFound ts :=
  ws_in_deletion_or_update_body [⟨.UpdateTraceWS, 0⟩, ⟨.ReadZeroTraceST, 1⟩]
    ⟨.DeletionTraceWS, 2⟩ (Or.inl rfl) ⟨⟨.UpdateTraceWS, 0⟩, by decide, rfl⟩

/-- C22: on a segment whose last token is an `InsertionTraceWS` and whose body
holds a world-state token that is not a `DeletionTraceWS`, `inspectPattern`
fails, with an error that is not the no-match error, and leaves the segment as
it was. -/
theorem stray_ws_before_insertion (body : List DecodedTrace) (h : DecodedTrace)
    (hh : h.Underlying = .InsertionTraceWS)
    (hws : ∃ t ∈ body, t.isWorldState = true ∧ t.Underlying ≠ .DeletionTraceWS) :
    ∃ e, inspectPattern (body ++ [h]) = some (body ++ [h], some e) ∧
      ∀ ts, e ≠ .noMatchFound ts := by
  obtain ⟨t, ht, hw, hnd⟩ := hws
  have hhw : h.isWorldState = true := by
    simp [DecodedTrace.isWorldState, hh, TraceType.scope]
  apply inspectPattern_fails (by simp)
  · intro ha
    rcases accepted_append ha with h1 | h1 | ⟨-, h1⟩
    · rw [h1 t ht] at hw
      cases hw
    · rw [h1] at hhw
      cases hhw
    · rcases h1 t ht with e | e
      · rw [e] at hw
        cases hw
      · exact hnd e
  · exact ⟨isAccRedeploy, by simp [matchers],
      isAccRedeploy_decides body h hh (List.ne_nil_of_mem ht)⟩

/-- The witness of C22 on `[UpdateWS, ReadZeroST, InsertionWS]`. -/
theorem stray_ws_before_insertion_witness :
    ∃ e, inspectPattern [⟨.UpdateTraceWS, 0⟩, ⟨.ReadZeroTraceST, 1⟩,
        ⟨.InsertionTraceWS, 2⟩] =
        some ([⟨.UpdateTraceWS, 0⟩, ⟨.ReadZeroTraceST, 1⟩, ⟨.InsertionTraceWS, 2⟩],
          some e) ∧
      ∀ ts, e ≠ .noMatchFound ts :=
  stray_ws_before_insertion [⟨.UpdateTraceWS, 0⟩, ⟨.ReadZeroTraceST, 1⟩]
    ⟨.InsertionTraceWS, 2⟩ rfl ⟨⟨.UpdateTraceWS, 0⟩, by decide, rfl, by decide⟩

/-- C23, as stated, fails: `[DeletionST, UpdateST, UpdateWS]` holds a
`DeletionTraceST` and an `UpdateTraceST` and `inspectPattern` accepts it. -/
theorem unsupported_storage_accepted :
    inspectPattern [⟨.DeletionTraceST, 0⟩, ⟨.UpdateTraceST, 1⟩, ⟨.UpdateTraceWS, 2⟩] =
      some ([⟨.DeletionTraceST, 0⟩, ⟨.UpdateTraceST, 1⟩, ⟨.UpdateTraceWS, 2⟩], none) := by
  decide

/-- C23, amended: on a segment that holds a `DeletionTraceST` or an
`UpdateTraceST`, `inspectPattern` fails when the world-state tokens of the
segment have none of the accepted layouts, and it succeeds when the segment is
a write access, storage tokens of any variant followed by one
`UpdateTraceWS`. -/
theorem unsupported_storage_variants (traces : List DecodedTrace)
    (hc : ∃ t ∈ traces, t.Underlying = .DeletionTraceST ∨ t.Underlying = .UpdateTraceST) :
    (¬ accepted traces → ∃ e, inspectPattern traces = some (traces, some e)) ∧
      (∀ body h, traces = body ++ [h] → h.Underlying = .UpdateTraceWS →
        (∀ t ∈ body, t.isWorldState = false) →
        inspectPattern traces = some (traces, none)) := by
  obtain ⟨t, ht, -⟩ := hc
  refine ⟨inspectPattern_error_of_not_accepted (List.ne_nil_of_mem ht), ?_⟩
  intro body h hEq hh hb
  rw [hEq]
  exact success_of_last body h hb (Or.inr (Or.inr (Or.inl hh)))

/-- The witness of C23, amended: `[UpdateWS, DeletionST]` has none of the
accepted layouts and is rejected. -/
theorem unsupported_storage_variants_witness :
    ∃ e, inspectPattern [⟨.UpdateTraceWS, 0⟩, ⟨.DeletionTraceST, 1⟩] =
      some ([⟨.UpdateTraceWS, 0⟩, ⟨.DeletionTraceST, 1⟩], some e) :=
  (unsupported_storage_variants [⟨.UpdateTraceWS, 0⟩, ⟨.DeletionTraceST, 1⟩]
    ⟨⟨.DeletionTraceST, 1⟩, by decide, Or.inl rfl⟩).1 (by
      intro ha
      have hrun : inspectPattern [⟨.UpdateTraceWS, 0⟩, ⟨.DeletionTraceST, 1⟩] =
          some ([⟨.UpdateTraceWS, 0⟩, ⟨.DeletionTraceST, 1⟩],
            some (.noMatchFound [.UpdateTraceWS, .DeletionTraceST])) := by decide
      obtain ⟨out, h⟩ := success_of_accepted ha
      rw [hrun] at h
      cases h)

/-- C27, as stated, fails: `isAccRedeploy` reports a match on
`[ReadZeroST, InsertionWS]`, whose body holds no `DeletionTraceWS`. -/
theorem redeploy_match_without_deletion :
    isAccRedeploy [⟨.ReadZeroTraceST, 0⟩, ⟨.InsertionTraceWS, 1⟩] =
        some ⟨[⟨.ReadZeroTraceST, 0⟩, ⟨.InsertionTraceWS, 1⟩], true, none⟩ ∧
      ¬ ([(⟨.ReadZeroTraceST, 0⟩ : DecodedTrace)].countP
        (fun t => decide (t.Underlying = .DeletionTraceWS)) = 1) := by
  decide

/-- C27, amended: when `isAccRedeploy` reports a match on a segment, the
segment is longer than one token, its last token is an `InsertionTraceWS` and
its body holds no world-state token other than at most one `DeletionTraceWS`;
the body holds exactly one `DeletionTraceWS` when in addition `isAccCreation`
reports no match on the segment, as it has whenever `inspectPattern` consults
`isAccRedeploy`; and `isAccRedeploy` reports no match on every segment of
length one. -/
theorem redeploy_match_shape (body : List DecodedTrace) (h : DecodedTrace) :
    (∀ r, isAccRedeploy (body ++ [h]) = some r → r.ok = true →
        1 < (body ++ [h]).length ∧ h.Underlying = .InsertionTraceWS ∧
          (∀ t ∈ body, t.isWorldState = false ∨ t.Underlying = .DeletionTraceWS) ∧
          body.countP (fun t => decide (t.Underlying = .DeletionTraceWS)) ≤ 1 ∧
          (isAccCreation (body ++ [h]) = some ⟨body ++ [h], false, none⟩ →
            body.countP (fun t => decide (t.Underlying = .DeletionTraceWS)) = 1)) ∧
      (body = [] → isAccRedeploy (body ++ [h]) = some ⟨body ++ [h], false, none⟩) := by
  constructor
  · intro r hr hok
    obtain ⟨h1, h2, h3, h4⟩ := isAccRedeploy_match hr hok
    refine ⟨?_, h1, h3, h4, ?_⟩
    · have : 0 < body.length := List.length_pos.2 h2
      simp only [List.length_append, List.length_singleton]
      omega
    · intro hc
      rw [isAccCreation_body body h h1] at hc
      have hany : body.any (fun t => t.isWorldState) = true := by
        simp only [Option.some.injEq, MatchResult.mk.injEq, true_and, and_true] at hc
        simpa using hc
      obtain ⟨t, ht, hw⟩ := List.any_eq_true.1 hany
      have hd : t.Underlying = .DeletionTraceWS := by
        rcases h3 t ht with e | e
        · rw [e] at hw
          cases hw
        · exact e
      have hpos : 0 < body.countP (fun t => decide (t.Underlying = .DeletionTraceWS)) :=
        List.countP_pos_iff.2 ⟨t, ht, by simp [hd]⟩
      omega
  · intro hb
    subst hb
    by_cases hh : h.Underlying = .InsertionTraceWS
    · simp [isAccRedeploy, readLast, hh]
    · exact isAccRedeploy_noMatch (readLast_append [] h) hh

/-- The witness of C27, amended, on the redeploy segment
`[ReadNonZeroST, DeletionWS, ReadZeroST, InsertionWS]`. -/
theorem redeploy_match_shape_witness :
    [(⟨.ReadNonZeroTraceST, 0⟩ : DecodedTrace), ⟨.DeletionTraceWS, 1⟩,
        ⟨.ReadZeroTraceST, 2⟩].countP
      (fun t => decide (t.Underlying = .DeletionTraceWS)) = 1 :=
  ((redeploy_match_shape
    [⟨.ReadNonZeroTraceST, 0⟩, ⟨.DeletionTraceWS, 1⟩, ⟨.ReadZeroTraceST, 2⟩]
    ⟨.InsertionTraceWS, 3⟩).1
    ⟨[⟨.ReadNonZeroTraceST, 0⟩, ⟨.DeletionTraceWS, 1⟩, ⟨.ReadZeroTraceST, 2⟩,
      ⟨.InsertionTraceWS, 3⟩], true, none⟩ (by decide) rfl).2.2.2.2 (by decide)

end Statemanager

namespace BlobV0

/-- C24, evaluated on a block of time 1 with no transaction: the encoder
writes the timestamp in little-endian order, the decoder reads it in
big-endian order and returns the timestamp `2 ^ 56`, which is not
`block.Time()`. -/
theorem timestamp_round_trip_fails (Tx From : Type) (encodeTx : Tx → Option (List Nat))
    (decodeTx : List Nat → Option (Tx × From × List Nat)) :
    EncodeBlockForCompression encodeTx ⟨1, []⟩ = some [1, 0, 0, 0, 0, 0, 0, 0] ∧
      ∃ blk, DecodeBlockFromUncompressed decodeTx [1, 0, 0, 0, 0, 0, 0, 0] = .ok blk ∧
        blk.Timestamp = 2 ^ 56 ∧ blk.Timestamp ≠ 1 := by
  have hput : putUint64LittleEndian 1 = [1, 0, 0, 0, 0, 0, 0, 0] := by decide
  refine ⟨?_, ⟨2 ^ 56, [], []⟩, ?_, rfl, by norm_num⟩
  · simp only [EncodeBlockForCompression, EncodeBlockForCompression.loop, hput]
  · simp [DecodeBlockFromUncompressed, DecodeBlockFromUncompressed.loop, uint64BigEndian]

end BlobV0

namespace Execution

/-- C25, evaluated on two slots, the first all zero and the second with a
non-zero last byte, and the announced length 1: the constraint of
`CheckSumMiMC` holds, since it only counts the used slots, although the slots
are not packed at the start. -/
theorem checkSum_accepts_unpacked (p : Nat) (pack : List Nat → Nat)
    (compress : Nat → Nat → Nat) (hp : 1 < p)
    (h0 : pack (List.replicate 16 0) % p = 0)
    (h1 : pack (List.replicate 15 0 ++ [1]) % p ≠ 0) :
    CheckSumMiMC p pack compress
        ⟨[List.replicate 32 0, List.replicate 31 0 ++ [1]], 1⟩ =
        some (compress (compress 0 (pack (List.replicate 16 0)))
          (pack (List.replicate 15 0 ++ [1]))) ∧
      ¬ packedAtStart [List.replicate 32 0, List.replicate 31 0 ++ [1]] := by
  have e1 : (List.replicate 32 0).take 16 = List.replicate 16 0 := by decide
  have e2 : (List.replicate 32 0).drop 16 = List.replicate 16 0 := by decide
  have e3 : (List.replicate 31 0 ++ [1]).take 16 = List.replicate 16 0 := by decide
  have e4 : (List.replicate 31 0 ++ [1]).drop 16 = List.replicate 15 0 ++ [1] := by decide
  have hm1 : 1 % p = 1 := Nat.mod_eq_of_lt hp
  constructor
  · simp only [CheckSumMiMC, CheckSumMiMC.loop, e1, e2, e3, e4, isZero, h0, h1, if_true,
      if_false, mul, sub, add, hm1, Nat.mul_one, Nat.mul_zero, Nat.zero_mod, Nat.sub_zero,
      Nat.add_zero, Nat.zero_add]
    have hp1 : p - 1 + 1 = p := by omega
    simp [hm1, hp1, select, Nat.add_sub_cancel' (Nat.le_of_lt hp)]
  · unfold packedAtStart
    rw [not_not]
    exact ⟨0, 1, by decide, _, _, rfl, rfl, by decide, 1, by decide, by decide⟩

/-- The witness of the evaluation of C25, with the modulus 11, the sum of the
bytes for `pack` and the addition for `compress`. -/
theorem checkSum_accepts_unpacked_witness :
    CheckSumMiMC 11 List.sum (· + ·)
        ⟨[List.replicate 32 0, List.replicate 31 0 ++ [1]], 1⟩ =
        some ((0 + (List.replicate 16 0).sum) + (List.replicate 15 0 ++ [1]).sum) ∧
      ¬ packedAtStart [List.replicate 32 0, List.replicate 31 0 ++ [1]] :=
  checkSum_accepts_unpacked 11 List.sum (· + ·) (by decide) (by decide) (by decide)

end Execution

namespace Execution

theorem loop_zero_entry (p : Nat) (pack : List Nat → Nat) (compress : Nat → Nat → Nat)
    (hp : 1 < p) (v : List Nat) (rest : List (List Nat)) (s res : Nat)
    (hhi : pack (v.take 16) % p = 0) (hlo : pack (v.drop 16) % p = 0) :
    CheckSumMiMC.loop p pack compress (v :: rest) s res =
      CheckSumMiMC.loop p pack compress rest (s % p) res := by
  have hm1 : 1 % p = 1 := Nat.mod_eq_of_lt hp
  have hp1 : 1 + (p - 1) = p := by omega
  have hused : sub p 1 (mul p (isZero p (pack (v.take 16))) (isZero p (pack (v.drop 16)))) =
      0 := by
    simp [sub, mul, isZero, hhi, hlo, hm1, hp1]
  rw [CheckSumMiMC.loop]
  simp only [hused]
  simp [add, select]

theorem loop_zero_entries (p : Nat) (pack : List Nat → Nat) (compress : Nat → Nat → Nat)
    (hp : 1 < p) (values : List (List Nat)) (res : Nat)
    (hz : ∀ v ∈ values, pack (v.take 16) % p = 0 ∧ pack (v.drop 16) % p = 0) :
    CheckSumMiMC.loop p pack compress values 0 res = (0, res) := by
  induction values with
  | nil => rfl
  | cons v rest ih =>
    have hv := hz v (List.mem_cons_self _ _)
    rw [loop_zero_entry p pack compress hp v rest 0 res hv.1 hv.2, Nat.zero_mod]
    exact ih (fun w hw => hz w (List.mem_cons_of_mem _ hw))

/-- C33: when every entry of `Values` has `hi = 0` and `lo = 0` in the field
and `Length` is 0, the constraint `sumIsUsed == Length` holds and
`CheckSumMiMC` returns 0, whatever the number of entries; and an entry with
`hi = 0` and `lo = 0` leaves the running result `res` as it was and adds
nothing to `sumIsUsed`. -/
theorem checkSum_of_zero_entries (p : Nat) (pack : List Nat → Nat)
    (compress : Nat → Nat → Nat) (hp : 1 < p) (values : List (List Nat))
    (hz : ∀ v ∈ values, pack (v.take 16) % p = 0 ∧ pack (v.drop 16) % p = 0) :
    CheckSumMiMC p pack compress ⟨values, 0⟩ = some 0 ∧
      ∀ (v : List Nat) (rest : List (List Nat)) (s res : Nat),
        pack (v.take 16) % p = 0 → pack (v.drop 16) % p = 0 →
        CheckSumMiMC.loop p pack compress (v :: rest) s res =
          CheckSumMiMC.loop p pack compress rest (s % p) res := by
  refine ⟨?_, fun v rest s res => loop_zero_entry p pack compress hp v rest s res⟩
  simp [CheckSumMiMC, loop_zero_entries p pack compress hp values 0 hz]

/-- The witness of C33 on three all-zero entries, with the modulus 11, the sum
of the bytes for `pack` and the addition for `compress`. -/
theorem checkSum_of_zero_entries_witness :
    CheckSumMiMC 11 List.sum (· + ·)
      ⟨[List.replicate 32 0, List.replicate 32 0, List.replicate 32 0], 0⟩ = some 0 :=
  (checkSum_of_zero_entries 11 List.sum (· + ·) (by decide)
    [List.replicate 32 0, List.replicate 32 0, List.replicate 32 0] (by decide)).1

end Execution

namespace Utils

theorem max_loop_spec (s : List Int) (m : Int) :
    (Max.loop s m = m ∨ Max.loop s m ∈ s) ∧ m ≤ Max.loop s m ∧
      ∀ x ∈ s, x ≤ Max.loop s m := by
  induction s generalizing m with
  | nil => simp [Max.loop]
  | cons v rest ih =>
    obtain ⟨h1, h2, h3⟩ := ih (if m < v then v else m)
    rw [Max.loop]
    refine ⟨?_, ?_, ?_⟩
    · rcases h1 with h | h
      · by_cases hv : m < v
        · rw [if_pos hv] at h
          exact Or.inr (by rw [if_pos hv, h]; exact List.mem_cons_self _ _)
        · rw [if_neg hv] at h
          exact Or.inl (by rw [if_neg hv, h])
      · exact Or.inr (List.mem_cons_of_mem _ h)
    · by_cases hv : m < v
      · rw [if_pos hv] at h2 ⊢
        omega
      · rw [if_neg hv] at h2 ⊢
        exact h2
    · intro x hx
      rcases List.mem_cons.1 hx with e | e
      · by_cases hv : m < v
        · rw [if_pos hv] at h2 ⊢
          rw [e]
          exact h2
        · rw [if_neg hv] at h2 ⊢
          rw [e]
          omega
      · exact h3 x e

theorem min_loop_spec (s : List Int) (m : Int) :
    (Min.loop s m = m ∨ Min.loop s m ∈ s) ∧ Min.loop s m ≤ m ∧
      ∀ x ∈ s, Min.loop s m ≤ x := by
  induction s generalizing m with
  | nil => simp [Min.loop]
  | cons v rest ih =>
    obtain ⟨h1, h2, h3⟩ := ih (if m > v then v else m)
    rw [Min.loop]
    refine ⟨?_, ?_, ?_⟩
    · rcases h1 with h | h
      · by_cases hv : m > v
        · rw [if_pos hv] at h
          exact Or.inr (by rw [if_pos hv, h]; exact List.mem_cons_self _ _)
        · rw [if_neg hv] at h
          exact Or.inl (by rw [if_neg hv, h])
      · exact Or.inr (List.mem_cons_of_mem _ h)
    · by_cases hv : m > v
      · rw [if_pos hv] at h2 ⊢
        omega
      · rw [if_neg hv] at h2 ⊢
        exact h2
    · intro x hx
      rcases List.mem_cons.1 hx with e | e
      · by_cases hv : m > v
        · rw [if_pos hv] at h2 ⊢
          rw [e]
          exact h2
        · rw [if_neg hv] at h2 ⊢
          rw [e]
          omega
      · exact h3 x e

/-- C32: `AllStrictPositive` returns true exactly when every argument is
strictly greater than zero; it returns true on the empty list and false on
every list that holds an argument that is zero or negative. -/
theorem allStrictPositive_iff (s : List Int) :
    (AllStrictPositive s = true ↔ ∀ x ∈ s, 0 < x) ∧ AllStrictPositive [] = true ∧
      ((∃ x ∈ s, x ≤ 0) ↔ AllStrictPositive s = false) := by
  have key : ∀ l : List Int, AllStrictPositive l = true ↔ ∀ x ∈ l, 0 < x := by
    intro l
    induction l with
    | nil => simp [AllStrictPositive]
    | cons x rest ih =>
      by_cases hx : x ≤ 0
      · simp only [AllStrictPositive, if_pos hx, Bool.false_eq_true, false_iff]
        intro h
        have := h x (List.mem_cons_self _ _)
        omega
      · simp only [AllStrictPositive, if_neg hx, ih, List.mem_cons, forall_eq_or_imp]
        constructor
        · intro h
          exact ⟨by omega, h⟩
        · intro h
          exact h.2
  refine ⟨key s, rfl, ?_⟩
  rw [← Bool.not_eq_true, key s]
  constructor
  · rintro ⟨x, hx, h0⟩ h
    have := h x hx
    omega
  · intro h
    by_contra hc
    apply h
    intro x hx
    by_contra h0
    exact hc ⟨x, hx, by omega⟩

/-- The witness of C32 on the arguments `1, 2, 3`. -/
theorem allStrictPositive_iff_witness : AllStrictPositive [1, 2, 3] = true :=
  (allStrictPositive_iff [1, 2, 3]).1.2 (by decide)

/-- C34: `Min` panics exactly on the empty list; on any other list it returns
a value that occurs in the list and is less than or equal to every element. -/
theorem min_spec (s : List Int) :
    (Min s = none ↔ s = []) ∧
      (s ≠ [] → ∃ m, Min s = some m ∧ m ∈ s ∧ ∀ x ∈ s, m ≤ x) := by
  cases s with
  | nil => simp [Min]
  | cons s0 rest =>
    refine ⟨by simp [Min], fun _ => ⟨Min.loop (s0 :: rest) s0, rfl, ?_, ?_⟩⟩
    · rcases (min_loop_spec (s0 :: rest) s0).1 with h | h
      · rw [h]
        exact List.mem_cons_self _ _
      · exact h
    · exact (min_loop_spec (s0 :: rest) s0).2.2

/-- The witness of C34 on the arguments `3, -2, 7`. -/
theorem min_spec_witness :
    ∃ m, Min [3, -2, 7] = some m ∧ m ∈ [3, -2, 7] ∧ ∀ x ∈ [3, -2, 7], m ≤ x :=
  (min_spec [3, -2, 7]).2 (by decide)

/-- C35: `Max` panics exactly on the empty list; on any other list it returns
a value that occurs in the list and is greater than or equal to every
element. -/
theorem max_spec (s : List Int) :
    (Max s = none ↔ s = []) ∧
      (s ≠ [] → ∃ m, Max s = some m ∧ m ∈ s ∧ ∀ x ∈ s, x ≤ m) := by
  cases s with
  | nil => simp [Max]
  | cons s0 rest =>
    refine ⟨by simp [Max], fun _ => ⟨Max.loop (s0 :: rest) s0, rfl, ?_, ?_⟩⟩
    · rcases (max_loop_spec (s0 :: rest) s0).1 with h | h
      · rw [h]
        exact List.mem_cons_self _ _
      · exact h
    · exact (max_loop_spec (s0 :: rest) s0).2.2

/-- The witness of C35 on the arguments `3, -2, 7`. -/
theorem max_spec_witness :
    ∃ m, Max [3, -2, 7] = some m ∧ m ∈ [3, -2, 7] ∧ ∀ x ∈ [3, -2, 7], x ≤ m :=
  (max_spec [3, -2, 7]).2 (by decide)

end Utils

namespace Datatransfer

/-- C36: on a row where the expressions of the queries `isInserted_isPadded`
and `IsPadded_IsActive` vanish, `isInserted + isPadded = isActive`; when the
three binary expressions vanish too, `isActive = 0` forces `isInserted` and
`isPadded` to be 0, and `isActive = 1` forces one of them to be 1 and the
other 0. -/
theorem flags_partition (F : Type) [Field F] (isInserted isPadded isActive : F)
    (h1 : isInserted_isPadded isInserted isPadded isActive = 0)
    (h2 : IsPadded_IsActive isActive isPadded = 0) :
    isInserted + isPadded = isActive ∧
      (isBinary isInserted = 0 → isBinary isPadded = 0 → isBinary isActive = 0 →
        (isActive = 0 → isInserted = 0 ∧ isPadded = 0) ∧
        (isActive = 1 →
          (isInserted = 1 ∧ isPadded = 0) ∨ (isInserted = 0 ∧ isPadded = 1))) := by
  unfold isInserted_isPadded at h1
  unfold IsPadded_IsActive at h2
  have hsum : isInserted + isPadded = isActive := by
    linear_combination h1 + h2
  refine ⟨hsum, ?_⟩
  intro b1 b2 _
  unfold isBinary at b1 b2
  constructor
  · intro h0
    rw [h0] at h2 h1
    have hp : isPadded = 0 := by simpa using h2
    have hi : isInserted = 0 := by simpa using h1
    exact ⟨hi, hp⟩
  · intro ha
    rcases mul_eq_zero.1 b2 with hp | hp
    · left
      refine ⟨?_, hp⟩
      rw [hp, ha] at hsum
      simpa using hsum
    · right
      have hp1 : isPadded = 1 := by
        have := sub_eq_zero.1 hp
        exact this.symm
      refine ⟨?_, hp1⟩
      rw [hp1, ha] at hsum
      simpa using hsum

/-- The witness of C36 on the rational row `isInserted = 1`, `isPadded = 0`,
`isActive = 1`. -/
theorem flags_partition_witness :
    (1 : ℚ) + 0 = 1 ∧
      (isBinary (1 : ℚ) = 0 → isBinary (0 : ℚ) = 0 → isBinary (1 : ℚ) = 0 →
        ((1 : ℚ) = 0 → (1 : ℚ) = 0 ∧ (0 : ℚ) = 0) ∧
        ((1 : ℚ) = 1 → ((1 : ℚ) = 1 ∧ (0 : ℚ) = 0) ∨ ((1 : ℚ) = 0 ∧ (0 : ℚ) = 1))) :=
  flags_partition ℚ 1 0 1 (by simp [isInserted_isPadded]) (by simp [IsPadded_IsActive])

end Datatransfer

namespace Plonk

/-! ## The last position of a variable -/

theorem getElem?_varAt {lro : List Nat} {j : Nat} (h : j < lro.length) :
    lro[j]? = some (varAt lro j) := by
  simp [varAt, List.getElem?_eq_getElem h]

theorem varAt_mem {lro : List Nat} {j : Nat} (h : j < lro.length) : varAt lro j ∈ lro :=
  List.getElem?_mem (getElem?_varAt h)

theorem lastBefore_cases (lro : List Nat) (id i : Nat) :
    (lastBefore lro id i = -1 ∧ ∀ k, k < i → lro[k]? ≠ some id) ∨
      ∃ k, k < i ∧ lastBefore lro id i = (k : Int) ∧ lro[k]? = some id ∧
        ∀ m, k < m → m < i → lro[m]? ≠ some id := by
  induction i with
  | zero =>
    left
    exact ⟨rfl, fun k hk => absurd hk (Nat.not_lt_zero k)⟩
  | succ i ih =>
    by_cases h : lro[i]? = some id
    · right
      refine ⟨i, Nat.lt_succ_self i, by simp [lastBefore, h], h, ?_⟩
      intro m h1 h2
      omega
    · have hstep : lastBefore lro id (i + 1) = lastBefore lro id i := by
        simp [lastBefore, h]
      rcases ih with ⟨h1, h2⟩ | ⟨k, hk, h1, h2, h3⟩
      · left
        refine ⟨by rw [hstep, h1], ?_⟩
        intro k hk
        rcases Nat.lt_succ_iff_lt_or_eq.1 hk with e | e
        · exact h2 k e
        · rw [e]
          exact h
      · right
        refine ⟨k, Nat.lt_succ_of_lt hk, by rw [hstep, h1], h2, ?_⟩
        intro m hm1 hm2
        rcases Nat.lt_succ_iff_lt_or_eq.1 hm2 with e | e
        · exact h3 m hm1 e
        · rw [e]
          exact h

theorem target_link (lro : List Nat) (j : Nat) (hj : j < lro.length) :
    ∃ k : Nat, target lro j = (k : Int) ∧ Link lro j k := by
  have hget := getElem?_varAt hj
  rcases lastBefore_cases lro (varAt lro j) j with ⟨h1, h2⟩ | ⟨k, hk, h1, h2, h3⟩
  · rcases lastBefore_cases lro (varAt lro j) lro.length with ⟨-, h4⟩ | ⟨k, hk, h3, h4, h5⟩
    · exact absurd hget (h4 j hj)
    · refine ⟨k, by rw [target, if_pos h1, h3], Or.inr ⟨?_, ?_, hk, by rw [h4, hget], ?_⟩⟩
      · intro m hm
        rw [hget]
        exact h2 m hm
      · by_contra hlt
        exact h2 k (by omega) h4
      · intro m hm1 hm2
        rw [hget]
        exact h5 m hm1 hm2
  · have hne : lastBefore lro (varAt lro j) j ≠ -1 := by
      rw [h1]
      omega
    refine ⟨k, by rw [target, if_neg hne, h1], Or.inl ⟨hk, by rw [h2, hget], ?_⟩⟩
    intro m hm1 hm2
    rw [hget]
    exact h3 m hm1 hm2

/-! ## The two loops -/

theorem cycleLoop_spec (lro : List Nat) (nv : Nat) (hvalid : ∀ id ∈ lro, id < nv)
    (rem : Nat) :
    ∀ (i : Nat) (perm cyc : List Int), i + rem = lro.length → perm.length = lro.length →
      cyc.length = nv →
      (∀ j, j < lro.length →
        perm[j]? = some (if j < i then lastBefore lro (varAt lro j) j else -1)) →
      (∀ id, id < nv → cyc[id]? = some (lastBefore lro id i)) →
      ∃ perm' cyc', buildPermutation.cycleLoop lro rem i perm cyc = some (perm', cyc') ∧
        perm'.length = lro.length ∧ cyc'.length = nv ∧
        (∀ j, j < lro.length → perm'[j]? = some (lastBefore lro (varAt lro j) j)) ∧
        (∀ id, id < nv → cyc'[id]? = some (lastBefore lro id lro.length)) := by
  induction rem with
  | zero =>
    intro i perm cyc hi hpl hcl hp hc
    have hi' : i = lro.length := by omega
    subst hi'
    refine ⟨perm, cyc, rfl, hpl, hcl, ?_, hc⟩
    intro j hj
    rw [hp j hj, if_pos hj]
  | succ r ih =>
    intro i perm cyc hi hpl hcl hp hc
    have hlt : i < lro.length := by omega
    have hget := getElem?_varAt hlt
    have hid : varAt lro i < nv := hvalid _ (varAt_mem hlt)
    have hcid := hc _ hid
    have hcyc : ∀ id, id < nv →
        (cyc.set (varAt lro i) (i : Int))[id]? = some (lastBefore lro id (i + 1)) := by
      intro id hidlt
      by_cases e : varAt lro i = id
      · subst e
        rw [List.getElem?_set_self (by rw [hcl]; exact hid)]
        simp [lastBefore, hget]
      · rw [List.getElem?_set_ne e, hc id hidlt]
        have : lro[i]? ≠ some id := by
          rw [hget]
          intro h
          exact e (Option.some.inj h)
        simp [lastBefore, this]
    have hsetc : setAt cyc (varAt lro i) (i : Int) = some (cyc.set (varAt lro i) (i : Int)) := by
      simp [setAt, hcl, hid]
    by_cases hneg : lastBefore lro (varAt lro i) i = -1
    · have hstep : buildPermutation.cycleLoop lro (r + 1) i perm cyc =
          buildPermutation.cycleLoop lro r (i + 1) perm (cyc.set (varAt lro i) (i : Int)) := by
        rw [buildPermutation.cycleLoop]
        simp only [hget, hcid, hneg, hsetc]
        simp
      rw [hstep]
      apply ih (i + 1) perm _ (by omega) hpl (by simp [hcl]) _ hcyc
      intro j hj
      rw [hp j hj]
      by_cases e : j = i
      · subst e
        simp [hneg]
      · have : j < i ↔ j < i + 1 := by omega
        simp only [this]
    · have hsetp : setAt perm i (lastBefore lro (varAt lro i) i) =
          some (perm.set i (lastBefore lro (varAt lro i) i)) := by
        simp [setAt, hpl, hlt]
      have hstep : buildPermutation.cycleLoop lro (r + 1) i perm cyc =
          buildPermutation.cycleLoop lro r (i + 1)
            (perm.set i (lastBefore lro (varAt lro i) i))
            (cyc.set (varAt lro i) (i : Int)) := by
        rw [buildPermutation.cycleLoop]
        simp only [hget, hcid, hsetc, hsetp, ne_eq, hneg, not_false_eq_true, if_true]
      rw [hstep]
      apply ih (i + 1) _ _ (by omega) (by simp [hpl]) (by simp [hcl]) _ hcyc
      intro j hj
      by_cases e : i = j
      · subst e
        rw [List.getElem?_set_self (by rw [hpl]; exact hlt)]
        simp
      · rw [List.getElem?_set_ne e, hp j hj]
        have : j < i ↔ j < i + 1 := by omega
        simp only [this]

theorem fillLoop_spec (lro : List Nat) (nv : Nat) (cyc : List Int)
    (hvalid : ∀ id ∈ lro, id < nv)
    (hc : ∀ id, id < nv → cyc[id]? = some (lastBefore lro id lro.length))
    (rem : Nat) :
    ∀ (i : Nat) (perm : List Int), i + rem = lro.length → perm.length = lro.length →
      (∀ j, j < lro.length →
        perm[j]? = some (if j < i then target lro j else lastBefore lro (varAt lro j) j)) →
      ∃ S, buildPermutation.fillLoop lro cyc rem i perm = some S ∧
        S.length = lro.length ∧ ∀ j, j < lro.length → S[j]? = some (target lro j) := by
  induction rem with
  | zero =>
    intro i perm hi hpl hp
    have hi' : i = lro.length := by omega
    subst hi'
    refine ⟨perm, rfl, hpl, ?_⟩
    intro j hj
    rw [hp j hj, if_pos hj]
  | succ r ih =>
    intro i perm hi hpl hp
    have hlt : i < lro.length := by omega
    have hget := getElem?_varAt hlt
    have hid : varAt lro i < nv := hvalid _ (varAt_mem hlt)
    have hcid := hc _ hid
    have hpi : perm[i]? = some (lastBefore lro (varAt lro i) i) := by
      rw [hp i hlt, if_neg (Nat.lt_irrefl i)]
    by_cases hneg : lastBefore lro (varAt lro i) i = -1
    · have hsetp : setAt perm i (lastBefore lro (varAt lro i) lro.length) =
          some (perm.set i (lastBefore lro (varAt lro i) lro.length)) := by
        simp [setAt, hpl, hlt]
      have hstep : buildPermutation.fillLoop lro cyc (r + 1) i perm =
          buildPermutation.fillLoop lro cyc r (i + 1)
            (perm.set i (lastBefore lro (varAt lro i) lro.length)) := by
        rw [buildPermutation.fillLoop]
        simp only [hpi, hneg, if_true, hget, hcid, hsetp]
      rw [hstep]
      apply ih (i + 1) _ (by omega) (by simp [hpl])
      intro j hj
      by_cases e : i = j
      · subst e
        rw [List.getElem?_set_self (by rw [hpl]; exact hlt)]
        simp [target, hneg]
      · rw [List.getElem?_set_ne e, hp j hj]
        have : j < i ↔ j < i + 1 := by omega
        simp only [this]
    · have hstep : buildPermutation.fillLoop lro cyc (r + 1) i perm =
          buildPermutation.fillLoop lro cyc r (i + 1) perm := by
        rw [buildPermutation.fillLoop]
        simp only [hpi, hneg, if_false]
      rw [hstep]
      apply ih (i + 1) _ (by omega) hpl
      intro j hj
      rw [hp j hj]
      by_cases e : j = i
      · subst e
        simp [target, hneg]
      · have : j < i ↔ j < i + 1 := by omega
        simp only [this]

theorem fromLRO_eq (nbVariables sizeSolution : Nat) (lro : List Nat)
    (hlen : lro.length = 3 * sizeSolution) (hvalid : ∀ id ∈ lro, id < nbVariables) :
    ∃ S, buildPermutation.fromLRO nbVariables sizeSolution lro = some S ∧
      S.length = lro.length ∧ ∀ j, j < lro.length → S[j]? = some (target lro j) := by
  obtain ⟨perm', cyc', h1, hpl, -, hp, hc⟩ :=
    cycleLoop_spec lro nbVariables hvalid lro.length 0
      (List.replicate (3 * sizeSolution) (-1 : Int)) (List.replicate nbVariables (-1 : Int))
      (by omega) (by simp [hlen]) (by simp)
      (by
        intro j hj
        rw [List.getElem?_replicate_of_lt (by omega)]
        simp)
      (by
        intro id hid
        rw [List.getElem?_replicate_of_lt hid]
        rfl)
  obtain ⟨S, h2, hsl, hs⟩ :=
    fillLoop_spec lro nbVariables cyc' hvalid hc lro.length 0 perm' (by omega) hpl
      (by
        intro j hj
        rw [hp j hj]
        simp)
  refine ⟨S, ?_, hsl, hs⟩
  rw [← hlen] at h1
  simp only [buildPermutation.fromLRO, ← hlen, h1, h2]

theorem buildPermutation_eq_fromLRO (spr : SparseR1CS) (sizeSolution : Nat)
    (lro0 lro : List Nat)
    (h0 : buildPermutation.publicLoop spr.Public 0 (List.replicate (3 * sizeSolution) 0) =
      some lro0)
    (h1 : buildPermutation.constraintLoop sizeSolution spr.Public spr.constraints 0 lro0 =
      some lro) :
    buildPermutation spr sizeSolution =
      buildPermutation.fromLRO (spr.NbInternalVariables + spr.Public + spr.Secret)
        sizeSolution lro := by
  simp only [buildPermutation, h0, h1]

/-! ## The cycles of the links -/

theorem link_range {lro : List Nat} {j k : Nat} (hj : j < lro.length) (h : Link lro j k) :
    k < lro.length ∧ lro[k]? = lro[j]? := by
  rcases h with ⟨hk, he, -⟩ | ⟨-, -, hk, he, -⟩
  · exact ⟨by omega, he⟩
  · exact ⟨hk, he⟩

theorem link_inj {lro : List Nat} {j j' k : Nat} (h : Link lro j k) (h' : Link lro j' k)
    (hj : j < lro.length) (hj' : j' < lro.length) : j = j' := by
  rcases h with ⟨hk, he, hb⟩ | ⟨hf, hle, hk, he, hl⟩ <;>
    rcases h' with ⟨hk', he', hb'⟩ | ⟨hf', hle', hk', he', hl'⟩
  · rcases Nat.lt_trichotomy j j' with h | h | h
    · exact absurd (he.symm.trans he') (hb' j hk h)
    · exact h
    · exact absurd (he'.symm.trans he) (hb j' hk' h)
  · exact absurd (he.symm.trans he') (hl' j hk hj)
  · exact absurd (he'.symm.trans he) (hl j' hk' hj')
  · rcases Nat.lt_trichotomy j j' with h | h | h
    · exact absurd (he.symm.trans he') (hf' j h)
    · exact h
    · exact absurd (he'.symm.trans he) (hf j' h)

theorem link_surj (lro : List Nat) (g : Nat → Nat)
    (hg : ∀ j, j < lro.length → Link lro j (g j)) (k : Nat) (hk : k < lro.length) :
    ∃ i, i < lro.length ∧ g i = k := by
  let f : Fin lro.length → Fin lro.length := fun i => ⟨g i, (link_range i.2 (hg i i.2)).1⟩
  have hinj : Function.Injective f := by
    intro a b hab
    have e : g a = g b := congrArg Fin.val hab
    have hb := hg b b.2
    rw [← e] at hb
    exact Fin.ext (link_inj (hg a a.2) hb a.2 b.2)
  obtain ⟨i, hi⟩ := (Finite.injective_iff_surjective.mp hinj) ⟨k, hk⟩
  exact ⟨i, i.2, congrArg Fin.val hi⟩

theorem iterate_same (lro : List Nat) (g : Nat → Nat)
    (hg : ∀ j, j < lro.length → Link lro j (g j)) (m : Nat) :
    ∀ i, i < lro.length → g^[m] i < lro.length ∧ lro[g^[m] i]? = lro[i]? := by
  induction m with
  | zero =>
    intro i hi
    exact ⟨hi, rfl⟩
  | succ m ih =>
    intro i hi
    obtain ⟨h1, h2⟩ := link_range hi (hg i hi)
    obtain ⟨h3, h4⟩ := ih (g i) h1
    rw [Function.iterate_succ_apply]
    exact ⟨h3, h4.trans h2⟩

theorem iterate_descend (lro : List Nat) (g : Nat → Nat)
    (hg : ∀ j, j < lro.length → Link lro j (g j)) :
    ∀ i, i < lro.length → ∀ j, j ≤ i → lro[j]? = lro[i]? → ∃ m, g^[m] i = j := by
  intro i
  induction i using Nat.strong_induction_on with
  | _ i ih =>
    intro hi j hji he
    rcases Nat.eq_or_lt_of_le hji with e | hlt
    · exact ⟨0, e.symm⟩
    · rcases hg i hi with ⟨hk, hek, hb⟩ | ⟨hf, -⟩
      · have hjk : j ≤ g i := by
          by_contra hc
          exact hb j (by omega) hlt he
        obtain ⟨m, hm⟩ := ih (g i) hk (by omega) j hjk (he.trans hek.symm)
        exact ⟨m + 1, by rw [Function.iterate_succ_apply]; exact hm⟩
      · exact absurd he (hf j hlt)

theorem iterate_connect (lro : List Nat) (g : Nat → Nat)
    (hg : ∀ j, j < lro.length → Link lro j (g j)) (i j : Nat) (hi : i < lro.length)
    (hj : j < lro.length) (he : lro[i]? = lro[j]?) : ∃ m, g^[m] i = j := by
  classical
  have hex : ∃ m, lro[m]? = lro[i]? := ⟨i, rfl⟩
  obtain ⟨f, hfs, hfm⟩ : ∃ f, lro[f]? = lro[i]? ∧ ∀ m, m < f → lro[m]? ≠ lro[i]? :=
    ⟨Nat.find hex, Nat.find_spec hex, fun m hm => Nat.find_min hex hm⟩
  have hfi : f ≤ i := by
    by_contra hc
    exact hfm i (by omega) rfl
  have hfn : f < lro.length := by omega
  obtain ⟨m1, h1⟩ := iterate_descend lro g hg i hi f hfi hfs
  rcases hg f hfn with ⟨hk, hek, -⟩ | ⟨-, -, hk, hek, hl⟩
  · exact absurd (hek.trans hfs) (hfm _ hk)
  · have hjl : j ≤ g f := by
      by_contra hc
      exact hl j (by omega) hj (he.symm.trans hfs.symm)
    obtain ⟨m2, h2⟩ := iterate_descend lro g hg (g f) hk j hjl
      (he.symm.trans (hfs.symm.trans hek.symm))
    refine ⟨m2 + (1 + m1), ?_⟩
    rw [Function.iterate_add_apply, Function.iterate_add_apply, h1, Function.iterate_one]
    exact h2

theorem next_of_target {lro : List Nat} {S : List Int} {j : Nat} (hj : j < lro.length)
    (hs : S[j]? = some (target lro j)) :
    S[j]? = some ((next S j : Nat) : Int) ∧ Link lro j (next S j) := by
  obtain ⟨k, hk, hl⟩ := target_link lro j hj
  have hn : next S j = k := by
    simp [next, List.getD, hs, hk]
  rw [hn]
  exact ⟨by rw [hs, hk], hl⟩

/-! ## The claim on the permutation -/

/-- C31: for every table `lro` of size `3 * sizeSolution` whose entries are
variable identifiers below `nbVariables`, the part of `buildPermutation` that
follows the construction of `lro` returns a slice `S` of that size; every entry
of `S` is a position `k` in range with `lro[k] = lro[i]`, `S` is injective and
onto on the positions, and two positions hold the same variable exactly when
iterating `S` leads from one to the other, so that the positions of a variable
form one cycle. -/
theorem buildPermutation_wire_preserving (nbVariables sizeSolution : Nat) (lro : List Nat)
    (hlen : lro.length = 3 * sizeSolution) (hvalid : ∀ id ∈ lro, id < nbVariables) :
    ∃ S, buildPermutation.fromLRO nbVariables sizeSolution lro = some S ∧
      S.length = 3 * sizeSolution ∧
      (∀ i, i < 3 * sizeSolution →
        ∃ k, k < 3 * sizeSolution ∧ S[i]? = some (k : Int) ∧ lro[k]? = lro[i]?) ∧
      (∀ i j, i < 3 * sizeSolution → j < 3 * sizeSolution → S[i]? = S[j]? → i = j) ∧
      (∀ k, k < 3 * sizeSolution → ∃ i, i < 3 * sizeSolution ∧ S[i]? = some (k : Int)) ∧
      (∀ i j, i < 3 * sizeSolution → j < 3 * sizeSolution →
        (lro[i]? = lro[j]? ↔ ∃ m, (next S)^[m] i = j)) := by
  obtain ⟨S, hS, hsl, hs⟩ := fromLRO_eq nbVariables sizeSolution lro hlen hvalid
  rw [← hlen]
  have hg : ∀ j, j < lro.length → Link lro j (next S j) :=
    fun j hj => (next_of_target hj (hs j hj)).2
  have hv : ∀ j, j < lro.length → S[j]? = some ((next S j : Nat) : Int) :=
    fun j hj => (next_of_target hj (hs j hj)).1
  refine ⟨S, hS, hsl, ?_, ?_, ?_, ?_⟩
  · intro i hi
    obtain ⟨h1, h2⟩ := link_range hi (hg i hi)
    exact ⟨next S i, h1, hv i hi, h2⟩
  · intro i j hi hj he
    rw [hv i hi, hv j hj] at he
    have e : next S i = next S j := by
      have := Option.some.inj he
      exact_mod_cast this
    have hj' := hg j hj
    rw [← e] at hj'
    exact link_inj (hg i hi) hj' hi hj
  · intro k hk
    obtain ⟨i, hi, e⟩ := link_surj lro (next S) hg k hk
    exact ⟨i, hi, by rw [hv i hi, e]⟩
  · intro i j hi hj
    constructor
    · exact iterate_connect lro (next S) hg i j hi hj
    · rintro ⟨m, rfl⟩
      exact (iterate_same lro (next S) hg m i hi).2.symm

theorem buildPermutation_wire_preserving_witness :
    ∃ S, buildPermutation.fromLRO 3 2 [0, 1, 0, 2, 1, 0] = some S ∧
      S.length = 3 * 2 ∧
      (∀ i : Nat, i < 3 * 2 →
        ∃ k : Nat, k < 3 * 2 ∧ S[i]? = some (k : Int) ∧
          ([0, 1, 0, 2, 1, 0] : List Nat)[k]? = ([0, 1, 0, 2, 1, 0] : List Nat)[i]?) ∧
      (∀ i j : Nat, i < 3 * 2 → j < 3 * 2 → S[i]? = S[j]? → i = j) ∧
      (∀ k : Nat, k < 3 * 2 → ∃ i : Nat, i < 3 * 2 ∧ S[i]? = some (k : Int)) ∧
      (∀ i j : Nat, i < 3 * 2 → j < 3 * 2 →
        (([0, 1, 0, 2, 1, 0] : List Nat)[i]? = ([0, 1, 0, 2, 1, 0] : List Nat)[j]? ↔ ∃ m, (next S)^[m] i = j)) :=
  buildPermutation_wire_preserving 3 2 [0, 1, 0, 2, 1, 0] (by decide) (by decide)

end Plonk
